import Mathlib

/-!
Verification development for the word-search puzzle generator
(`src/wordsearchgen/algorithm.py` of thelabcat/word-search-generator).

The Python source is shallowly embedded below.  Machine text cells of the
NumPy table (`dtype=str`, cells `""` or a single character) are modelled as
`Option Char` (`none` = empty string).  NumPy integer fancy indexing is
modelled faithfully, including the wrap-around of negative indices in
`[-dim, 0)` and the `IndexError` (modelled as `Option.none`) outside
`[-dim, dim)`.  Fallible operations (list `pop` on an empty list, `del` of
a missing key, out-of-range indexing) return `Option`.  Randomness
(`random.shuffle`, `random.choice`) is modelled by oracle parameters; the
theorems quantify over every oracle that permutes its input (the only
property `random.shuffle` guarantees).  Python's float `(n) ** 0.5` on a
nonnegative integer, truncated by `int(...)`, is modelled as `Nat.sqrt`
(the floor of the exact square root).
-/

namespace WordSearch

/-- A direction `(dx, dy)` as in the Python source. -/
abbrev Dir := Int × Int

/-- `DIRECTIONS` from the source: the eight unit step vectors, in source order. -/
def DIRECTIONS : List Dir :=
  [(1, -1), (1, 0), (1, 1), (0, 1), (-1, 1), (-1, 0), (-1, -1), (0, -1)]

/-- `EASY_DIRECTIONS = DIRECTIONS[:4]` from the source. -/
def EASY_DIRECTIONS : List Dir := DIRECTIONS.take 4

/-- `ALL_CHARS` from the source: the filling characters / allowed alphabet. -/
def ALL_CHARS : String := "ABCDEFGHIJKLMNOPQRSTUVWXYZ"

/-- `SIZE_FAC_DEFAULT` from the source. -/
def SIZE_FAC_DEFAULT : Nat := 4

/-- `Position` from the source: a potential position for a word.
The constructor asserts `x >= 0 and y >= 0`, so the coordinates are `Nat`. -/
structure Position where
  x : Nat
  y : Nat
  direction : Dir
deriving DecidableEq, Repr

/-- `self.dx` of a `Position`. -/
def Position.dx (p : Position) : Int := p.direction.1

/-- `self.dy` of a `Position`. -/
def Position.dy (p : Position) : Int := p.direction.2

/-- `Position.bounds_check` from the source:
computes where the end of the word would be and checks it against the grid.
(`length - 1` is computed in `Int` because Python subtraction does not
truncate at zero.) -/
def Position.bounds_check (p : Position) (length : Nat) (puzz_dim : Nat) : Bool :=
  let xend : Int := p.x + p.dx * ((length : Int) - 1)
  let yend : Int := p.y + p.dy * ((length : Int) - 1)
  (decide (0 ≤ xend ∧ xend < (puzz_dim : Int))) && (decide (0 ≤ yend ∧ yend < (puzz_dim : Int)))

/-- The X coordinates of `Position.indices` from the source.
For `dx ≠ 0` the source builds `range(x, x + dx*length, dx)`, whose `k`-th
element is `x + dx*k` (`length` elements since `dx = ±1` for the directions
in use); for `dx = 0` it builds `[x] * length`. -/
def Position.indicesX (p : Position) (length : Nat) : List Int :=
  if p.dx ≠ 0 then (List.range length).map (fun k : Nat => (p.x : Int) + p.dx * (k : Int))
  else List.replicate length (p.x : Int)

/-- The Y coordinates of `Position.indices` from the source. -/
def Position.indicesY (p : Position) (length : Nat) : List Int :=
  if p.dy ≠ 0 then (List.range length).map (fun k : Nat => (p.y : Int) + p.dy * (k : Int))
  else List.replicate length (p.y : Int)

/-- The cell sequence of a word placed at `p`: the X and Y index arrays of
`Position.indices`, paired up (NumPy pairs the two index arrays elementwise). -/
def Position.cells (p : Position) (length : Nat) : List (Int × Int) :=
  (p.indicesX length).zip (p.indicesY length)

/-- A grid cell: `none` is the empty string of the NumPy `dtype=str` table,
`some c` a single-character cell. -/
abbrev Cell := Option Char

/-- The puzzle table, indexed `[x][y]` exactly as `self.table[x, y]`. -/
abbrev Grid := List (List Cell)

/-- `Generator.create_empty_table` from the source: `np.empty((dim, dim), dtype=str)`,
a `dim × dim` table of empty strings. -/
def create_empty_table (dim : Nat) : Grid :=
  List.replicate dim (List.replicate dim (none : Cell))

/-- NumPy integer index normalisation on an axis of size `dim`:
indices in `[0, dim)` are used as-is, indices in `[-dim, 0)` wrap around,
anything else raises `IndexError` (modelled as `none`). -/
def normIdx (dim : Nat) (i : Int) : Option Nat :=
  if 0 ≤ i ∧ i < (dim : Int) then some i.toNat
  else if -(dim : Int) ≤ i ∧ i < 0 then some (i + dim).toNat
  else none

/-- Read a cell of the grid at already-normalised coordinates. -/
def gridGet (g : Grid) (x y : Nat) : Cell :=
  (g.getD x []).getD y none

/-- Read a cell at NumPy-style integer coordinates (`none` = `IndexError`). -/
def gridGetI (g : Grid) (xi yi : Int) : Option Cell := do
  let x ← normIdx g.length xi
  let y ← normIdx g.length yi
  pure (gridGet g x y)

/-- Write one cell of the grid at already-normalised coordinates. -/
def gridSet (g : Grid) (x y : Nat) (c : Cell) : Grid :=
  g.modify (fun row => row.set y c) x

/-- Write one cell at NumPy-style integer coordinates (`none` = `IndexError`). -/
def gridSetI (g : Grid) (xi yi : Int) (c : Cell) : Option Grid := do
  let x ← normIdx g.length xi
  let y ← normIdx g.length yi
  pure (gridSet g x y c)

/-- `self.table[indices] = np.array(list(word))`: write the word's letters at
the cell sequence, failing (`none`) if any index is out of NumPy range. -/
def writeWord (g : Grid) (cs : List (Int × Int)) (ls : List Char) : Option Grid :=
  match cs, ls with
  | [], _ => some g
  | _, [] => some g
  | (xi, yi) :: cs', c :: ls' => do
      let g' ← gridSetI g xi yi (some c)
      writeWord g' cs' ls'

/-- The floor of the square root (an executable definition; proved equal to
`Nat.sqrt` in `intSqrt_eq_sqrt`). -/
def intSqrt (n : Nat) : Nat := Nat.findGreatest (fun k => k * k ≤ n) n

/-- `Generator.get_puzzle_dim` from the source.  `int((total * size_fac) ** 0.5)`
is the floor of the square root; `len(max(words, key=len))` is the
maximum word length (on the empty list Python `max` would raise, the caller
asserts the list non-empty first). -/
def get_puzzle_dim (words : List String) (size_fac : Nat) : Nat :=
  let word_letter_total := (words.map String.length).sum
  max (intSqrt (word_letter_total * size_fac))
    (words.foldl (fun m w => max m w.length) 0)

/-- `Generator.all_posits` from the source: every `(x, y, direction)` triple,
in the source's nesting order (`x` outermost, then `y`, then direction). -/
def all_posits (dim : Nat) (directions : List Dir) : List Position :=
  (List.range dim).flatMap fun x =>
    (List.range dim).flatMap fun y =>
      directions.map fun direction => ⟨x, y, direction⟩

/-- `Generator.can_place` from the source.  Returns `none` where the Python
would raise `IndexError` (an index of the cell sequence outside NumPy range —
only possible when the start cell lies outside the grid, since the early
bounds check constrains the end cell).  The grid is assumed square of side
`puzzle.length` (`dim = puzzle.shape[0]`). -/
def can_place (word : String) (pos : Position) (puzzle : Grid) : Option (Bool × Nat) :=
  let wordlen := word.length
  let wordarr := word.toList
  if !(pos.bounds_check wordlen puzzle.length) then some (false, 0)
  else do
    let vals ← (pos.cells wordlen).mapM (fun c => gridGetI puzzle c.1 c.2)
    let intersecion_arr := (vals.zip wordarr).map (fun vc => decide (vc.1 = some vc.2))
    let blankspots := vals.map (fun v => decide (v = none))
    let success_arr := List.zipWith (fun a b => a || b) intersecion_arr blankspots
    pure (!(success_arr.contains false), intersecion_arr.count true)

/-- The generation parameters of one `gen_word_search` call, together with the
oracles for the environment: `shuffle` models successive calls of
`random.shuffle` (theorems assume each output is a permutation of the input,
which is all `random.shuffle` guarantees), and `halt` models the value of the
externally-set `self.halted` flag at each loop-boundary check. -/
structure Cfg where
  words : List String
  directions : List Dir
  size_fac : Nat
  intersect_bias : Int
  shuffle : Nat → List Position → List Position
  halt : Nat → Bool

/-- The mutable state of a `Generator` during `gen_word_search`:
table, candidate cache (`all_workable_posits`, an insertion-ordered dict
modelled as an association list), `all_positions`, `table_history`, `index`,
plus two oracle counters: `rng` (number of `random.shuffle` calls made) and
`t` (number of loop-boundary checks made, used to read the `halted` flag). -/
structure St where
  dim : Nat
  table : Grid
  caches : List (String × List Position)
  allPositions : List Position
  history : List Grid
  index : Nat
  rng : Nat
  t : Nat
deriving DecidableEq, Repr

/-- Python dict assignment `d[k] = v`: update in place if the key is present,
otherwise append (insertion order). -/
def dictSet (d : List (String × List Position)) (k : String) (v : List Position) :
    List (String × List Position) :=
  if d.any (fun e => e.1 = k) then d.map (fun e => if e.1 = k then (k, v) else e)
  else d ++ [(k, v)]

/-- Python dict deletion `del d[k]` (call sites only delete present keys). -/
def dictDel (d : List (String × List Position)) (k : String) :
    List (String × List Position) :=
  d.filter (fun e => ¬(e.1 = k))

/-- `Generator.reset_generation_data` from the source: fresh empty table of the
current dimension, empty candidate cache, recomputed `all_positions`, empty
history, cursor at 0. -/
def resetSt (cfg : Cfg) (s : St) : St :=
  { s with
    table := create_empty_table s.dim
    caches := []
    allPositions := all_posits s.dim cfg.directions
    history := []
    index := 0 }

/-- `Generator.cur_word` from the source: the current word being placed, or
`none` past the end of the list. -/
def curWord (cfg : Cfg) (s : St) : Option String :=
  cfg.words.get? s.index

/-- The list comprehension inside `cur_workable_posits`: the positions `pos` of
`all_positions` with `can_place(word, pos, table)[0]` true, evaluated left to
right; `none` if some `can_place` call raises. -/
def legalPosits (w : String) (table : Grid) : List Position → Option (List Position)
  | [] => some []
  | p :: ps => do
      let r ← can_place w p table
      let rest ← legalPosits w table ps
      pure (if r.1 then p :: rest else rest)

/-- The sort key `lambda pos: Generator.can_place(...)[1]` used by the
intersection bias.  On the already-filtered legal candidates `can_place`
never raises, so the `getD` default is dead code. -/
def sortKeyFn (w : String) (table : Grid) (p : Position) : Nat :=
  ((can_place w p table).map Prod.snd).getD 0

/-- The body of the lazy computation in the `cur_workable_posits` property:
filter the legal positions, shuffle them, and if `intersect_bias` is nonzero
stable-sort ascending by intersection count, reversing when the bias is
positive. -/
def computeWorkable (cfg : Cfg) (w : String) (table : Grid)
    (allPositions : List Position) (rng : Nat) : Option (List Position) := do
  let legal ← legalPosits w table allPositions
  let shuffled := cfg.shuffle rng legal
  if cfg.intersect_bias ≠ 0 then
    let sorted := List.insertionSort
      (fun a b => sortKeyFn w table a ≤ sortKeyFn w table b) shuffled
    pure (if 0 < cfg.intersect_bias then sorted.reverse else sorted)
  else
    pure shuffled

/-- The `cur_workable_posits` property read: return the cached list for the
current word, computing and storing it first when absent.  Returns the list
and the updated state (`caches`, `rng`).  `none` when `cur_word` is `None`
(never the case at the call sites, which run under the loop guard) or when the
computation raises. -/
def getWorkable (cfg : Cfg) (s : St) : Option (List Position × St) := do
  let w ← curWord cfg s
  match s.caches.lookup w with
  | some l => pure (l, s)
  | none =>
      let l ← computeWorkable cfg w s.table s.allPositions s.rng
      pure (l, { s with caches := dictSet s.caches w l, rng := s.rng + 1 })

/-- One iteration of the `while` loop body of `gen_word_search` (the loop guard
has already passed).  `none` models an uncaught Python exception. -/
def loopBody (cfg : Cfg) (s : St) : Option St := do
  let (l, s₁) ← getWorkable cfg s
  if l.isEmpty then do
    -- `del self.cur_workable_posits`
    let w ← curWord cfg s₁
    let caches₂ := dictDel s₁.caches w
    -- `self.index -= 1`
    if s₁.index = 0 then
      -- `if self.index < 0`: grow the puzzle and reset
      pure (resetSt cfg { s₁ with dim := s₁.dim + 1, caches := caches₂ })
    else do
      -- restore the table to the snapshot before the previous word was placed
      let i' := s₁.index - 1
      let tbl ← s₁.history.get? i'
      let hist' := s₁.history.eraseIdx i'
      let s₂ : St := { s₁ with caches := caches₂, index := i', table := tbl, history := hist' }
      -- `self.cur_workable_posits.pop(0)` (property read, then pop of the head)
      let (l', s₃) ← getWorkable cfg s₂
      let w' ← curWord cfg s₂
      match l' with
      | [] => none  -- `pop` of an empty list raises
      | _ :: rest => pure { s₃ with caches := dictSet s₃.caches w' rest }
  else do
    -- place the word at the first workable position
    let w ← curWord cfg s₁
    let hist' := s₁.history ++ [s₁.table]  -- `table_history.append(self.table.copy())`
    let p ← l.head?
    let tbl' ← writeWord s₁.table (p.cells w.length) w.toList
    pure { s₁ with table := tbl', history := hist', index := s₁.index + 1 }

/-- One loop-boundary check plus (when the loop continues) one body iteration:
`.inl s'` continues the loop, `.inr none` is the cancelled return (`None`),
`.inr (some s)` leaves the loop normally with final state `s`.  The `halted`
flag is read through `cfg.halt` at boundary counter `s.t`. -/
def stepState (cfg : Cfg) (s : St) : Option (St ⊕ Option St) :=
  if s.index < cfg.words.length then
    if cfg.halt s.t then some (Sum.inr none)
    else match loopBody cfg s with
      | none => none
      | some s' => some (Sum.inl { s' with t := s.t + 1 })
  else
    if cfg.halt s.t then some (Sum.inr none) else some (Sum.inr (some s))

/-- Run the placement loop with `fuel` boundary checks; `none` when the fuel
runs out (or an exception is raised), `some none` the cancelled return,
`some (some s)` normal completion in state `s`. -/
def runLoop (cfg : Cfg) : Nat → St → Option (Option St)
  | 0, _ => none
  | fuel + 1, s =>
      match stepState cfg s with
      | none => none
      | some (Sum.inr r) => some r
      | some (Sum.inl s') => runLoop cfg fuel s'

/-- The state at the top of `gen_word_search` just before the loop:
words already deduplicated and stored, `dim` computed by `get_puzzle_dim`,
then `reset_generation_data`. -/
def initSt (cfg : Cfg) : St :=
  let dim := get_puzzle_dim cfg.words cfg.size_fac
  resetSt cfg
    { dim := dim, table := [], caches := [], allPositions := [], history := [],
      index := 0, rng := 0, t := 0 }

/-- The state after `k` completed loop iterations (`none` once the loop has
exited, a fuel-free trace of the looping states). -/
def iter (cfg : Cfg) : Nat → Option St
  | 0 => some (initSt cfg)
  | k + 1 =>
      match iter cfg k with
      | some s =>
          match stepState cfg s with
          | some (Sum.inl s') => some s'
          | _ => none
      | none => none

/-- `list(set(words))` from the source.  Python's set iteration order is
unspecified; this is one duplicate-free enumeration, and the run-level
theorems quantify over every duplicate-free word list so any enumeration
order is covered. -/
def pyDedup (words : List String) : List String := words.dedup

/-- `random.choice(ALL_CHARS)` with oracle value `r`: whatever the random
draw, the result is a character of `ALL_CHARS`. -/
def choiceChar (r : Nat) : Char :=
  ALL_CHARS.toList.getD (r % ALL_CHARS.length) 'A'

/-- Python `str.upper()` of a single character.  Python's case mapping
restricted to the characters in play (ASCII and the filler dot) is the ASCII
mapping. -/
def pyUpper (c : Char) : Char :=
  if 97 ≤ c.toNat ∧ c.toNat ≤ 122 then Char.ofNat (c.toNat - 32) else c

/-- Python `str.lower()` of a single character (ASCII mapping, see `pyUpper`). -/
def pyLower (c : Char) : Char :=
  if 65 ≤ c.toNat ∧ c.toNat ≤ 90 then Char.ofNat (c.toNat + 32) else c

/-- `Generator.fill_with_random` from the source: each empty cell becomes
`random.choice(ALL_CHARS)` (`pick` is the per-cell random oracle), filled
cells are kept. -/
def fill_with_random (pick : Nat → Nat → Nat) (g : Grid) : Grid :=
  g.mapIdx fun x row => row.mapIdx fun y c =>
    match c with
    | some ch => some ch
    | none => some (choiceChar (pick x y))

/-- `Generator.fill_with_dots` from the source: each empty cell becomes the
placeholder middle dot, filled cells are kept. -/
def fill_with_dots (g : Grid) : Grid :=
  g.map fun row => row.map fun c => some (c.getD '·')

/-- `np.char.lower(table)`: lower-case every (single-character) cell; empty
cells stay empty. -/
def lowerGrid (g : Grid) : Grid :=
  g.map fun row => row.map fun c => c.map pyLower

/-- The answer-key loop `table[pos.x, pos.y] = table[pos.x, pos.y].upper()`
over the word-start positions. -/
def upperStarts (g : Grid) (starts : List Position) : Grid :=
  starts.foldl (fun tb p => gridSet tb p.x p.y ((gridGet tb p.x p.y).map pyUpper)) g

/-- The grid of the answer-key rendering, before the textual layout: cells
lower-cased, blanks replaced by dots, each word's start cell upper-cased. -/
def renderKeyGrid (g : Grid) (starts : List Position) : Grid :=
  upperStarts (fill_with_dots (lowerGrid g)) starts

/-- The grid of the puzzle rendering, before the textual layout. -/
def renderPuzzleGrid (pick : Nat → Nat → Nat) (g : Grid) : Grid :=
  fill_with_random pick g

/-- `np.fliplr`: reverse each row along the second axis. -/
def fliplr (g : Grid) : Grid := g.map List.reverse

/-- `np.rot90`: rotate counter-clockwise; row `i` of the result is
`[g[j][n-1-i] for j in range(n)]`. -/
def rot90 (g : Grid) : Grid :=
  (List.range g.length).map fun i => g.map fun row => row.getD (g.length - 1 - i) none

/-- A cell as the string it joins into (`""` for an empty cell). -/
def cellStr (c : Cell) : String :=
  match c with
  | some ch => String.singleton ch
  | none => ""

/-- The final textual layout: rows space-joined, newline-separated, after the
axis swap `np.rot90(np.fliplr(table))`. -/
def renderRows (g : Grid) : String :=
  String.intercalate "\n"
    ((rot90 (fliplr g)).map fun row => String.intercalate " " (row.map cellStr))

/-- `positions[0]` for each entry of `all_workable_posits.items()`:
the word-start positions the answer key upper-cases.  `none` if some cached
list is empty (the Python indexing would raise; after a successful run every
cache is non-empty). -/
def cacheStarts (caches : List (String × List Position)) : Option (List Position) :=
  caches.mapM (fun e => e.2.head?)

/-- `Generator.render_puzzle` from the source, reading the final state. -/
def render_puzzle (pick : Nat → Nat → Nat) (s : St) (answer_key : Bool) : Option String :=
  if answer_key then do
    let starts ← cacheStarts s.caches
    pure (renderRows (renderKeyGrid s.table starts))
  else
    pure (renderRows (renderPuzzleGrid pick s.table))

/-- `Generator.gen_word_search` from the source, on a fresh `Generator` with
the given arguments: store the words, deduplicate, assert non-empty, size the
grid, reset, run the loop, and on completion render the puzzle and its answer
key.  The outer `none` models a raised exception or exhausted fuel, the inner
`none` the `return None` of a cancelled run. -/
def gen_word_search (cfg : Cfg) (pick : Nat → Nat → Nat) (fuel : Nat) :
    Option (Option (String × String)) :=
  let ws := pyDedup cfg.words
  if ws = [] then none  -- `assert self.words` fails
  else
    let cfgd : Cfg := { cfg with words := ws }
    match runLoop cfgd fuel (initSt cfgd) with
    | none => none
    | some none => some none
    | some (some s) =>
        match render_puzzle pick s false, render_puzzle pick s true with
        | some p, some k => some (some (p, k))
        | _, _ => none

/-- The ceiling of the square root, as the spec's words for `compute_dimension`
demand (`ceil(sqrt(n))`): the least `m` with `n ≤ m * m`. -/
def ceilSqrt (n : Nat) : Nat :=
  if n = 0 then 0 else intSqrt (n - 1) + 1

/-- The dimension formula exactly as claim C3 words it (spec-side definition,
to compare against `get_puzzle_dim` from the source). -/
def claimedDim (words : List String) (size_fac : Nat) : Nat :=
  max (ceilSqrt (((words.map String.length).sum) * size_fac))
    (words.foldl (fun m w => max m w.length) 0)

/-- The bounds predicate exactly as claim C2 words it (spec-side definition):
both the start cell and the end cell lie within `[0, dim)` on both axes. -/
def claimedBounds (p : Position) (length : Nat) (dim : Nat) : Bool :=
  let xend : Int := p.x + p.dx * ((length : Int) - 1)
  let yend : Int := p.y + p.dy * ((length : Int) - 1)
  (decide ((p.x : Int) < (dim : Int))) && (decide ((p.y : Int) < (dim : Int))) &&
  (decide (0 ≤ xend ∧ xend < (dim : Int))) && (decide (0 ≤ yend ∧ yend < (dim : Int)))

/-- The head of a word's cached candidate list: the position the word is (or
would be) placed at. -/
def cacheHead (s : St) (w : String) : Option Position :=
  (s.caches.lookup w).bind List.head?

/-- The grid obtained by placing words `0 .. j-1` at their cached head
positions on an empty `dim × dim` table.  During a run this reconstructs the
table as it was immediately before word `j` was placed (see `INVProp`). -/
def placedGrid (cfg : Cfg) (s : St) : Nat → Option Grid
  | 0 => some (create_empty_table s.dim)
  | j + 1 => do
      let g ← placedGrid cfg s j
      let w ← cfg.words.get? j
      let p ← cacheHead s w
      writeWord g (p.cells w.length) w.toList

/-- Whether the loop iteration at state `s` is a placement iteration (the
current word has a non-empty workable-position list and the loop runs). -/
def isPlaceIter (cfg : Cfg) (s : St) : Bool :=
  (decide (s.index < cfg.words.length)) && (!(cfg.halt s.t)) &&
    (match getWorkable cfg s with
     | some (l, _) => !l.isEmpty
     | none => false)

/-- The table exactly as it was at the most recent placement of word `j`
among the first `k` iterations of the run (the snapshot taken immediately
before that word was written). -/
def lastPlaceGrid (cfg : Cfg) : Nat → Nat → Option Grid
  | 0, _ => none
  | k + 1, j =>
      match iter cfg k with
      | some s =>
          if s.index = j ∧ isPlaceIter cfg s then some s.table
          else lastPlaceGrid cfg k j
      | none => lastPlaceGrid cfg k j

/-- The run invariant of the placement loop, maintained by every iteration:
the cursor stays within the word list, the history stack has one snapshot per
placed word, `all_positions` matches the current dimension, cache keys are
words at indices at most the cursor (with no duplicate keys), every placed
word has a non-empty cache, every cached position is legal for its word
against the grid state in which the cache was computed (reconstructed by
`placedGrid`), the current table is the placement of words `0 .. index-1` at
their cache heads, and each history entry `j` is the placement of words
`0 .. j-1`. -/
structure INVProp (cfg : Cfg) (s : St) : Prop where
  index_le : s.index ≤ cfg.words.length
  hist_len : s.history.length = s.index
  allpos : s.allPositions = all_posits s.dim cfg.directions
  keys_nodup : (s.caches.map Prod.fst).Nodup
  cache_keys : ∀ e ∈ s.caches, ∃ j, j ≤ s.index ∧ cfg.words.get? j = some e.1
  cache_nonempty : ∀ j < s.index, ∃ w l, cfg.words.get? j = some w ∧
    s.caches.lookup w = some l ∧ l ≠ []
  cache_legal : ∀ j ≤ s.index, ∀ w, cfg.words.get? j = some w →
    ∀ l, s.caches.lookup w = some l → ∀ p ∈ l,
      p ∈ s.allPositions ∧ ∃ G, placedGrid cfg s j = some G ∧
        ∃ cnt, can_place w p G = some (true, cnt)
  table_eq : placedGrid cfg s s.index = some s.table
  hist_eq : ∀ j < s.index, s.history.get? j = placedGrid cfg s j

/-- A concrete three-word run (only direction `(1, 0)`, identity shuffle,
never halted): on the resulting 2 × 2 grid the third word has no workable
position after the first two are placed, forcing a backtrack. -/
def cfgBt : Cfg := ⟨["AB", "CD", "EF"], [(1, 0)], 1, 0, fun _ l => l, fun _ => false⟩

/-- The state of that run after two loop iterations (both `"AB"` and `"CD"`
placed). -/
def sBt : St := (iter cfgBt 2).getD ⟨0, [], [], [], [], 0, 0, 0⟩

/-- The state after the (empty) workable-position list of `"EF"` has been
computed and cached at `sBt`. -/
def sBt₁ : St := ((getWorkable cfgBt sBt).getD ([], sBt)).2

/-- A concrete two-word run used to exhibit an in-bounds placement write. -/
def cfgPl : Cfg := ⟨["AB", "CD"], [(1, 0)], 1, 0, fun _ l => l, fun _ => false⟩

/-- The state after the workable-position list of `"AB"` has been computed
and cached at the initial state of that run. -/
def sPl₁ : St := ((getWorkable cfgPl (initSt cfgPl)).getD ([], initSt cfgPl)).2

/-- The number of non-empty cells of the (square-indexed) grid: the filled
positions of `[0, len) x [0, len)`. -/
def filledCount (g : Grid) : Nat :=
  (((Finset.range g.length) ×ˢ (Finset.range g.length)).filter
    (fun xy => (gridGet g xy.1 xy.2).isSome)).card

/-- The candidate digit of word `j` in the loop measure: the length of its
cached workable-position list, or one more than the total position count when
the word has no cache entry. -/
def digitOf (cfg : Cfg) (s : St) (j : Nat) : Nat :=
  match cfg.words.get? j with
  | some w =>
      match s.caches.lookup w with
      | some l => l.length
      | none => s.allPositions.length + 1
  | none => 0

/-- A strictly decreasing measure of the placement loop at fixed dimension:
the candidate digits weighted by powers of `|all_positions| + 2`, most
significant first, plus the number of words still to place. -/
def Vmeasure (cfg : Cfg) (s : St) : Nat :=
  (Finset.range cfg.words.length).sum
    (fun j => digitOf cfg s j * (s.allPositions.length + 2) ^ (cfg.words.length - j))
  + (cfg.words.length - s.index)

/-- A concrete one-word full-default run (all eight directions, default
size factor, identity shuffle, never halted) for the termination claim. -/
def cfgC1 : Cfg := ⟨["CAT"], DIRECTIONS, SIZE_FAC_DEFAULT, 0, fun _ l => l, fun _ => false⟩

/-! ### Helper lemmas -/

theorem intSqrt_eq_sqrt (n : Nat) : intSqrt n = Nat.sqrt n := by
  unfold intSqrt
  apply Nat.le_antisymm
  · have hs : Nat.findGreatest (fun k => k * k ≤ n) n *
        Nat.findGreatest (fun k => k * k ≤ n) n ≤ n :=
      @Nat.findGreatest_spec 0 (fun k => k * k ≤ n) (fun _ => Nat.decLe _ _) n (Nat.zero_le n) (by simp)
    exact Nat.le_sqrt.mpr hs
  · exact Nat.le_findGreatest (Nat.sqrt_le_self n) (Nat.sqrt_le n)

theorem foldl_maxlen_acc_le (l : List String) :
    ∀ a : Nat, a ≤ l.foldl (fun m w => max m w.length) a := by
  induction l with
  | nil => intro a; simp
  | cons w l ih =>
      intro a
      calc a ≤ max a w.length := le_max_left _ _
        _ ≤ _ := ih _

theorem foldl_maxlen_bound (l : List String) :
    ∀ a : Nat, ∀ w' ∈ l, w'.length ≤ l.foldl (fun m w => max m w.length) a := by
  induction l with
  | nil => intro a w' h; cases h
  | cons w l ih =>
      intro a w' h
      rcases List.mem_cons.mp h with h | h
      · subst h
        calc w'.length ≤ max a w'.length := le_max_right _ _
          _ ≤ _ := foldl_maxlen_acc_le l _
      · exact ih _ _ h

theorem foldl_maxlen_attained (l : List String) :
    ∀ a : Nat, (∃ w ∈ l, l.foldl (fun m w => max m w.length) a = w.length) ∨
      l.foldl (fun m w => max m w.length) a = a := by
  induction l with
  | nil => exact fun a => Or.inr rfl
  | cons w l ih =>
      intro a
      have hstep : (w :: l).foldl (fun m w => max m w.length) a
          = l.foldl (fun m w => max m w.length) (max a w.length) := rfl
      rcases ih (max a w.length) with ⟨w', hw', he⟩ | he
      · exact Or.inl ⟨w', List.mem_cons_of_mem _ hw', by rw [hstep, he]⟩
      · by_cases hc : a ≤ w.length
        · refine Or.inl ⟨w, List.mem_cons_self _ _, ?_⟩
          rw [hstep, he]
          omega
        · refine Or.inr ?_
          rw [hstep, he]
          omega

theorem replicate_eq_map_range (m : Nat) (a : Int) :
    List.replicate m a = (List.range m).map (fun k : Nat => a + 0 * (k : Int)) := by
  simp

theorem indicesX_eq (p : Position) (len : Nat) :
    p.indicesX len = (List.range len).map (fun k : Nat => (p.x : Int) + p.dx * (k : Int)) := by
  unfold Position.indicesX
  by_cases h : p.dx = 0
  · rw [if_neg (by simp [h]), h]
    exact replicate_eq_map_range len p.x
  · rw [if_pos h]

theorem indicesY_eq (p : Position) (len : Nat) :
    p.indicesY len = (List.range len).map (fun k : Nat => (p.y : Int) + p.dy * (k : Int)) := by
  unfold Position.indicesY
  by_cases h : p.dy = 0
  · rw [if_neg (by simp [h]), h]
    exact replicate_eq_map_range len p.y
  · rw [if_pos h]

theorem cells_eq (p : Position) (len : Nat) :
    p.cells len = (List.range len).map
      (fun k : Nat => ((p.x : Int) + p.dx * (k : Int), (p.y : Int) + p.dy * (k : Int))) := by
  unfold Position.cells
  rw [indicesX_eq, indicesY_eq, List.zip_map']

/-- Key geometric fact: if the start cell is inside the grid and
`bounds_check` passes, every cell of the word's cell sequence is inside the
grid (each coordinate moves monotonically from start to end). -/
theorem cells_in_bounds (p : Position) (len dim : Nat)
    (hx : p.x < dim) (hy : p.y < dim) (hb : p.bounds_check len dim = true) :
    ∀ c ∈ p.cells len, 0 ≤ c.1 ∧ c.1 < (dim : Int) ∧ 0 ≤ c.2 ∧ c.2 < (dim : Int) := by
  intro c hc
  rw [cells_eq] at hc
  simp only [List.mem_map, List.mem_range] at hc
  obtain ⟨k, hk, rfl⟩ := hc
  simp only [Position.bounds_check, Bool.and_eq_true, decide_eq_true_eq] at hb
  obtain ⟨⟨hx0, hx1⟩, hy0, hy1⟩ := hb
  have hk' : (k : Int) ≤ (len : Int) - 1 := by omega
  have hk0 : (0 : Int) ≤ (k : Int) := Int.natCast_nonneg k
  constructor
  · rcases le_or_lt 0 p.dx with hdx | hdx
    · have : (0 : Int) ≤ p.dx * k := mul_nonneg hdx hk0
      have : (0 : Int) ≤ (p.x : Int) := Int.natCast_nonneg _
      simp only []
      linarith
    · have h1 : p.dx * ((len : Int) - 1) ≤ p.dx * k :=
        mul_le_mul_of_nonpos_left hk' (le_of_lt hdx)
      simp only []
      linarith
  refine ⟨?_, ?_, ?_⟩
  · rcases le_or_lt 0 p.dx with hdx | hdx
    · have h1 : p.dx * k ≤ p.dx * ((len : Int) - 1) := mul_le_mul_of_nonneg_left hk' hdx
      have h2 : ((p.x : Int)) < dim := by exact_mod_cast hx
      simp only []
      linarith
    · have : p.dx * k ≤ 0 := mul_nonpos_of_nonpos_of_nonneg (le_of_lt hdx) hk0
      have h2 : ((p.x : Int)) < dim := by exact_mod_cast hx
      simp only []
      linarith
  · rcases le_or_lt 0 p.dy with hdy | hdy
    · have : (0 : Int) ≤ p.dy * k := mul_nonneg hdy hk0
      have : (0 : Int) ≤ (p.y : Int) := Int.natCast_nonneg _
      simp only []
      linarith
    · have h1 : p.dy * ((len : Int) - 1) ≤ p.dy * k :=
        mul_le_mul_of_nonpos_left hk' (le_of_lt hdy)
      simp only []
      linarith
  · rcases le_or_lt 0 p.dy with hdy | hdy
    · have h1 : p.dy * k ≤ p.dy * ((len : Int) - 1) := mul_le_mul_of_nonneg_left hk' hdy
      have h2 : ((p.y : Int)) < dim := by exact_mod_cast hy
      simp only []
      linarith
    · have : p.dy * k ≤ 0 := mul_nonpos_of_nonpos_of_nonneg (le_of_lt hdy) hk0
      have h2 : ((p.y : Int)) < dim := by exact_mod_cast hy
      simp only []
      linarith

theorem normIdx_of_inbounds (dim : Nat) (i : Int) (h0 : 0 ≤ i) (h1 : i < (dim : Int)) :
    normIdx dim i = some i.toNat := by
  simp [normIdx, h0, h1]

theorem gridGetI_of_inbounds (g : Grid) (xi yi : Int)
    (hx0 : 0 ≤ xi) (hx1 : xi < (g.length : Int)) (hy0 : 0 ≤ yi) (hy1 : yi < (g.length : Int)) :
    gridGetI g xi yi = some (gridGet g xi.toNat yi.toNat) := by
  simp [gridGetI, normIdx_of_inbounds _ _ hx0 hx1, normIdx_of_inbounds _ _ hy0 hy1]

theorem mapM_option_eq_map {α β : Type} (f : α → Option β) (g : α → β) (l : List α)
    (h : ∀ a ∈ l, f a = some (g a)) : l.mapM f = some (l.map g) := by
  induction l with
  | nil => rfl
  | cons a l ih =>
      rw [List.mapM_cons, h a (List.mem_cons_self _ _),
        ih (fun x hx => h x (List.mem_cons_of_mem _ hx))]
      rfl

theorem not_contains_false_iff (s : List Bool) :
    ((!(s.contains false)) = true) ↔ ∀ b ∈ s, b = true := by
  induction s with
  | nil => simp
  | cons b s ih =>
      cases b <;> simp [List.contains_cons, *]

theorem count_true_map {α : Type} (f : α → Bool) (l : List α) :
    ((l.map f).count true) = l.countP f := by
  induction l with
  | nil => rfl
  | cons a l ih =>
      rw [List.map_cons, List.count_cons, List.countP_cons, ih]
      cases h : f a <;> simp [h]

theorem self_eq_map_range_getD {α : Type} (l : List α) (d : α) :
    l = (List.range l.length).map (fun k => l.getD k d) := by
  apply List.ext_getElem
  · simp
  · intro n h1 h2
    simp [List.getD_eq_getElem?_getD, List.getElem?_eq_getElem h1]

theorem zipWith_map_same {α β γ δ : Type} (f : β → γ → δ) (g : α → β) (h : α → γ)
    (l : List α) :
    List.zipWith f (l.map g) (l.map h) = l.map (fun x => f (g x) (h x)) := by
  induction l with
  | nil => rfl
  | cons a l ih => simp [ih]

/-! ### Claim C2 -/

/-- Claim C2 counterexample: at `Position ⟨4, 0, (-1, 0)⟩`, word length 3,
grid dimension 3, `bounds_check` returns `true` although the start cell
`(4, 0)` lies outside `[0, 3)` — the code checks only the end cell, so the
claimed if-and-only-if fails at this input. -/
theorem C2_counterexample :
    ¬ ((Position.bounds_check ⟨4, 0, (-1, 0)⟩ 3 3 = true) ↔
      (claimedBounds ⟨4, 0, (-1, 0)⟩ 3 3 = true)) := by
  decide

/-- Claim C2, amended: for every `Position` (coordinates nonnegative,
direction one of the eight unit vectors), word length ≥ 1, and grid
dimension ≥ 1, `bounds_check(length, dim)` returns true if and only if the
computed end cell `(x + dx*(length-1), y + dy*(length-1))` lies within
`[0, dim)` on both axes — the start cell is not examined. -/
theorem C2_bounds_check_end_only (p : Position) (length dim : Nat)
    (hdir : p.direction ∈ DIRECTIONS) (hlen : 1 ≤ length) (hdim : 1 ≤ dim) :
    p.bounds_check length dim = true ↔
      (0 ≤ (p.x : Int) + p.dx * ((length : Int) - 1) ∧
        (p.x : Int) + p.dx * ((length : Int) - 1) < (dim : Int) ∧
        0 ≤ (p.y : Int) + p.dy * ((length : Int) - 1) ∧
        (p.y : Int) + p.dy * ((length : Int) - 1) < (dim : Int)) := by
  simp only [Position.bounds_check, Bool.and_eq_true, decide_eq_true_eq]
  tauto

/-- Witness for the amended C2 at a concrete input. -/
theorem C2_witness :
    (Position.bounds_check ⟨0, 0, (1, 0)⟩ 2 2 = true ↔
      (0 ≤ ((0 : Nat) : Int) + (Position.dx ⟨0, 0, (1, 0)⟩) * (((2 : Nat) : Int) - 1) ∧
        ((0 : Nat) : Int) + (Position.dx ⟨0, 0, (1, 0)⟩) * (((2 : Nat) : Int) - 1) < ((2 : Nat) : Int) ∧
        0 ≤ ((0 : Nat) : Int) + (Position.dy ⟨0, 0, (1, 0)⟩) * (((2 : Nat) : Int) - 1) ∧
        ((0 : Nat) : Int) + (Position.dy ⟨0, 0, (1, 0)⟩) * (((2 : Nat) : Int) - 1) < ((2 : Nat) : Int))) :=
  C2_bounds_check_end_only ⟨0, 0, (1, 0)⟩ 2 2 (by decide) (by decide) (by decide)

/-! ### Claim C3 -/

/-- Claim C3 counterexample: for words `["AB", "A"]` and `size_fac = 4` the
code computes `max(int(sqrt(12)), 2) = 3` (floor of the square root), while
the claim's formula `max(ceil(sqrt(12)), 2) = 4` demands the ceiling. -/
theorem C3_counterexample :
    get_puzzle_dim ["AB", "A"] 4 ≠ claimedDim ["AB", "A"] 4 := by
  decide

/-- Claim C3, amended: for every non-empty word list and positive `size_fac`,
`get_puzzle_dim` equals the maximum of the floor (not the ceiling) of the
square root of the total letter count times `size_fac`, and the length of a
longest word. -/
theorem C3_get_puzzle_dim (words : List String) (hne : words ≠ []) (size_fac : Nat)
    (hsf : 0 < size_fac) :
    ∃ w ∈ words, (∀ w' ∈ words, w'.length ≤ w.length) ∧
      get_puzzle_dim words size_fac =
        max (Nat.sqrt (((words.map String.length).sum) * size_fac)) w.length := by
  rcases foldl_maxlen_attained words 0 with ⟨w, hw, he⟩ | he
  · exact ⟨w, hw, fun w' h => he ▸ foldl_maxlen_bound words 0 w' h,
      by simp [get_puzzle_dim, he, intSqrt_eq_sqrt]⟩
  · rcases words with _ | ⟨w, l⟩
    · exact absurd rfl hne
    · refine ⟨w, List.mem_cons_self _ _, ?_, ?_⟩
      · intro w' h
        have := foldl_maxlen_bound (w :: l) 0 w' h
        omega
      · have h1 := foldl_maxlen_bound (w :: l) 0 w (List.mem_cons_self _ _)
        simp only [get_puzzle_dim, he, intSqrt_eq_sqrt] at *
        omega

/-- Witness for the amended C3 at a concrete input. -/
theorem C3_witness :
    ∃ w ∈ ["AB", "A"], (∀ w' ∈ ["AB", "A"], w'.length ≤ w.length) ∧
      get_puzzle_dim ["AB", "A"] 4 =
        max (Nat.sqrt ((([ "AB", "A" ].map String.length).sum) * 4)) w.length :=
  C3_get_puzzle_dim ["AB", "A"] (by decide) 4 (by decide)

/-! ### Claim C4 -/

/-- Claim C4 counterexample: at `Position ⟨4, 0, (-1, 0)⟩` on an empty 3×3
grid, the bounds check passes (it only examines the end cell), but
`can_place` does not return any pair at all — the NumPy indexing of the cell
sequence raises `IndexError` (modelled as `none`) because the start cell is
outside the grid.  The claim's "otherwise" branch therefore fails at this
input. -/
theorem C4_counterexample :
    Position.bounds_check ⟨4, 0, (-1, 0)⟩ ("ABC".length) 3 = true ∧
    can_place "ABC" ⟨4, 0, (-1, 0)⟩ (create_empty_table 3) = none := by
  constructor
  · decide
  · decide

/-- Claim C4, amended: for every word, every `Position` whose start cell lies
inside the (square) grid, `can_place` returns `(false, 0)` whenever the bounds
check fails; otherwise it returns a pair whose boolean is true iff every cell
of the word's cell sequence is empty or already holds the word's
corresponding letter, and whose integer equals the number of cells of the
sequence that already hold the matching letter. -/
theorem C4_can_place (word : String) (p : Position) (g : Grid)
    (hx : p.x < g.length) (hy : p.y < g.length) :
    (p.bounds_check word.length g.length = false → can_place word p g = some (false, 0)) ∧
    (p.bounds_check word.length g.length = true →
      ∃ b n, can_place word p g = some (b, n) ∧
        (b = true ↔ ∀ k : Nat, k < word.length →
          gridGet g ((p.x : Int) + p.dx * (k : Int)).toNat
              ((p.y : Int) + p.dy * (k : Int)).toNat = none ∨
          gridGet g ((p.x : Int) + p.dx * (k : Int)).toNat
              ((p.y : Int) + p.dy * (k : Int)).toNat = some (word.toList.getD k 'A')) ∧
        n = (List.range word.length).countP (fun k : Nat =>
          decide (gridGet g ((p.x : Int) + p.dx * (k : Int)).toNat
              ((p.y : Int) + p.dy * (k : Int)).toNat = some (word.toList.getD k 'A')))) := by
  constructor
  · intro hb
    simp [can_place, hb]
  · intro hb
    have hcells := cells_in_bounds p word.length g.length hx hy hb
    have hvals : (p.cells word.length).mapM (fun c => gridGetI g c.1 c.2)
        = some ((p.cells word.length).map (fun c => gridGet g c.1.toNat c.2.toNat)) := by
      apply mapM_option_eq_map
      intro c hc
      obtain ⟨h1, h2, h3, h4⟩ := hcells c hc
      exact gridGetI_of_inbounds g c.1 c.2 h1 h2 h3 h4
    have hmap : (p.cells word.length).map (fun c => gridGet g c.1.toNat c.2.toNat)
        = (List.range word.length).map (fun k : Nat =>
            gridGet g ((p.x : Int) + p.dx * (k : Int)).toNat
              ((p.y : Int) + p.dy * (k : Int)).toNat) := by
      rw [cells_eq, List.map_map]
      rfl
    have hword : word.toList = (List.range word.length).map
        (fun k => word.toList.getD k 'A') := self_eq_map_range_getD word.toList 'A'
    simp only [can_place, hb, Bool.not_true, Bool.false_eq_true, if_false]
    rw [hvals]
    refine ⟨_, _, rfl, ?_, ?_⟩
    · conv_lhs => rw [hmap, hword]
      rw [List.zip_map', List.map_map, List.map_map, zipWith_map_same]
      rw [not_contains_false_iff]
      simp only [List.mem_map, List.mem_range, Function.comp]
      constructor
      · intro hall k hk
        have := hall _ ⟨k, hk, rfl⟩
        simp only [Bool.or_eq_true, decide_eq_true_eq] at this
        tauto
      · intro hall b hb'
        obtain ⟨k, hk, rfl⟩ := hb'
        simp only [Bool.or_eq_true, decide_eq_true_eq]
        rcases hall k hk with h | h
        · exact Or.inr h
        · exact Or.inl h
    · conv_lhs => rw [hmap, hword]
      rw [List.zip_map', List.map_map, count_true_map]
      rfl

/-- Witness for the amended C4 at a concrete input: the word "AB" placed
left-to-right at the origin of an empty 2×2 grid. -/
theorem C4_witness :
    (Position.bounds_check ⟨0, 0, (1, 0)⟩ ("AB".length) (create_empty_table 2).length = false →
      can_place "AB" ⟨0, 0, (1, 0)⟩ (create_empty_table 2) = some (false, 0)) ∧
    (Position.bounds_check ⟨0, 0, (1, 0)⟩ ("AB".length) (create_empty_table 2).length = true →
      ∃ b n, can_place "AB" ⟨0, 0, (1, 0)⟩ (create_empty_table 2) = some (b, n) ∧
        (b = true ↔ ∀ k : Nat, k < "AB".length →
          gridGet (create_empty_table 2) (((0 : Nat) : Int) + (Position.dx ⟨0, 0, (1, 0)⟩) * (k : Int)).toNat
              (((0 : Nat) : Int) + (Position.dy ⟨0, 0, (1, 0)⟩) * (k : Int)).toNat = none ∨
          gridGet (create_empty_table 2) (((0 : Nat) : Int) + (Position.dx ⟨0, 0, (1, 0)⟩) * (k : Int)).toNat
              (((0 : Nat) : Int) + (Position.dy ⟨0, 0, (1, 0)⟩) * (k : Int)).toNat
            = some ("AB".toList.getD k 'A')) ∧
        n = (List.range "AB".length).countP (fun k : Nat =>
          decide (gridGet (create_empty_table 2) (((0 : Nat) : Int) + (Position.dx ⟨0, 0, (1, 0)⟩) * (k : Int)).toNat
              (((0 : Nat) : Int) + (Position.dy ⟨0, 0, (1, 0)⟩) * (k : Int)).toNat
            = some ("AB".toList.getD k 'A')))) :=
  C4_can_place "AB" ⟨0, 0, (1, 0)⟩ (create_empty_table 2) (by decide) (by decide)

/-! ### Claim C5 -/

/-- Claim C5 counterexample: `gen_word_search` only deduplicates
(`list(set(words))`) and never upper-cases.  For the input `["a"]` the stored
word list is `["a"]`, not `["A"]`, and the never-cancelled run places the
lowercase letter `'a'` in the grid (the claim demands the uppercase form). -/
theorem C5_counterexample :
    pyDedup ["a"] ≠ ["A"] ∧
    ((runLoop ⟨["a"], DIRECTIONS, 4, 0, fun _ l => l, fun _ => false⟩ 2
        (initSt ⟨["a"], DIRECTIONS, 4, 0, fun _ l => l, fun _ => false⟩)).map
      (fun r => r.map (fun s => s.table))) =
      some (some [[some 'a', none], [none, none]]) := by
  constructor
  · decide
  · decide

/-- Claim C5, amended: before any placement is attempted, `gen_word_search`
replaces the supplied word list with a deduplicated version of it; the case
of every word is preserved (no upper-casing happens inside the generator —
the callers case-fold before invoking it). -/
theorem C5_dedup_only (words : List String) :
    (pyDedup words).Nodup ∧ ∀ w, w ∈ pyDedup words ↔ w ∈ words :=
  ⟨words.nodup_dedup, fun w => List.mem_dedup⟩

/-! ### Claim C7 -/

theorem head_rel_of_pairwise {α : Type} (R : α → α → Prop) (hrefl : ∀ a, R a a)
    (l : List α) (hp : l.Pairwise R) :
    ∀ h ∈ l.head?, ∀ q ∈ l, R h q := by
  intro h hh q hq
  cases l with
  | nil => cases hh
  | cons a t =>
      simp only [List.head?_cons, Option.mem_def, Option.some.injEq] at hh
      subst hh
      rcases List.mem_cons.mp hq with rfl | hq
      · exact hrefl _
      · exact (List.pairwise_cons.mp hp).1 q hq

/-- Claim C7: when a word's candidate list is freshly computed with a nonzero
`intersect_bias`, the result is a permutation of the legal positions, ordered
by intersection count — ascending for a negative bias (first candidate has
the fewest intersections among all legal positions), descending for a
positive bias (first candidate has the most). -/
theorem C7_bias_order (cfg : Cfg) (w : String) (table : Grid) (aps : List Position)
    (rng : Nat) (hperm : ∀ r l, (cfg.shuffle r l).Perm l)
    (hbias : cfg.intersect_bias ≠ 0)
    (l : List Position) (hl : computeWorkable cfg w table aps rng = some l) :
    ∃ legal, legalPosits w table aps = some legal ∧ l.Perm legal ∧
      (cfg.intersect_bias < 0 →
        l.Pairwise (fun a b => sortKeyFn w table a ≤ sortKeyFn w table b) ∧
        ∀ h ∈ l.head?, ∀ q ∈ legal, sortKeyFn w table h ≤ sortKeyFn w table q) ∧
      (0 < cfg.intersect_bias →
        l.Pairwise (fun a b => sortKeyFn w table b ≤ sortKeyFn w table a) ∧
        ∀ h ∈ l.head?, ∀ q ∈ legal, sortKeyFn w table q ≤ sortKeyFn w table h) := by
  unfold computeWorkable at hl
  cases hleg : legalPosits w table aps with
  | none => rw [hleg] at hl; cases hl
  | some legal =>
      rw [hleg] at hl
      simp only [Option.bind_eq_bind, Option.some_bind, Option.pure_def] at hl
      rw [if_pos hbias] at hl
      haveI hTot : IsTotal Position (fun a b => sortKeyFn w table a ≤ sortKeyFn w table b) :=
        ⟨fun a b => Nat.le_total _ _⟩
      haveI hTrans : IsTrans Position (fun a b => sortKeyFn w table a ≤ sortKeyFn w table b) :=
        ⟨fun a b c hab hbc => Nat.le_trans hab hbc⟩
      have hsortperm : (List.insertionSort
          (fun a b => sortKeyFn w table a ≤ sortKeyFn w table b)
          (cfg.shuffle rng legal)).Perm legal :=
        (List.perm_insertionSort _ _).trans (hperm rng legal)
      have hsorted : (List.insertionSort
          (fun a b => sortKeyFn w table a ≤ sortKeyFn w table b)
          (cfg.shuffle rng legal)).Pairwise
            (fun a b => sortKeyFn w table a ≤ sortKeyFn w table b) :=
        List.sorted_insertionSort _ _
      refine ⟨legal, rfl, ?_, ?_, ?_⟩
      · rcases lt_or_gt_of_ne hbias with hneg | hpos
        · have hcond : ¬((0 : Int) < cfg.intersect_bias) := by omega
          rw [if_neg hcond] at hl
          have he := Option.some.inj hl
          subst he
          exact hsortperm
        · rw [if_pos hpos] at hl
          have he := Option.some.inj hl
          subst he
          exact (List.reverse_perm _).trans hsortperm
      · intro hneg
        have hcond : ¬((0 : Int) < cfg.intersect_bias) := by omega
        rw [if_neg hcond] at hl
        have he := Option.some.inj hl
        subst he
        refine ⟨hsorted, ?_⟩
        intro h hh q hq
        exact head_rel_of_pairwise
          (fun a b => sortKeyFn w table a ≤ sortKeyFn w table b)
          (fun a => le_refl _) _ hsorted h hh q (hsortperm.mem_iff.mpr hq)
      · intro hpos
        rw [if_pos hpos] at hl
        have he := Option.some.inj hl
        subst he
        have hrev : (List.insertionSort
            (fun a b => sortKeyFn w table a ≤ sortKeyFn w table b)
            (cfg.shuffle rng legal)).reverse.Pairwise
              (fun a b => sortKeyFn w table b ≤ sortKeyFn w table a) :=
          List.pairwise_reverse.mpr hsorted
        refine ⟨hrev, ?_⟩
        intro h hh q hq
        have hqmem : q ∈ (List.insertionSort
            (fun a b => sortKeyFn w table a ≤ sortKeyFn w table b)
            (cfg.shuffle rng legal)).reverse := by
          rw [List.mem_reverse]
          exact hsortperm.mem_iff.mpr hq
        exact head_rel_of_pairwise
          (fun a b => sortKeyFn w table b ≤ sortKeyFn w table a)
          (fun a => le_refl _) _ hrev h hh q hqmem

/-- Witness for C7 at a concrete input: one word, a 1×1 empty grid, bias
`prefer` (+1), identity shuffle. -/
theorem C7_witness :
    ∃ legal, legalPosits "A" (create_empty_table 1)
        (all_posits 1 [(1, 0)]) = some legal ∧
      [(⟨0, 0, (1, 0)⟩ : Position)].Perm legal ∧
      ((1 : Int) < 0 →
        ([(⟨0, 0, (1, 0)⟩ : Position)]).Pairwise (fun a b =>
          sortKeyFn "A" (create_empty_table 1) a ≤ sortKeyFn "A" (create_empty_table 1) b) ∧
        ∀ h ∈ ([(⟨0, 0, (1, 0)⟩ : Position)]).head?, ∀ q ∈ legal,
          sortKeyFn "A" (create_empty_table 1) h ≤ sortKeyFn "A" (create_empty_table 1) q) ∧
      ((0 : Int) < 1 →
        ([(⟨0, 0, (1, 0)⟩ : Position)]).Pairwise (fun a b =>
          sortKeyFn "A" (create_empty_table 1) b ≤ sortKeyFn "A" (create_empty_table 1) a) ∧
        ∀ h ∈ ([(⟨0, 0, (1, 0)⟩ : Position)]).head?, ∀ q ∈ legal,
          sortKeyFn "A" (create_empty_table 1) q ≤ sortKeyFn "A" (create_empty_table 1) h) :=
  C7_bias_order ⟨["A"], [(1, 0)], 4, 1, fun _ l => l, fun _ => false⟩ "A"
    (create_empty_table 1) (all_posits 1 [(1, 0)]) 0
    (fun _ l => List.Perm.refl l) (by decide) [⟨0, 0, (1, 0)⟩] (by decide)

/-! ### Claim C9 -/

set_option maxRecDepth 4000 in
theorem charOfNat_toNat_small : ∀ n : Nat, n ≤ 200 → (Char.ofNat n).toNat = n := by
  decide

theorem pyUpper_pyLower (c : Char) : pyUpper (pyLower c) = pyUpper c := by
  unfold pyLower
  by_cases h : 65 ≤ c.toNat ∧ c.toNat ≤ 90
  · rw [if_pos h]
    have ht : (Char.ofNat (c.toNat + 32)).toNat = c.toNat + 32 :=
      charOfNat_toNat_small _ (by omega)
    unfold pyUpper
    rw [ht]
    rw [if_pos (by omega), if_neg (by omega)]
    have he : c.toNat + 32 - 32 = c.toNat := by omega
    rw [he, Char.ofNat_toNat]
  · rw [if_neg h]

theorem pyUpper_idem (c : Char) : pyUpper (pyUpper c) = pyUpper c := by
  unfold pyUpper
  by_cases h : 97 ≤ c.toNat ∧ c.toNat ≤ 122
  · rw [if_pos h]
    have ht : (Char.ofNat (c.toNat - 32)).toNat = c.toNat - 32 :=
      charOfNat_toNat_small _ (by omega)
    rw [ht, if_neg (by omega)]
  · simp only [if_neg h]

theorem cell_pyUpper_idem (c : Cell) : (c.map pyUpper).map pyUpper = c.map pyUpper := by
  cases c with
  | none => rfl
  | some ch => simp [pyUpper_idem]

theorem gridGet_gridSet (g : Grid) (a b : Nat) (v : Cell) (x y : Nat) :
    gridGet (gridSet g a b v) x y = gridGet g x y ∨
    (a = x ∧ b = y ∧ gridGet (gridSet g a b v) x y = v) := by
  unfold gridGet gridSet
  rw [List.getD_eq_getElem?_getD, List.getD_eq_getElem?_getD, List.getElem?_modify]
  by_cases hax : a = x
  · subst hax
    cases hrow : g[a]? with
    | none => simp [hrow]
    | some row =>
        simp only [hrow, Option.map_eq_map, Option.map_some', eq_self_iff_true, if_true,
          Option.getD_some]
        rw [List.getD_eq_getElem?_getD, List.getD_eq_getElem?_getD, List.getElem?_set]
        by_cases hby : b = y
        · subst hby
          by_cases hblen : b < row.length
          · exact Or.inr ⟨trivial, rfl, by simp [hblen]⟩
          · left
            rw [if_pos rfl, if_neg hblen]
            have hnone : row[b]? = none := by
              rw [List.getElem?_eq_none]
              omega
            simp [hrow, hnone]
        · left
          rw [if_neg hby]
          simp [hrow]
  · simp [hax]

theorem gridGet_upperStarts (starts : List Position) (g : Grid) (x y : Nat) :
    gridGet (upperStarts g starts) x y = gridGet g x y ∨
    gridGet (upperStarts g starts) x y = (gridGet g x y).map pyUpper := by
  induction starts generalizing g with
  | nil => exact Or.inl rfl
  | cons p ps ih =>
      have hstep : upperStarts g (p :: ps)
          = upperStarts (gridSet g p.x p.y ((gridGet g p.x p.y).map pyUpper)) ps := rfl
      rw [hstep]
      rcases ih (gridSet g p.x p.y ((gridGet g p.x p.y).map pyUpper)) with h | h <;>
        rcases gridGet_gridSet g p.x p.y ((gridGet g p.x p.y).map pyUpper) x y
          with h2 | ⟨hax, hby, h2⟩
      · rw [h, h2]
        exact Or.inl rfl
      · subst hax
        subst hby
        rw [h, h2]
        exact Or.inr rfl
      · rw [h, h2]
        exact Or.inr rfl
      · subst hax
        subst hby
        rw [h, h2, cell_pyUpper_idem]
        exact Or.inr rfl

theorem gridGet_lowerGrid (g : Grid) (x y : Nat) :
    gridGet (lowerGrid g) x y = (gridGet g x y).map pyLower := by
  unfold gridGet lowerGrid
  rw [List.getD_eq_getElem?_getD, List.getD_eq_getElem?_getD, List.getElem?_map]
  cases hrow : g[x]? with
  | none => simp [hrow]
  | some row =>
      simp only [Option.map_some', Option.getD_some]
      rw [List.getD_eq_getElem?_getD, List.getD_eq_getElem?_getD, List.getElem?_map]
      cases hcell : row[y]? <;> simp [hrow, hcell]

theorem lowerGrid_row_length (g : Grid) (x : Nat) :
    ((lowerGrid g).getD x []).length = (g.getD x []).length := by
  unfold lowerGrid
  rw [List.getD_eq_getElem?_getD, List.getD_eq_getElem?_getD, List.getElem?_map]
  cases hrow : g[x]? <;> simp

theorem gridGet_fill_with_dots (g : Grid) (x y : Nat)
    (hx : x < g.length) (hy : y < (g.getD x []).length) :
    gridGet (fill_with_dots g) x y = some ((gridGet g x y).getD '·') := by
  obtain ⟨row, hrow⟩ : ∃ row, g[x]? = some row := ⟨_, List.getElem?_eq_getElem hx⟩
  rw [List.getD_eq_getElem?_getD, hrow] at hy
  simp only [Option.getD_some] at hy
  unfold gridGet fill_with_dots
  rw [List.getD_eq_getElem?_getD, List.getD_eq_getElem?_getD, List.getElem?_map, hrow]
  simp only [Option.map_some', Option.getD_some]
  obtain ⟨c, hc⟩ : ∃ c, row[y]? = some c := ⟨_, List.getElem?_eq_getElem hy⟩
  rw [List.getD_eq_getElem?_getD, List.getD_eq_getElem?_getD, List.getElem?_map, hc]
  simp [hrow, hc]

theorem gridGet_fill_with_random (pick : Nat → Nat → Nat) (g : Grid) (x y : Nat)
    (hx : x < g.length) (hy : y < (g.getD x []).length) :
    gridGet (fill_with_random pick g) x y
      = some ((gridGet g x y).getD (choiceChar (pick x y))) := by
  obtain ⟨row, hrow⟩ : ∃ row, g[x]? = some row := ⟨_, List.getElem?_eq_getElem hx⟩
  rw [List.getD_eq_getElem?_getD, hrow] at hy
  simp only [Option.getD_some] at hy
  unfold gridGet fill_with_random
  rw [List.getD_eq_getElem?_getD, List.getD_eq_getElem?_getD, List.getElem?_mapIdx, hrow]
  simp only [Option.map_some', Option.getD_some]
  obtain ⟨c, hc⟩ : ∃ c, row[y]? = some c := ⟨_, List.getElem?_eq_getElem hy⟩
  rw [List.getD_eq_getElem?_getD, List.getD_eq_getElem?_getD, List.getElem?_mapIdx, hc]
  cases c <;> simp [hrow, hc]

theorem choiceChar_mem (r : Nat) : choiceChar r ∈ ALL_CHARS.toList := by
  unfold choiceChar
  have h : r % ALL_CHARS.length < ALL_CHARS.toList.length := by
    have h26 : ALL_CHARS.length = 26 := rfl
    have h26' : ALL_CHARS.toList.length = 26 := rfl
    rw [h26, h26']
    omega
  rw [List.getD_eq_getElem?_getD, List.getElem?_eq_getElem h]
  exact List.getElem_mem h

/-- Claim C9: at every cell that holds a placed word's letter the rendered
answer key and the rendered puzzle agree case-insensitively, and the two
renderings can differ (beyond letter case) only at filler cells — a cell that
is empty in the table renders as a placeholder dot in the key and as some
random alphabet character in the puzzle. -/
theorem C9_key_matches_puzzle (g : Grid) (starts : List Position) (pick : Nat → Nat → Nat)
    (x y : Nat) (hx : x < g.length) (hy : y < (g.getD x []).length) :
    (gridGet g x y ≠ none →
      (gridGet (renderPuzzleGrid pick g) x y).map pyUpper
        = (gridGet (renderKeyGrid g starts) x y).map pyUpper) ∧
    (gridGet g x y = none →
      gridGet (renderKeyGrid g starts) x y = some '·' ∧
      ∃ ch, gridGet (renderPuzzleGrid pick g) x y = some ch ∧ ch ∈ ALL_CHARS.toList) := by
  have hlx : x < (lowerGrid g).length := by
    unfold lowerGrid
    rw [List.length_map]
    exact hx
  have hly : y < ((lowerGrid g).getD x []).length := by
    rw [lowerGrid_row_length]
    exact hy
  have hbase : gridGet (fill_with_dots (lowerGrid g)) x y
      = some (((gridGet g x y).map pyLower).getD '·') := by
    rw [gridGet_fill_with_dots _ _ _ hlx hly, gridGet_lowerGrid]
  have hkey := gridGet_upperStarts starts (fill_with_dots (lowerGrid g)) x y
  have hpuz := gridGet_fill_with_random pick g x y hx hy
  constructor
  · intro hnb
    obtain ⟨c, hc⟩ : ∃ c, gridGet g x y = some c := Option.ne_none_iff_exists'.mp hnb
    rw [hc] at hbase hpuz
    simp only [Option.map_some', Option.getD_some] at hbase hpuz
    unfold renderPuzzleGrid renderKeyGrid
    rw [hpuz]
    rcases hkey with h | h <;> rw [h, hbase] <;>
      simp [pyUpper_pyLower, pyUpper_idem]
  · intro hb
    rw [hb] at hbase hpuz
    simp only [Option.map_none', Option.getD_none] at hbase hpuz
    refine ⟨?_, ⟨_, by unfold renderPuzzleGrid; rw [hpuz], choiceChar_mem _⟩⟩
    unfold renderKeyGrid
    rcases hkey with h | h <;> rw [h, hbase]
    have hdot : pyUpper '·' = '·' := by decide
    simp [hdot]

/-- Witness for C9 at a concrete input: a 2×2 table with one placed letter. -/
theorem C9_witness :
    (gridGet [[some 'a', none], [none, none]] 0 0 ≠ none →
      (gridGet (renderPuzzleGrid (fun x y => x + y) [[some 'a', none], [none, none]]) 0 0).map pyUpper
        = (gridGet (renderKeyGrid [[some 'a', none], [none, none]] [⟨0, 0, (1, 0)⟩]) 0 0).map pyUpper) ∧
    (gridGet [[some 'a', none], [none, none]] 0 0 = none →
      gridGet (renderKeyGrid [[some 'a', none], [none, none]] [⟨0, 0, (1, 0)⟩]) 0 0 = some '·' ∧
      ∃ ch, gridGet (renderPuzzleGrid (fun x y => x + y) [[some 'a', none], [none, none]]) 0 0
          = some ch ∧ ch ∈ ALL_CHARS.toList) :=
  C9_key_matches_puzzle [[some 'a', none], [none, none]] [⟨0, 0, (1, 0)⟩]
    (fun x y => x + y) 0 0 (by decide) (by decide)

/-! ### Claim C8 -/

theorem runLoop_halt_step (cfg : Cfg) (s : St) (fuel : Nat)
    (h : cfg.halt s.t = true) : runLoop cfg (fuel + 1) s = some none := by
  unfold runLoop stepState
  by_cases hidx : s.index < cfg.words.length <;> simp [hidx, h]

theorem runLoop_of_iter (cfg : Cfg) (k : Nat) (s : St) (hk : iter cfg k = some s) :
    ∀ m, runLoop cfg (k + m) (initSt cfg) = runLoop cfg m s := by
  induction k generalizing s with
  | zero =>
      intro m
      unfold iter at hk
      cases hk
      rw [Nat.zero_add]
  | succ k ih =>
      intro m
      unfold iter at hk
      cases hik : iter cfg k with
      | none => rw [hik] at hk; cases hk
      | some u =>
          rw [hik] at hk
          have hk' : (match stepState cfg u with
              | some (Sum.inl s') => some s'
              | _ => none) = some s := hk
          cases hstep : stepState cfg u with
          | none => rw [hstep] at hk'; cases hk'
          | some r =>
              rw [hstep] at hk'
              cases r with
              | inl s' =>
                  simp only [Option.some.injEq] at hk'
                  subst hk'
                  have heq : k + 1 + m = k + (m + 1) := by omega
                  rw [heq, ih u hik (m + 1)]
                  show (match stepState cfg u with
                    | none => none
                    | some (Sum.inr r) => some r
                    | some (Sum.inl s2) => runLoop cfg m s2) = runLoop cfg m s'
                  rw [hstep]
              | inr r' => cases hk'

/-- Claim C8: if the cancellation flag is observed set at a loop boundary the
run has reached, `gen_word_search` returns no result (`None`) instead of a
puzzle/answer-key pair, whatever the grid state. -/
theorem C8_cancel_returns_none (cfg : Cfg) (pick : Nat → Nat → Nat) (k fuel : Nat) (s : St)
    (hne : pyDedup cfg.words ≠ [])
    (hk : iter { cfg with words := pyDedup cfg.words } k = some s)
    (hh : cfg.halt s.t = true) (hf : k < fuel) :
    gen_word_search cfg pick fuel = some none := by
  unfold gen_word_search
  rw [if_neg hne]
  obtain ⟨m, rfl⟩ : ∃ m, fuel = k + (m + 1) := ⟨fuel - k - 1, by omega⟩
  have hh' : ({ cfg with words := pyDedup cfg.words } : Cfg).halt s.t = true := hh
  simp only [runLoop_of_iter _ k s hk (m + 1),
    runLoop_halt_step { cfg with words := pyDedup cfg.words } s m hh']

/-- Witness for C8: a run with the flag set from the very first boundary. -/
theorem C8_witness :
    gen_word_search ⟨["A"], DIRECTIONS, 4, 0, fun _ l => l, fun _ => true⟩
      (fun x y => x + y) 1 = some none :=
  C8_cancel_returns_none ⟨["A"], DIRECTIONS, 4, 0, fun _ l => l, fun _ => true⟩
    (fun x y => x + y) 0 1
    (initSt { (⟨["A"], DIRECTIONS, 4, 0, fun _ l => l, fun _ => true⟩ : Cfg) with
      words := pyDedup ["A"] })
    (by decide) rfl (by decide) (by decide)

/-! ### Run-level machinery: shapes, totality and dictionary lemmas -/

theorem gridSet_length (g : Grid) (x y : Nat) (c : Cell) :
    (gridSet g x y c).length = g.length :=
  List.length_modify _ _ _

theorem gridSet_rows (g : Grid) (x y : Nat) (c : Cell) (d : Nat)
    (hrows : ∀ row ∈ g, row.length = d) :
    ∀ row ∈ gridSet g x y c, row.length = d := by
  intro row hrow
  rw [List.mem_iff_getElem?] at hrow
  obtain ⟨i, hi⟩ := hrow
  unfold gridSet at hi
  rw [List.getElem?_modify] at hi
  cases hgi : g[i]? with
  | none => rw [hgi] at hi; cases hi
  | some r =>
      rw [hgi] at hi
      have hr : r ∈ g := by
        rw [List.mem_iff_getElem?]
        exact ⟨i, hgi⟩
      by_cases hxi : x = i
      · simp only [hxi, eq_self_iff_true, if_true, Option.map_eq_map, Option.map_some',
          Option.some.injEq] at hi
        rw [← hi, List.length_set]
        exact hrows r hr
      · simp only [hxi, if_false, Option.map_eq_map, Option.map_some',
          Option.some.injEq] at hi
        rw [← hi]
        exact hrows r hr

theorem gridSetI_some (g : Grid) (xi yi : Int) (c : Cell)
    (hx0 : 0 ≤ xi) (hx1 : xi < (g.length : Int)) (hy0 : 0 ≤ yi) (hy1 : yi < (g.length : Int)) :
    gridSetI g xi yi c = some (gridSet g xi.toNat yi.toNat c) := by
  simp [gridSetI, normIdx_of_inbounds _ _ hx0 hx1, normIdx_of_inbounds _ _ hy0 hy1]

theorem writeWord_shape (cs : List (Int × Int)) :
    ∀ (ls : List Char) (g g' : Grid), writeWord g cs ls = some g' →
      g'.length = g.length ∧ ∀ d, (∀ row ∈ g, row.length = d) → ∀ row ∈ g', row.length = d := by
  induction cs with
  | nil =>
      intro ls g g' h
      cases ls <;> cases h <;> exact ⟨rfl, fun d hd => hd⟩
  | cons c cs ih =>
      intro ls g g' h
      cases ls with
      | nil =>
          cases h
          exact ⟨rfl, fun d hd => hd⟩
      | cons a ls =>
          obtain ⟨cx, cy⟩ := c
          unfold writeWord at h
          cases hset : gridSetI g cx cy (some a) with
          | none => rw [hset] at h; cases h
          | some g₁ =>
              rw [hset] at h
              simp only [Option.bind_eq_bind, Option.some_bind] at h
              have hg₁ : g₁.length = g.length ∧
                  ∀ d, (∀ row ∈ g, row.length = d) → ∀ row ∈ g₁, row.length = d := by
                unfold gridSetI at hset
                cases hnx : normIdx g.length cx with
                | none =>
                    rw [hnx] at hset
                    simp only [Option.bind_eq_bind, Option.none_bind] at hset
                    cases hset
                | some nx =>
                    rw [hnx] at hset
                    simp only [Option.bind_eq_bind, Option.some_bind] at hset
                    cases hny : normIdx g.length cy with
                    | none =>
                        rw [hny] at hset
                        simp only [Option.bind_eq_bind, Option.none_bind] at hset
                        cases hset
                    | some ny =>
                        rw [hny] at hset
                        simp only [Option.bind_eq_bind, Option.some_bind, Option.pure_def,
                          Option.some.injEq] at hset
                        rw [← hset]
                        exact ⟨gridSet_length _ _ _ _, fun d hd => gridSet_rows _ _ _ _ d hd⟩
              obtain ⟨hlen₁, hrows₁⟩ := hg₁
              obtain ⟨hlen₂, hrows₂⟩ := ih ls g₁ g' h
              refine ⟨hlen₂.trans hlen₁, fun d hd => hrows₂ d (hrows₁ d hd)⟩

theorem writeWord_some (cs : List (Int × Int)) :
    ∀ (ls : List Char) (g : Grid) (d : Nat), g.length = d →
      (∀ c ∈ cs, 0 ≤ c.1 ∧ c.1 < (d : Int) ∧ 0 ≤ c.2 ∧ c.2 < (d : Int)) →
      ∃ g', writeWord g cs ls = some g' := by
  induction cs with
  | nil =>
      intro ls g d hg hcs
      cases ls <;> exact ⟨g, rfl⟩
  | cons c cs ih =>
      intro ls g d hg hcs
      cases ls with
      | nil => exact ⟨g, rfl⟩
      | cons a ls =>
          obtain ⟨cx, cy⟩ := c
          obtain ⟨h1, h2, h3, h4⟩ := hcs (cx, cy) (List.mem_cons_self _ _)
          have hset : gridSetI g cx cy (some a)
              = some (gridSet g cx.toNat cy.toNat (some a)) :=
            gridSetI_some g cx cy (some a) h1 (by rw [hg]; exact h2) h3 (by rw [hg]; exact h4)
          have hglen : (gridSet g cx.toNat cy.toNat (some a)).length = d := by
            rw [gridSet_length]
            exact hg
          obtain ⟨g', hg'⟩ := ih ls _ d hglen
            (fun c hc => hcs c (List.mem_cons_of_mem _ hc))
          refine ⟨g', ?_⟩
          unfold writeWord
          rw [hset]
          simp only [Option.bind_eq_bind, Option.some_bind]
          exact hg'

theorem placedGrid_shape (cfg : Cfg) (s : St) :
    ∀ (j : Nat) (G : Grid), placedGrid cfg s j = some G →
      G.length = s.dim ∧ ∀ row ∈ G, row.length = s.dim := by
  intro j
  induction j with
  | zero =>
      intro G h
      cases h
      constructor
      · simp [create_empty_table]
      · intro row hrow
        have hr := List.eq_of_mem_replicate (by simpa [create_empty_table] using hrow)
        rw [hr]
        simp
  | succ j ih =>
      intro G h
      unfold placedGrid at h
      cases hpg : placedGrid cfg s j with
      | none =>
          rw [hpg] at h
          simp only [Option.bind_eq_bind, Option.none_bind] at h
          cases h
      | some G₀ =>
          rw [hpg] at h
          simp only [Option.bind_eq_bind, Option.some_bind] at h
          cases hw : cfg.words.get? j with
          | none =>
              rw [hw] at h
              simp only [Option.bind_eq_bind, Option.none_bind] at h
              cases h
          | some w =>
              rw [hw] at h
              simp only [Option.bind_eq_bind, Option.some_bind] at h
              cases hch : cacheHead s w with
              | none =>
                  rw [hch] at h
                  simp only [Option.bind_eq_bind, Option.none_bind] at h
                  cases h
              | some p =>
                  rw [hch] at h
                  simp only [Option.bind_eq_bind, Option.some_bind] at h
                  obtain ⟨hlen₀, hrows₀⟩ := ih G₀ hpg
                  obtain ⟨hlen, hrows⟩ := writeWord_shape _ _ _ _ h
                  exact ⟨hlen.trans hlen₀, hrows s.dim hrows₀⟩

theorem can_place_false_of_bounds (w : String) (p : Position) (g : Grid)
    (hb : p.bounds_check w.length g.length = false) :
    can_place w p g = some (false, 0) := by
  simp [can_place, hb]

theorem can_place_total (w : String) (p : Position) (g : Grid)
    (hx : p.x < g.length) (hy : p.y < g.length) :
    ∃ r, can_place w p g = some r := by
  cases hb : p.bounds_check w.length g.length with
  | false => exact ⟨(false, 0), can_place_false_of_bounds w p g hb⟩
  | true =>
      have hcells := cells_in_bounds p w.length g.length hx hy hb
      have hvals : (p.cells w.length).mapM (fun c => gridGetI g c.1 c.2)
          = some ((p.cells w.length).map (fun c => gridGet g c.1.toNat c.2.toNat)) := by
        apply mapM_option_eq_map
        intro c hc
        obtain ⟨h1, h2, h3, h4⟩ := hcells c hc
        exact gridGetI_of_inbounds g c.1 c.2 h1 h2 h3 h4
      simp only [can_place, hb, Bool.not_true, Bool.false_eq_true, if_false]
      rw [hvals]
      simp only [Option.bind_eq_bind, Option.some_bind, Option.pure_def]
      exact ⟨_, rfl⟩

theorem can_place_true_bounds (w : String) (p : Position) (g : Grid) (cnt : Nat)
    (h : can_place w p g = some (true, cnt)) :
    p.bounds_check w.length g.length = true := by
  cases hb : p.bounds_check w.length g.length with
  | true => rfl
  | false =>
      rw [can_place_false_of_bounds w p g hb] at h
      cases h

theorem legalPosits_eq (w : String) (table : Grid) (l : List Position)
    (h : ∀ p ∈ l, ∃ r, can_place w p table = some r) :
    ∃ legal, legalPosits w table l = some legal ∧
      ∀ p, p ∈ legal ↔ p ∈ l ∧ ∃ cnt, can_place w p table = some (true, cnt) := by
  induction l with
  | nil => exact ⟨[], rfl, by simp⟩
  | cons q l ih =>
      obtain ⟨r, hr⟩ := h q (List.mem_cons_self _ _)
      obtain ⟨legal, hleg, hmem⟩ := ih (fun p hp => h p (List.mem_cons_of_mem _ hp))
      obtain ⟨b, cnt⟩ := r
      cases b with
      | true =>
          refine ⟨q :: legal, ?_, ?_⟩
          · unfold legalPosits
            rw [hr, hleg]
            simp
          · intro p
            constructor
            · intro hp
              rcases List.mem_cons.mp hp with rfl | hp
              · exact ⟨List.mem_cons_self _ _, cnt, hr⟩
              · obtain ⟨hpl, hc⟩ := (hmem p).mp hp
                exact ⟨List.mem_cons_of_mem _ hpl, hc⟩
            · rintro ⟨hp, hc⟩
              rcases List.mem_cons.mp hp with rfl | hp
              · exact List.mem_cons_self _ _
              · exact List.mem_cons_of_mem _ ((hmem p).mpr ⟨hp, hc⟩)
      | false =>
          refine ⟨legal, ?_, ?_⟩
          · unfold legalPosits
            rw [hr, hleg]
            simp
          · intro p
            constructor
            · intro hp
              obtain ⟨hpl, hc⟩ := (hmem p).mp hp
              exact ⟨List.mem_cons_of_mem _ hpl, hc⟩
            · rintro ⟨hp, hc⟩
              rcases List.mem_cons.mp hp with rfl | hp
              · obtain ⟨cnt', hc'⟩ := hc
                rw [hr] at hc'
                cases hc'
              · exact (hmem p).mpr ⟨hp, hc⟩

theorem mem_all_posits (dim : Nat) (dirs : List Dir) (p : Position) :
    p ∈ all_posits dim dirs ↔ p.x < dim ∧ p.y < dim ∧ p.direction ∈ dirs := by
  unfold all_posits
  simp only [List.mem_flatMap, List.mem_map, List.mem_range]
  constructor
  · rintro ⟨x, hx, y, hy, d, hd, rfl⟩
    exact ⟨hx, hy, hd⟩
  · rintro ⟨hx, hy, hd⟩
    exact ⟨p.x, hx, p.y, hy, p.direction, hd, rfl⟩

theorem lookup_cons_self (k : String) (ev : List Position)
    (d : List (String × List Position)) :
    List.lookup k ((k, ev) :: d) = some ev := by
  simp [List.lookup]

theorem lookup_cons_ne (k ek : String) (ev : List Position)
    (d : List (String × List Position)) (h : k ≠ ek) :
    List.lookup k ((ek, ev) :: d) = List.lookup k d := by
  rw [List.lookup_cons]
  rw [show (k == ek) = false from beq_eq_false_iff_ne.mpr h]

theorem lookup_eq_none_iff (d : List (String × List Position)) (k : String) :
    d.lookup k = none ↔ ∀ e ∈ d, e.1 ≠ k := by
  induction d with
  | nil => simp
  | cons e d ih =>
      obtain ⟨ek, ev⟩ := e
      by_cases he : ek = k
      · subst he
        rw [lookup_cons_self]
        simp
      · rw [lookup_cons_ne _ _ _ _ (fun hh : k = ek => he hh.symm), ih]
        constructor
        · intro hall e hd
          rcases List.mem_cons.mp hd with rfl | hd
          · exact he
          · exact hall e hd
        · intro hall e hd
          exact hall e (List.mem_cons_of_mem _ hd)

theorem lookup_dictSet_self (d : List (String × List Position)) (k : String)
    (v : List Position) : (dictSet d k v).lookup k = some v := by
  unfold dictSet
  by_cases hk : d.any (fun e => decide (e.1 = k))
  · rw [if_pos hk]
    induction d with
    | nil => cases hk
    | cons e d ih =>
        obtain ⟨ek, ev⟩ := e
        by_cases he : ek = k
        · subst he
          simp only [List.map_cons, eq_self_iff_true, if_true]
          rw [lookup_cons_self]
        · simp only [List.any_cons, Bool.or_eq_true, decide_eq_true_eq] at hk
          rcases hk with hk | hk
          · exact absurd hk he
          · simp only [List.map_cons, if_neg he]
            rw [lookup_cons_ne _ _ _ _ (fun hh : k = ek => he hh.symm)]
            exact ih hk
  · rw [if_neg hk]
    induction d with
    | nil => rw [List.nil_append, lookup_cons_self]
    | cons e d ih =>
        obtain ⟨ek, ev⟩ := e
        simp only [List.any_cons, Bool.or_eq_true, decide_eq_true_eq, not_or] at hk
        obtain ⟨he, hk'⟩ := hk
        rw [List.cons_append, lookup_cons_ne _ _ _ _ (fun hh : k = ek => he hh.symm)]
        exact ih hk'

theorem lookup_map_replace (d : List (String × List Position)) (k : String)
    (v : List Position) (k' : String) (h : k' ≠ k) :
    (d.map (fun e => if e.1 = k then (k, v) else e)).lookup k' = d.lookup k' := by
  induction d with
  | nil => rfl
  | cons e d ih =>
      obtain ⟨ek, ev⟩ := e
      by_cases he : ek = k
      · subst he
        simp only [List.map_cons, eq_self_iff_true, if_true]
        rw [lookup_cons_ne _ _ _ _ h, lookup_cons_ne _ _ _ _ h]
        exact ih
      · simp only [List.map_cons, if_neg he]
        by_cases hek : ek = k'
        · subst hek
          rw [lookup_cons_self, lookup_cons_self]
        · rw [lookup_cons_ne _ _ _ _ (fun hh : k' = ek => hek hh.symm),
            lookup_cons_ne _ _ _ _ (fun hh : k' = ek => hek hh.symm)]
          exact ih

theorem lookup_append_single (d : List (String × List Position)) (k : String)
    (v : List Position) (k' : String) (h : k' ≠ k) :
    (d ++ [(k, v)]).lookup k' = d.lookup k' := by
  induction d with
  | nil =>
      rw [List.nil_append, lookup_cons_ne _ _ _ _ h]
  | cons e d ih =>
      obtain ⟨ek, ev⟩ := e
      by_cases hek : ek = k'
      · subst hek
        rw [List.cons_append, lookup_cons_self, lookup_cons_self]
      · rw [List.cons_append, lookup_cons_ne _ _ _ _ (fun hh : k' = ek => hek hh.symm),
          lookup_cons_ne _ _ _ _ (fun hh : k' = ek => hek hh.symm)]
        exact ih

theorem lookup_dictSet_ne (d : List (String × List Position)) (k : String)
    (v : List Position) (k' : String) (h : k' ≠ k) :
    (dictSet d k v).lookup k' = d.lookup k' := by
  unfold dictSet
  by_cases hk : d.any (fun e => decide (e.1 = k))
  · rw [if_pos hk]
    exact lookup_map_replace d k v k' h
  · rw [if_neg hk]
    exact lookup_append_single d k v k' h

theorem lookup_dictDel_self (d : List (String × List Position)) (k : String) :
    (dictDel d k).lookup k = none := by
  rw [lookup_eq_none_iff]
  intro e he
  unfold dictDel at he
  have := List.of_mem_filter he
  simpa using this

theorem lookup_dictDel_ne (d : List (String × List Position)) (k k' : String)
    (h : k' ≠ k) : (dictDel d k).lookup k' = d.lookup k' := by
  unfold dictDel
  induction d with
  | nil => rfl
  | cons e d ih =>
      obtain ⟨ek, ev⟩ := e
      by_cases he : ek = k
      · subst he
        rw [List.filter_cons_of_neg (by simp)]
        rw [lookup_cons_ne _ _ _ _ (fun hh : k' = ek => h hh)]
        exact ih
      · rw [List.filter_cons_of_pos (by simpa using he)]
        by_cases hek : ek = k'
        · subst hek
          rw [lookup_cons_self, lookup_cons_self]
        · rw [lookup_cons_ne _ _ _ _ (fun hh : k' = ek => hek hh.symm),
            lookup_cons_ne _ _ _ _ (fun hh : k' = ek => hek hh.symm)]
          exact ih

theorem keys_dictSet_eq_of_any (d : List (String × List Position)) (k : String)
    (v : List Position) (hk : d.any (fun e => decide (e.1 = k)) = true) :
    (dictSet d k v).map Prod.fst = d.map Prod.fst := by
  unfold dictSet
  rw [if_pos hk]
  rw [List.map_map]
  apply List.map_congr_left
  intro e he
  by_cases h : e.1 = k
  · simp [h]
  · simp [h]

theorem keys_dictSet_nodup (d : List (String × List Position)) (k : String)
    (v : List Position) (h : (d.map Prod.fst).Nodup) :
    ((dictSet d k v).map Prod.fst).Nodup := by
  unfold dictSet
  by_cases hk : d.any (fun e => decide (e.1 = k))
  · rw [if_pos hk]
    have heq : (d.map (fun e => if e.1 = k then (k, v) else e)).map Prod.fst
        = d.map Prod.fst := by
      rw [List.map_map]
      apply List.map_congr_left
      intro e he
      by_cases hke : e.1 = k
      · simp [hke]
      · simp [hke]
    rw [heq]
    exact h
  · rw [if_neg hk]
    rw [List.map_append]
    simp only [List.map_cons, List.map_nil]
    rw [List.nodup_append]
    refine ⟨h, List.nodup_singleton _, ?_⟩
    intro a ha hb
    simp only [List.mem_singleton] at hb
    subst hb
    simp only [List.any_eq_true, decide_eq_true_eq, not_exists] at hk
    obtain ⟨e, he, hke⟩ := List.mem_map.mp ha
    exact hk e ⟨he, hke⟩

theorem keys_dictDel_nodup (d : List (String × List Position)) (k : String)
    (h : (d.map Prod.fst).Nodup) : ((dictDel d k).map Prod.fst).Nodup := by
  unfold dictDel
  exact h.sublist (List.Sublist.map _ (List.filter_sublist d))

theorem dictDel_dictSet_fresh (d : List (String × List Position)) (k : String)
    (v : List Position) (h : d.lookup k = none) :
    dictDel (dictSet d k v) k = d := by
  have hnk : ∀ e ∈ d, e.1 ≠ k := (lookup_eq_none_iff d k).mp h
  have hany : ¬(d.any (fun e => decide (e.1 = k)) = true) := by
    simp only [List.any_eq_true, decide_eq_true_eq, not_exists]
    exact fun e he => hnk e he.1 he.2
  unfold dictSet
  rw [if_neg hany]
  unfold dictDel
  rw [List.filter_append]
  rw [List.filter_cons_of_neg (by simp), List.filter_nil, List.append_nil]
  apply List.filter_eq_self.mpr
  intro e he
  simpa using hnk e he

theorem legalPosits_mem (w : String) (table : Grid) :
    ∀ (l legal : List Position), legalPosits w table l = some legal →
      ∀ p, p ∈ legal ↔ p ∈ l ∧ ∃ cnt, can_place w p table = some (true, cnt) := by
  intro l
  induction l with
  | nil =>
      intro legal h p
      cases h
      simp
  | cons q l ih =>
      intro legal h p
      unfold legalPosits at h
      cases hq : can_place w q table with
      | none =>
          rw [hq] at h
          simp only [Option.bind_eq_bind, Option.none_bind] at h
          cases h
      | some r =>
          rw [hq] at h
          simp only [Option.bind_eq_bind, Option.some_bind] at h
          cases hrec : legalPosits w table l with
          | none =>
              rw [hrec] at h
              simp only [Option.bind_eq_bind, Option.none_bind] at h
              cases h
          | some legal₀ =>
              rw [hrec] at h
              simp only [Option.bind_eq_bind, Option.some_bind, Option.pure_def,
                Option.some.injEq] at h
              obtain ⟨b, cnt⟩ := r
              cases b with
              | true =>
                  simp only [if_true] at h
                  subst h
                  constructor
                  · intro hp
                    rcases List.mem_cons.mp hp with rfl | hp
                    · exact ⟨List.mem_cons_self _ _, cnt, hq⟩
                    · obtain ⟨hpl, hc⟩ := (ih legal₀ hrec p).mp hp
                      exact ⟨List.mem_cons_of_mem _ hpl, hc⟩
                  · rintro ⟨hp, hc⟩
                    rcases List.mem_cons.mp hp with rfl | hp
                    · exact List.mem_cons_self _ _
                    · exact List.mem_cons_of_mem _ ((ih legal₀ hrec p).mpr ⟨hp, hc⟩)
              | false =>
                  simp only [Bool.false_eq_true, if_false] at h
                  subst h
                  rw [ih legal₀ hrec p]
                  constructor
                  · rintro ⟨hp, hc⟩
                    exact ⟨List.mem_cons_of_mem _ hp, hc⟩
                  · rintro ⟨hp, hc⟩
                    rcases List.mem_cons.mp hp with rfl | hp
                    · obtain ⟨cnt', hc'⟩ := hc
                      rw [hq] at hc'
                      cases hc'
                    · exact ⟨hp, hc⟩

theorem computeWorkable_some (cfg : Cfg) (w : String) (table : Grid)
    (aps : List Position) (rng : Nat)
    (h : ∀ p ∈ aps, ∃ r, can_place w p table = some r) :
    ∃ l, computeWorkable cfg w table aps rng = some l := by
  obtain ⟨legal, hleg, _⟩ := legalPosits_eq w table aps h
  unfold computeWorkable
  rw [hleg]
  simp only [Option.bind_eq_bind, Option.some_bind]
  by_cases hbias : cfg.intersect_bias ≠ 0
  · rw [if_pos hbias]
    by_cases hpos : 0 < cfg.intersect_bias
    · exact ⟨_, by rw [if_pos hpos]; rfl⟩
    · exact ⟨_, by rw [if_neg hpos]; rfl⟩
  · rw [if_neg hbias]
    exact ⟨_, rfl⟩

theorem computeWorkable_perm (cfg : Cfg) (w : String) (table : Grid)
    (aps : List Position) (rng : Nat) (l : List Position)
    (hsh : ∀ r li, (cfg.shuffle r li).Perm li)
    (hc : computeWorkable cfg w table aps rng = some l) :
    ∃ legal, legalPosits w table aps = some legal ∧ l.Perm legal := by
  unfold computeWorkable at hc
  cases hleg : legalPosits w table aps with
  | none =>
      rw [hleg] at hc
      simp only [Option.bind_eq_bind, Option.none_bind] at hc
      cases hc
  | some legal =>
      rw [hleg] at hc
      simp only [Option.bind_eq_bind, Option.some_bind, Option.pure_def] at hc
      refine ⟨legal, rfl, ?_⟩
      by_cases hbias : cfg.intersect_bias ≠ 0
      · rw [if_pos hbias] at hc
        by_cases hpos : 0 < cfg.intersect_bias
        · rw [if_pos hpos] at hc
          cases hc
          exact ((List.reverse_perm _).trans (List.perm_insertionSort _ _)).trans
            (hsh rng legal)
        · rw [if_neg hpos] at hc
          cases hc
          exact (List.perm_insertionSort _ _).trans (hsh rng legal)
      · rw [if_neg hbias] at hc
        cases hc
        exact hsh rng legal

theorem computeWorkable_mem (cfg : Cfg) (w : String) (table : Grid)
    (aps : List Position) (rng : Nat) (l : List Position)
    (hsh : ∀ r li, (cfg.shuffle r li).Perm li)
    (hc : computeWorkable cfg w table aps rng = some l) :
    ∀ p, p ∈ l ↔ p ∈ aps ∧ ∃ cnt, can_place w p table = some (true, cnt) := by
  obtain ⟨legal, hleg, hperm⟩ := computeWorkable_perm cfg w table aps rng l hsh hc
  intro p
  rw [hperm.mem_iff]
  exact legalPosits_mem w table aps legal hleg p

theorem getWorkable_hit (cfg : Cfg) (s : St) (w : String) (l : List Position)
    (hw : curWord cfg s = some w) (hl : s.caches.lookup w = some l) :
    getWorkable cfg s = some (l, s) := by
  unfold getWorkable
  rw [hw]
  simp only [Option.bind_eq_bind, Option.some_bind, hl]
  rfl

theorem getWorkable_miss (cfg : Cfg) (s : St) (w : String) (l : List Position)
    (hw : curWord cfg s = some w) (hmiss : s.caches.lookup w = none)
    (hc : computeWorkable cfg w s.table s.allPositions s.rng = some l) :
    getWorkable cfg s
      = some (l, { s with caches := dictSet s.caches w l, rng := s.rng + 1 }) := by
  unfold getWorkable
  rw [hw]
  simp only [Option.bind_eq_bind, Option.some_bind, hmiss, hc]
  rfl

theorem loopBody_place (cfg : Cfg) (s : St) (w : String) (l : List Position)
    (s₁ : St) (p : Position) (rest : List Position) (g' : Grid)
    (hg : getWorkable cfg s = some (l, s₁)) (hl : l = p :: rest)
    (hw : curWord cfg s₁ = some w)
    (hwrite : writeWord s₁.table (p.cells w.length) w.toList = some g') :
    loopBody cfg s = some { s₁ with table := g', history := s₁.history ++ [s₁.table], index := s₁.index + 1 } := by
  subst hl
  unfold loopBody
  rw [hg]
  simp only [Option.bind_eq_bind, Option.some_bind, List.isEmpty_cons,
    Bool.false_eq_true, if_false, hw, List.head?_cons, hwrite, Option.pure_def]

theorem loopBody_grow (cfg : Cfg) (s : St) (w : String) (s₁ : St)
    (hg : getWorkable cfg s = some ([], s₁))
    (hw : curWord cfg s₁ = some w) (hix : s₁.index = 0) :
    loopBody cfg s
      = some (resetSt cfg { s₁ with dim := s₁.dim + 1, caches := dictDel s₁.caches w }) := by
  unfold loopBody
  rw [hg]
  simp only [Option.bind_eq_bind, Option.some_bind, List.isEmpty_nil, if_true, hw,
    hix, eq_self_iff_true, Option.pure_def]

theorem loopBody_backtrack (cfg : Cfg) (s : St) (w : String) (s₁ : St)
    (tbl : Grid) (w' : String) (p' : Position) (rest' : List Position)
    (hg : getWorkable cfg s = some ([], s₁))
    (hw : curWord cfg s₁ = some w)
    (hix : s₁.index ≠ 0)
    (htbl : s₁.history.get? (s₁.index - 1) = some tbl)
    (hw' : cfg.words.get? (s₁.index - 1) = some w')
    (hl' : (dictDel s₁.caches w).lookup w' = some (p' :: rest')) :
    loopBody cfg s = some { s₁ with caches := dictSet (dictDel s₁.caches w) w' rest', index := s₁.index - 1, table := tbl, history := s₁.history.eraseIdx (s₁.index - 1) } := by
  unfold loopBody
  rw [hg]
  simp only [Option.bind_eq_bind, Option.some_bind, List.isEmpty_nil, if_true, hw,
    hix, if_false, htbl, Option.pure_def]
  have hw2 : curWord cfg { s₁ with caches := dictDel s₁.caches w, index := s₁.index - 1, table := tbl, history := s₁.history.eraseIdx (s₁.index - 1) } = some w' := hw'
  rw [getWorkable_hit _ _ w' (p' :: rest') hw2 hl']
  simp only [Option.bind_eq_bind, Option.some_bind, hw2]

theorem stepState_run (cfg : Cfg) (s : St) (s' : St)
    (hguard : s.index < cfg.words.length) (hhalt : cfg.halt s.t = false)
    (hb : loopBody cfg s = some s') :
    stepState cfg s = some (Sum.inl { s' with t := s.t + 1 }) := by
  unfold stepState
  rw [if_pos hguard, hhalt]
  simp only [Bool.false_eq_true, if_false, hb]

theorem lookup_some_mem (d : List (String × List Position)) (k : String)
    (v : List Position) (h : d.lookup k = some v) : (k, v) ∈ d := by
  induction d with
  | nil => cases h
  | cons e d ih =>
      obtain ⟨ek, ev⟩ := e
      by_cases he : k = ek
      · subst he
        rw [lookup_cons_self] at h
        cases h
        exact List.mem_cons_self _ _
      · rw [lookup_cons_ne _ _ _ _ he] at h
        exact List.mem_cons_of_mem _ (ih h)

theorem mem_dictSet_cases (d : List (String × List Position)) (k : String)
    (v : List Position) (e : String × List Position) (h : e ∈ dictSet d k v) :
    e.1 = k ∨ e ∈ d := by
  unfold dictSet at h
  by_cases hk : d.any (fun e => decide (e.1 = k))
  · rw [if_pos hk] at h
    obtain ⟨e₀, he₀, heq⟩ := List.mem_map.mp h
    by_cases h0 : e₀.1 = k
    · rw [if_pos h0] at heq
      left
      rw [← heq]
    · rw [if_neg h0] at heq
      right
      rw [← heq]
      exact he₀
  · rw [if_neg hk] at h
    rcases List.mem_append.mp h with h | h
    · right
      exact h
    · left
      simp only [List.mem_singleton] at h
      rw [h]

theorem mem_dictDel (d : List (String × List Position)) (k : String)
    (e : String × List Position) (h : e ∈ dictDel d k) : e ∈ d ∧ ¬(e.1 = k) := by
  unfold dictDel at h
  have hm := List.mem_filter.mp h
  exact ⟨hm.1, by simpa using hm.2⟩

theorem placedGrid_congr (cfg : Cfg) (s s' : St) (hdim : s'.dim = s.dim) :
    ∀ j, (∀ i, i < j → ∀ wi, cfg.words.get? i = some wi →
      s'.caches.lookup wi = s.caches.lookup wi) →
    placedGrid cfg s' j = placedGrid cfg s j := by
  intro j
  induction j with
  | zero =>
      intro _
      unfold placedGrid
      rw [show create_empty_table s'.dim = create_empty_table s.dim from by rw [hdim]]
  | succ j ih =>
      intro h
      unfold placedGrid
      rw [ih (fun i hi wi hwi => h i (Nat.lt_succ_of_lt hi) wi hwi)]
      cases hpg : placedGrid cfg s j with
      | none => simp only [Option.bind_eq_bind, Option.none_bind]
      | some G =>
          simp only [Option.bind_eq_bind, Option.some_bind]
          cases hw : cfg.words.get? j with
          | none => simp only [Option.bind_eq_bind, Option.none_bind]
          | some w =>
              simp only [Option.bind_eq_bind, Option.some_bind]
              have hch : cacheHead s' w = cacheHead s w := by
                unfold cacheHead
                rw [h j (Nat.lt_succ_self j) w hw]
              rw [hch]

theorem placedGrid_eq_of_caches (cfg : Cfg) (s s' : St)
    (hc : s'.caches = s.caches) (hdim : s'.dim = s.dim) (j : Nat) :
    placedGrid cfg s' j = placedGrid cfg s j :=
  placedGrid_congr cfg s s' hdim j (fun i _ wi _ => by rw [hc])

theorem placedGrid_some_of_le (cfg : Cfg) (s : St) :
    ∀ (j j' : Nat), j' ≤ j → ∀ G, placedGrid cfg s j = some G →
      ∃ G', placedGrid cfg s j' = some G' := by
  intro j
  induction j with
  | zero =>
      intro j' hj G hG
      have : j' = 0 := Nat.le_zero.mp hj
      subst this
      exact ⟨G, hG⟩
  | succ j ih =>
      intro j' hj G hG
      rcases Nat.lt_succ_iff_lt_or_eq.mp (Nat.lt_succ_of_le hj) with hlt | heq
      · unfold placedGrid at hG
        cases hpg : placedGrid cfg s j with
        | none =>
            rw [hpg] at hG
            simp only [Option.bind_eq_bind, Option.none_bind] at hG
            cases hG
        | some G₀ => exact ih j' (Nat.lt_succ_iff.mp hlt) G₀ hpg
      · subst heq
        exact ⟨G, hG⟩

theorem inv_resetSt (cfg : Cfg) (s : St) : INVProp cfg (resetSt cfg s) := by
  refine ⟨Nat.zero_le _, rfl, rfl, List.nodup_nil, ?_, ?_, ?_, rfl, ?_⟩
  · intro e he
    cases he
  · intro j hj
    exact absurd hj (Nat.not_lt_zero j)
  · intro j hj w hw l hl
    cases hl
  · intro j hj
    exact absurd hj (Nat.not_lt_zero j)

theorem inv_initSt (cfg : Cfg) : INVProp cfg (initSt cfg) :=
  inv_resetSt cfg _

theorem words_get?_inj (l : List String) (hnd : l.Nodup) (i j : Nat) (w : String)
    (hi : l.get? i = some w) (hj : l.get? j = some w) : i = j := by
  have hlen : i < l.length := by
    by_contra hcon
    rw [List.get?_eq_getElem?, List.getElem?_eq_none (by omega)] at hi
    cases hi
  exact List.get?_inj hlen hnd (hi.trans hj.symm)

theorem getWorkable_inv (cfg : Cfg) (hnd : cfg.words.Nodup)
    (hsh : ∀ r li, (cfg.shuffle r li).Perm li)
    (s : St) (hinv : INVProp cfg s) (w : String) (hw : curWord cfg s = some w) :
    ∃ l s₁, getWorkable cfg s = some (l, s₁) ∧ INVProp cfg s₁ ∧
      s₁.dim = s.dim ∧ s₁.table = s.table ∧ s₁.history = s.history ∧
      s₁.index = s.index ∧ s₁.allPositions = s.allPositions ∧ s₁.t = s.t ∧
      s₁.caches.lookup w = some l ∧
      (∀ w'', w'' ≠ w → s₁.caches.lookup w'' = s.caches.lookup w'') ∧
      (∀ p ∈ l, p ∈ s.allPositions ∧ ∃ cnt, can_place w p s.table = some (true, cnt)) := by
  have htlen : s.table.length = s.dim :=
    (placedGrid_shape cfg s s.index s.table hinv.table_eq).1
  have hto : ∀ p ∈ s.allPositions, ∃ r, can_place w p s.table = some r := by
    intro p hp
    rw [hinv.allpos, mem_all_posits] at hp
    exact can_place_total w p s.table (by rw [htlen]; exact hp.1) (by rw [htlen]; exact hp.2.1)
  cases hlook : s.caches.lookup w with
  | some l =>
      refine ⟨l, s, getWorkable_hit cfg s w l hw hlook, hinv, rfl, rfl, rfl, rfl, rfl, rfl,
        hlook, fun w'' _ => rfl, ?_⟩
      intro p hp
      have hleg := hinv.cache_legal s.index (le_refl _) w hw l hlook p hp
      obtain ⟨hmem, G, hG, cnt, hcp⟩ := hleg
      rw [hinv.table_eq] at hG
      cases hG
      exact ⟨hmem, cnt, hcp⟩
  | none =>
      obtain ⟨l, hc⟩ := computeWorkable_some cfg w s.table s.allPositions s.rng hto
      have hmem := computeWorkable_mem cfg w s.table s.allPositions s.rng l hsh hc
      refine ⟨l, _, getWorkable_miss cfg s w l hw hlook hc, ?_, rfl, rfl, rfl, rfl, rfl, rfl,
        lookup_dictSet_self _ _ _, fun w'' hne => lookup_dictSet_ne _ _ _ _ hne, ?_⟩
      · -- the invariant for the state with the freshly stored cache
        have hgw : cfg.words.get? s.index = some w := hw
        have hstable : ∀ i, i < s.index → ∀ wi, cfg.words.get? i = some wi →
            (dictSet s.caches w l).lookup wi = s.caches.lookup wi := by
          intro i hi wi hwi
          have hne : wi ≠ w := by
            intro heq
            subst heq
            have := words_get?_inj cfg.words hnd i s.index wi hwi hgw
            omega
          exact lookup_dictSet_ne _ _ _ _ hne
        have hcongr : ∀ j, j ≤ s.index →
            placedGrid cfg { s with caches := dictSet s.caches w l, rng := s.rng + 1 } j
              = placedGrid cfg s j := by
          intro j hj
          apply placedGrid_congr cfg s
            { s with caches := dictSet s.caches w l, rng := s.rng + 1 } rfl
          intro i hi wi hwi
          exact hstable i (by omega) wi hwi
        refine ⟨hinv.index_le, hinv.hist_len, hinv.allpos, ?_, ?_, ?_, ?_, ?_, ?_⟩
        · exact keys_dictSet_nodup _ _ _ hinv.keys_nodup
        · intro e he
          rcases mem_dictSet_cases _ _ _ _ he with hek | hed
          · exact ⟨s.index, le_refl _, by rw [hek]; exact hgw⟩
          · exact hinv.cache_keys e hed
        · intro j hj
          obtain ⟨wj, lj, hwj, hlj, hne⟩ := hinv.cache_nonempty j hj
          refine ⟨wj, lj, hwj, ?_, hne⟩
          rw [hstable j hj wj hwj]
          exact hlj
        · intro j hj w'' hw'' l'' hl'' p hp
          by_cases hww : w'' = w
          · subst hww
            have hjeq : j = s.index := words_get?_inj cfg.words hnd j s.index w'' hw'' hgw
            subst hjeq
            rw [lookup_dictSet_self] at hl''
            cases hl''
            obtain ⟨hpm, cnt, hcp⟩ := (hmem p).mp hp
            refine ⟨hpm, s.table, ?_, cnt, hcp⟩
            rw [hcongr s.index (le_refl _)]
            exact hinv.table_eq
          · rw [lookup_dictSet_ne _ _ _ _ hww] at hl''
            obtain ⟨hpm, G, hG, cnt, hcp⟩ := hinv.cache_legal j hj w'' hw'' l'' hl'' p hp
            refine ⟨hpm, G, ?_, cnt, hcp⟩
            rw [hcongr j hj]
            exact hG
        · rw [hcongr s.index (le_refl _)]
          exact hinv.table_eq
        · intro j hj
          rw [hcongr j (le_of_lt hj)]
          exact hinv.hist_eq j hj
      · intro p hp
        exact (hmem p).mp hp

theorem inv_loopBody (cfg : Cfg) (hnd : cfg.words.Nodup)
    (hsh : ∀ r li, (cfg.shuffle r li).Perm li)
    (s : St) (hinv : INVProp cfg s) (hguard : s.index < cfg.words.length) :
    ∃ s', loopBody cfg s = some s' ∧ INVProp cfg s' := by
  obtain ⟨w, hw⟩ : ∃ w, curWord cfg s = some w := by
    refine ⟨cfg.words.get ⟨s.index, hguard⟩, ?_⟩
    unfold curWord
    rw [List.get?_eq_getElem?, List.getElem?_eq_getElem hguard]
    rfl
  obtain ⟨l, s₁, hg, hinv₁, hdim₁, htab₁, hhist₁, hidx₁, hap₁, ht₁, hlook₁, hne₁, hleg₁⟩ :=
    getWorkable_inv cfg hnd hsh s hinv w hw
  have hw₁ : curWord cfg s₁ = some w := by
    unfold curWord at *
    rw [hidx₁]
    exact hw
  have hguard₁ : s₁.index < cfg.words.length := by rw [hidx₁]; exact hguard
  have hgw₁ : cfg.words.get? s₁.index = some w := hw₁
  cases l with
  | cons p rest =>
      obtain ⟨hpmem, cnt, hcp⟩ := hleg₁ p (List.mem_cons_self _ _)
      have htlen : s.table.length = s.dim :=
        (placedGrid_shape cfg s s.index s.table hinv.table_eq).1
      have hbc : p.bounds_check w.length s.dim = true := by
        rw [← htlen]
        exact can_place_true_bounds _ _ _ _ hcp
      have hpxy : p.x < s.dim ∧ p.y < s.dim ∧ p.direction ∈ cfg.directions := by
        rw [hinv.allpos, mem_all_posits] at hpmem
        exact hpmem
      have hcells := cells_in_bounds p w.length s.dim hpxy.1 hpxy.2.1 hbc
      obtain ⟨g', hwrite⟩ := writeWord_some (p.cells w.length) w.toList s.table s.dim htlen
        (fun c hc => hcells c hc)
      have hwrite₁ : writeWord s₁.table (p.cells w.length) w.toList = some g' := by
        rw [htab₁]
        exact hwrite
      refine ⟨_, loopBody_place cfg s w (p :: rest) s₁ p rest g' hg rfl hw₁ hwrite₁, ?_⟩
      have hpg_eq : ∀ j, placedGrid cfg { s₁ with table := g', history := s₁.history ++ [s₁.table], index := s₁.index + 1 } j = placedGrid cfg s₁ j :=
        fun j => placedGrid_eq_of_caches cfg s₁ { s₁ with table := g', history := s₁.history ++ [s₁.table], index := s₁.index + 1 } rfl rfl j
      have hfresh : ∀ w'' l'', cfg.words.get? (s₁.index + 1) = some w'' →
          s₁.caches.lookup w'' = some l'' → False := by
        intro w'' l'' hw'' hl''
        have hmem := lookup_some_mem _ _ _ hl''
        obtain ⟨j', hj', hj'w⟩ := hinv₁.cache_keys (w'', l'') hmem
        have := words_get?_inj cfg.words hnd j' (s₁.index + 1) w'' hj'w hw''
        omega
      refine ⟨?_, ?_, ?_, ?_, ?_, ?_, ?_, ?_, ?_⟩
      · exact Nat.succ_le_of_lt hguard₁
      · simp only [List.length_append, List.length_cons, List.length_nil]
        rw [hinv₁.hist_len]
      · exact hinv₁.allpos
      · exact hinv₁.keys_nodup
      · intro e he
        obtain ⟨j, hj, hjw⟩ := hinv₁.cache_keys e he
        exact ⟨j, (by omega : j ≤ s₁.index + 1), hjw⟩
      · intro j hj
        rcases Nat.lt_succ_iff_lt_or_eq.mp hj with hj' | hj'
        · obtain ⟨wj, lj, hwj, hlj, hne⟩ := hinv₁.cache_nonempty j hj'
          exact ⟨wj, lj, hwj, hlj, hne⟩
        · subst hj'
          exact ⟨w, p :: rest, hgw₁, hlook₁, by simp⟩
      · intro j hj w'' hw'' l'' hl'' q hq
        rcases Nat.lt_succ_iff_lt_or_eq.mp (Nat.lt_succ_of_le hj) with hj' | hj'
        · have hj2 : j ≤ s₁.index := Nat.lt_succ_iff.mp hj'
          obtain ⟨hqm, G, hG, cnt', hcp'⟩ := hinv₁.cache_legal j hj2 w'' hw'' l'' hl'' q hq
          refine ⟨hqm, G, ?_, cnt', hcp'⟩
          rw [hpg_eq j]
          exact hG
        · subst hj'
          exact absurd hl'' (fun hl'' => hfresh w'' l'' hw'' hl'')
      · show placedGrid cfg _ (s₁.index + 1) = some g'
        unfold placedGrid
        rw [hpg_eq s₁.index, hinv₁.table_eq]
        simp only [Option.bind_eq_bind, Option.some_bind]
        rw [hgw₁]
        simp only [Option.bind_eq_bind, Option.some_bind]
        have hch : cacheHead { s₁ with table := g', history := s₁.history ++ [s₁.table], index := s₁.index + 1 } w = some p := by
          unfold cacheHead
          rw [show ({ s₁ with table := g', history := s₁.history ++ [s₁.table], index := s₁.index + 1 } : St).caches = s₁.caches from rfl]
          rw [hlook₁]
          rfl
        rw [hch]
        simp only [Option.bind_eq_bind, Option.some_bind]
        exact hwrite₁
      · intro j hj
        rcases Nat.lt_succ_iff_lt_or_eq.mp hj with hj' | hj'
        · have hjl : j < s₁.history.length := by rw [hinv₁.hist_len]; exact hj'
          rw [List.get?_eq_getElem?, List.getElem?_append_left hjl]
          rw [← List.get?_eq_getElem?]
          rw [hpg_eq j]
          exact hinv₁.hist_eq j hj'
        · subst hj'
          rw [hpg_eq s₁.index, hinv₁.table_eq, List.get?_eq_getElem?]
          rw [show s₁.index = s₁.history.length from (hinv₁.hist_len).symm]
          exact List.getElem?_concat_length _ _
  | nil =>
      by_cases hix : s₁.index = 0
      · exact ⟨_, loopBody_grow cfg s w s₁ hg hw₁ hix, inv_resetSt cfg _⟩
      · have hi' : s₁.index - 1 < s₁.index := by omega
        obtain ⟨tbl, htbl⟩ : ∃ tbl, s₁.history.get? (s₁.index - 1) = some tbl := by
          obtain ⟨G', hG'⟩ := placedGrid_some_of_le cfg s₁ s₁.index (s₁.index - 1)
            (by omega) s₁.table hinv₁.table_eq
          exact ⟨G', by rw [hinv₁.hist_eq _ hi']; exact hG'⟩
        obtain ⟨w', l', hw', hl', hlne⟩ := hinv₁.cache_nonempty (s₁.index - 1) hi'
        cases l' with
        | nil => exact absurd rfl hlne
        | cons p' rest' =>
        have hww' : w' ≠ w := by
          intro heq
          subst heq
          have := words_get?_inj cfg.words hnd (s₁.index - 1) s₁.index w' hw' hgw₁
          omega
        have hl'del : (dictDel s₁.caches w).lookup w' = some (p' :: rest') := by
          rw [lookup_dictDel_ne _ _ _ hww']
          exact hl'
        refine ⟨_, loopBody_backtrack cfg s w s₁ tbl w' p' rest' hg hw₁ hix htbl hw' hl'del, ?_⟩
        have hPtbl : placedGrid cfg s₁ (s₁.index - 1) = some tbl := by
          rw [← hinv₁.hist_eq _ hi']
          exact htbl
        -- lookup facts for the new cache dictionary
        have hlook_other : ∀ v, v ≠ w → v ≠ w' →
            (dictSet (dictDel s₁.caches w) w' rest').lookup v = s₁.caches.lookup v := by
          intro v hvw hvw'
          rw [lookup_dictSet_ne _ _ _ _ hvw', lookup_dictDel_ne _ _ _ hvw]
        have hstable : ∀ i, i < s₁.index - 1 → ∀ wi, cfg.words.get? i = some wi →
            (dictSet (dictDel s₁.caches w) w' rest').lookup wi = s₁.caches.lookup wi := by
          intro i hi wi hwi
          refine hlook_other wi ?_ ?_
          · intro heq
            subst heq
            have := words_get?_inj cfg.words hnd i s₁.index wi hwi hgw₁
            omega
          · intro heq
            subst heq
            have := words_get?_inj cfg.words hnd i (s₁.index - 1) wi hwi hw'
            omega
        have hpg_eq : ∀ j, j ≤ s₁.index - 1 →
            placedGrid cfg { s₁ with caches := dictSet (dictDel s₁.caches w) w' rest', index := s₁.index - 1, table := tbl, history := s₁.history.eraseIdx (s₁.index - 1) } j
              = placedGrid cfg s₁ j := by
          intro j hj
          apply placedGrid_congr cfg s₁
            { s₁ with caches := dictSet (dictDel s₁.caches w) w' rest', index := s₁.index - 1, table := tbl, history := s₁.history.eraseIdx (s₁.index - 1) } rfl
          intro i hi wi hwi
          exact hstable i (by omega) wi hwi
        refine ⟨?_, ?_, ?_, ?_, ?_, ?_, ?_, ?_, ?_⟩
        · exact le_trans (Nat.sub_le s₁.index 1) hinv₁.index_le
        · rw [List.length_eraseIdx]
          rw [hinv₁.hist_len]
          rw [if_pos (by omega)]
        · exact hinv₁.allpos
        · exact keys_dictSet_nodup _ _ _ (keys_dictDel_nodup _ _ hinv₁.keys_nodup)
        · intro e he
          rcases mem_dictSet_cases _ _ _ _ he with hek | hed
          · exact ⟨s₁.index - 1, le_refl _, by rw [hek]; exact hw'⟩
          · obtain ⟨hed₁, hedw⟩ := mem_dictDel _ _ _ hed
            obtain ⟨j, hj, hjw⟩ := hinv₁.cache_keys e hed₁
            refine ⟨j, ?_, hjw⟩
            rcases Nat.lt_or_ge j s₁.index with hjlt | hjge
            · exact (by omega : j ≤ s₁.index - 1)
            · have hjeq : j = s₁.index := by omega
              subst hjeq
              rw [hjw] at hgw₁
              exact absurd (Option.some.inj hgw₁).symm (fun hh => hedw hh.symm)
        · intro j hj
          have hj0 : j < s₁.index - 1 := hj
          obtain ⟨wj, lj, hwj, hlj, hne⟩ := hinv₁.cache_nonempty j (by omega)
          refine ⟨wj, lj, hwj, ?_, hne⟩
          rw [hstable j hj wj hwj]
          exact hlj
        · intro j hj w'' hw'' l'' hl'' q hq
          have hj0 : j ≤ s₁.index - 1 := hj
          by_cases hw''w' : w'' = w'
          · subst hw''w'
            have hjeq : j = s₁.index - 1 :=
              words_get?_inj cfg.words hnd j (s₁.index - 1) w'' hw'' hw'
            subst hjeq
            rw [lookup_dictSet_self] at hl''
            cases hl''
            obtain ⟨hqm, G, hG, cnt', hcp'⟩ := hinv₁.cache_legal (s₁.index - 1)
              (by omega) w'' hw' (p' :: rest') hl' q (List.mem_cons_of_mem _ hq)
            refine ⟨hqm, G, ?_, cnt', hcp'⟩
            rw [hpg_eq _ (le_refl _)]
            exact hG
          · by_cases hw''w : w'' = w
            · subst hw''w
              rw [lookup_dictSet_ne _ _ _ _ hw''w', lookup_dictDel_self] at hl''
              cases hl''
            · rw [hlook_other w'' hw''w hw''w'] at hl''
              obtain ⟨hqm, G, hG, cnt', hcp'⟩ := hinv₁.cache_legal j
                (by omega) w'' hw'' l'' hl'' q hq
              refine ⟨hqm, G, ?_, cnt', hcp'⟩
              rw [hpg_eq j hj]
              exact hG
        · show placedGrid cfg _ (s₁.index - 1) = some tbl
          rw [hpg_eq _ (le_refl _)]
          exact hPtbl
        · intro j hj
          have hj0 : j < s₁.index - 1 := hj
          rw [List.get?_eq_getElem?, List.getElem?_eraseIdx]
          rw [if_pos hj]
          rw [← List.get?_eq_getElem?]
          rw [hpg_eq j (by omega)]
          exact hinv₁.hist_eq j (by omega)

theorem inv_t_update (cfg : Cfg) (s : St) (n : Nat) (h : INVProp cfg s) :
    INVProp cfg { s with t := n } := by
  have hpg : ∀ j, placedGrid cfg { s with t := n } j = placedGrid cfg s j :=
    fun j => placedGrid_eq_of_caches cfg s { s with t := n } rfl rfl j
  refine ⟨h.index_le, h.hist_len, h.allpos, h.keys_nodup, h.cache_keys, h.cache_nonempty, ?_, ?_, ?_⟩
  · intro j hj w'' hw'' l'' hl'' q hq
    obtain ⟨hqm, G, hG, cnt', hcp'⟩ := h.cache_legal j hj w'' hw'' l'' hl'' q hq
    exact ⟨hqm, G, by rw [hpg j]; exact hG, cnt', hcp'⟩
  · show placedGrid cfg _ s.index = some s.table
    rw [hpg]
    exact h.table_eq
  · intro j hj
    rw [hpg j]
    exact h.hist_eq j hj

theorem inv_iter (cfg : Cfg) (hnd : cfg.words.Nodup)
    (hsh : ∀ r li, (cfg.shuffle r li).Perm li) :
    ∀ k s, iter cfg k = some s → INVProp cfg s := by
  intro k
  induction k with
  | zero =>
      intro s h
      unfold iter at h
      cases h
      exact inv_initSt cfg
  | succ k ih =>
      intro s h
      unfold iter at h
      cases hik : iter cfg k with
      | none => rw [hik] at h; cases h
      | some u =>
          rw [hik] at h
          have hinvu := ih u hik
          have h2 : (match stepState cfg u with | some (Sum.inl s') => some s' | _ => none) = some s := h
          cases hss : stepState cfg u with
          | none =>
              rw [hss] at h2
              cases h2
          | some r =>
              rw [hss] at h2
              cases r with
              | inr r' => cases h2
              | inl s' =>
                  have h' : s' = s := Option.some.inj h2
                  unfold stepState at hss
                  by_cases hg : u.index < cfg.words.length
                  · rw [if_pos hg] at hss
                    cases hh : cfg.halt u.t with
                    | true => rw [hh] at hss; simp at hss
                    | false =>
                        rw [hh] at hss
                        simp only [Bool.false_eq_true, if_false] at hss
                        cases hb : loopBody cfg u with
                        | none => rw [hb] at hss; cases hss
                        | some s₀ =>
                            rw [hb] at hss
                            have hs' : ({ s₀ with t := u.t + 1 } : St) = s' :=
                              Sum.inl.inj (Option.some.inj hss)
                            obtain ⟨s₀', hb', hinv₀'⟩ := inv_loopBody cfg hnd hsh u hinvu hg
                            rw [hb'] at hb
                            cases hb
                            rw [← h', ← hs']
                            exact inv_t_update cfg s₀ (u.t + 1) hinv₀'
                  · rw [if_neg hg] at hss
                    cases hh : cfg.halt u.t with
                    | true => rw [hh] at hss; simp at hss
                    | false => rw [hh] at hss; simp at hss

theorem getWorkable_word (cfg : Cfg) (s : St) (l : List Position) (s₁ : St)
    (hg : getWorkable cfg s = some (l, s₁)) : ∃ w, curWord cfg s = some w := by
  unfold getWorkable at hg
  cases hw : curWord cfg s with
  | none =>
      rw [hw] at hg
      simp only [Option.bind_eq_bind, Option.none_bind] at hg
      cases hg
  | some w => exact ⟨w, rfl⟩

theorem lastPlaceGrid_succ (cfg : Cfg) (k j : Nat) (u : St) (hk : iter cfg k = some u) :
    lastPlaceGrid cfg (k + 1) j =
      if u.index = j ∧ isPlaceIter cfg u then some u.table else lastPlaceGrid cfg k j := by
  show (match iter cfg k with
    | some s => if s.index = j ∧ isPlaceIter cfg s then some s.table else lastPlaceGrid cfg k j
    | none => lastPlaceGrid cfg k j) = _
  rw [hk]

theorem lastPlace_hist (cfg : Cfg) (hnd : cfg.words.Nodup)
    (hsh : ∀ r li, (cfg.shuffle r li).Perm li) :
    ∀ k s, iter cfg k = some s → ∀ j, j < s.index →
      lastPlaceGrid cfg k j = s.history.get? j := by
  intro k
  induction k with
  | zero =>
      intro s h j hj
      unfold iter at h
      cases h
      exact absurd hj (Nat.not_lt_zero j)
  | succ k ih =>
      intro s h j hj
      unfold iter at h
      cases hik : iter cfg k with
      | none => rw [hik] at h; cases h
      | some u =>
          rw [hik] at h
          have h2 : (match stepState cfg u with | some (Sum.inl s') => some s' | _ => none) = some s := h
          have hinvu := inv_iter cfg hnd hsh k u hik
          cases hss : stepState cfg u with
          | none => rw [hss] at h2; cases h2
          | some r =>
              rw [hss] at h2
              cases r with
              | inr r' => cases h2
              | inl s' =>
                  have hse : s' = s := Option.some.inj h2
                  subst hse
                  unfold stepState at hss
                  by_cases hgd : u.index < cfg.words.length
                  · rw [if_pos hgd] at hss
                    cases hh : cfg.halt u.t with
                    | true => rw [hh] at hss; simp at hss
                    | false =>
                        rw [hh] at hss
                        simp only [Bool.false_eq_true, if_false] at hss
                        cases hb : loopBody cfg u with
                        | none => rw [hb] at hss; cases hss
                        | some s₀ =>
                            rw [hb] at hss
                            have hss2 : some (Sum.inl ({ s₀ with t := u.t + 1 } : St)) = some (Sum.inl s') := hss
                            have hs0 : ({ s₀ with t := u.t + 1 } : St) = s' := Sum.inl.inj (Option.some.inj hss2)
                            have hj0 : j < s₀.index := by rw [← hs0] at hj; exact hj
                            rw [← hs0]
                            show lastPlaceGrid cfg (k + 1) j = s₀.history.get? j
                            rw [lastPlaceGrid_succ cfg k j u hik]
                            cases hgw : getWorkable cfg u with
                            | none =>
                                unfold loopBody at hb
                                rw [hgw] at hb
                                simp only [Option.bind_eq_bind, Option.none_bind] at hb
                                cases hb
                            | some pr =>
                                obtain ⟨l, u₁⟩ := pr
                                obtain ⟨w, hwu⟩ := getWorkable_word cfg u l u₁ hgw
                                obtain ⟨l0, u₁', hg', hinv₁, hdim₁, htab₁, hhist₁, hidx₁, hap₁, ht₁, hlookw, hlook_other, hleg⟩ := getWorkable_inv cfg hnd hsh u hinvu w hwu
                                rw [hgw] at hg'
                                cases hg'
                                have hw₁ : curWord cfg u₁ = some w := by
                                  unfold curWord at hwu ⊢
                                  rw [hidx₁]
                                  exact hwu
                                cases l with
                                | cons p rest =>
                                    obtain ⟨hpmem, cnt, hcp⟩ := hleg p (List.mem_cons_self p rest)
                                    have htlen : u.table.length = u.dim :=
                                      (placedGrid_shape cfg u u.index u.table hinvu.table_eq).1
                                    have hbc : p.bounds_check w.length u.dim = true := by
                                      have hb0 := can_place_true_bounds w p u.table cnt hcp
                                      rw [htlen] at hb0
                                      exact hb0
                                    have hpxy : p.x < u.dim ∧ p.y < u.dim ∧ p.direction ∈ cfg.directions := by
                                      rw [hinvu.allpos, mem_all_posits] at hpmem
                                      exact hpmem
                                    have hcells := cells_in_bounds p w.length u.dim hpxy.1 hpxy.2.1 hbc
                                    obtain ⟨g', hwr⟩ := writeWord_some (p.cells w.length) w.toList u₁.table u.dim (by rw [htab₁]; exact htlen) hcells
                                    have hLB := loopBody_place cfg u w (p :: rest) u₁ p rest g' hgw rfl hw₁ hwr
                                    rw [hb] at hLB
                                    have hs00 : s₀ = { u₁ with table := g', history := u₁.history ++ [u₁.table], index := u₁.index + 1 } := Option.some.inj hLB
                                    have hs0h : s₀.history = u₁.history ++ [u₁.table] := by rw [hs00]
                                    have hs0i : s₀.index = u₁.index + 1 := by rw [hs00]
                                    have hpi : isPlaceIter cfg u = true := by
                                      unfold isPlaceIter
                                      rw [hgw]
                                      simp [hgd, hh]
                                    rw [hs0h]
                                    by_cases hju : u.index = j
                                    · rw [if_pos ⟨hju, hpi⟩]
                                      subst hju
                                      rw [hhist₁, htab₁, List.get?_eq_getElem?]
                                      rw [show u.index = u.history.length from hinvu.hist_len.symm]
                                      exact (List.getElem?_concat_length _ _).symm
                                    · rw [if_neg (fun hco => hju hco.1)]
                                      have hju' : j < u.index := by
                                        rw [hs0i] at hj0
                                        omega
                                      rw [List.get?_eq_getElem?,
                                        List.getElem?_append_left (by rw [hhist₁, hinvu.hist_len]; exact hju'),
                                        ← List.get?_eq_getElem?, hhist₁]
                                      exact ih u hik j hju'
                                | nil =>
                                    have hpi : isPlaceIter cfg u = false := by
                                      unfold isPlaceIter
                                      rw [hgw]
                                      simp
                                    rw [if_neg (fun hco => absurd hco.2 (by rw [hpi]; exact Bool.false_ne_true))]
                                    by_cases hix : u₁.index = 0
                                    · have hLB := loopBody_grow cfg u w u₁ hgw hw₁ hix
                                      rw [hb] at hLB
                                      have hs00 : s₀ = resetSt cfg { u₁ with dim := u₁.dim + 1, caches := dictDel u₁.caches w } := Option.some.inj hLB
                                      rw [hs00] at hj0
                                      exact absurd hj0 (Nat.not_lt_zero j)
                                    · have hi' : u₁.index - 1 < u₁.index := by omega
                                      obtain ⟨tbl, htbl⟩ : ∃ tbl, u₁.history.get? (u₁.index - 1) = some tbl := by
                                        obtain ⟨G', hG'⟩ := placedGrid_some_of_le cfg u₁ u₁.index (u₁.index - 1) (by omega) u₁.table hinv₁.table_eq
                                        exact ⟨G', by rw [hinv₁.hist_eq _ hi']; exact hG'⟩
                                      obtain ⟨w', l', hw', hl', hlne⟩ := hinv₁.cache_nonempty (u₁.index - 1) hi'
                                      cases l' with
                                      | nil => exact absurd rfl hlne
                                      | cons p' rest' =>
                                          have hgw₁ : cfg.words.get? u₁.index = some w := hw₁
                                          have hww' : w' ≠ w := by
                                            intro heq
                                            subst heq
                                            have := words_get?_inj cfg.words hnd (u₁.index - 1) u₁.index w' hw' hgw₁
                                            omega
                                          have hl'del : (dictDel u₁.caches w).lookup w' = some (p' :: rest') := by
                                            rw [lookup_dictDel_ne _ _ _ hww']
                                            exact hl'
                                          have hLB := loopBody_backtrack cfg u w u₁ tbl w' p' rest' hgw hw₁ hix htbl hw' hl'del
                                          rw [hb] at hLB
                                          have hs00 : s₀ = { u₁ with caches := dictSet (dictDel u₁.caches w) w' rest', index := u₁.index - 1, table := tbl, history := u₁.history.eraseIdx (u₁.index - 1) } := Option.some.inj hLB
                                          have hs0h : s₀.history = u₁.history.eraseIdx (u₁.index - 1) := by rw [hs00]
                                          have hs0i : s₀.index = u₁.index - 1 := by rw [hs00]
                                          have hj1 : j < u₁.index - 1 := by rw [hs0i] at hj0; exact hj0
                                          rw [hs0h]
                                          rw [List.get?_eq_getElem?, List.getElem?_eraseIdx, if_pos hj1,
                                            ← List.get?_eq_getElem?, hhist₁]
                                          exact ih u hik j (by omega)
                  · rw [if_neg hgd] at hss
                    cases hh : cfg.halt u.t with
                    | true => rw [hh] at hss; simp at hss
                    | false => rw [hh] at hss; simp at hss

/-- **C10.** Every write into the grid performed during `gen_word_search` is
in-bounds: in any reachable state whose current word has a non-empty
workable-position list, the first candidate comes from `all_posits` (so its
start cell lies in `[0, dim)` on both axes), its end cell passes
`bounds_check` inside `can_place`, every index of its cell sequence lies in
`[0, dim)` on both axes, and the placement write succeeds (no out-of-range
index is touched). -/
theorem C10_place_writes_in_bounds (cfg : Cfg) (hnd : cfg.words.Nodup)
    (hsh : ∀ r li, (cfg.shuffle r li).Perm li)
    (k : Nat) (s : St) (hk : iter cfg k = some s)
    (w : String) (hw : curWord cfg s = some w)
    (p : Position) (rest : List Position) (s₁ : St)
    (hg : getWorkable cfg s = some (p :: rest, s₁)) :
    p ∈ all_posits s.dim cfg.directions ∧
    p.x < s.dim ∧ p.y < s.dim ∧
    p.bounds_check w.length s.dim = true ∧
    (∀ c ∈ p.cells w.length, 0 ≤ c.1 ∧ c.1 < (s.dim : Int) ∧ 0 ≤ c.2 ∧ c.2 < (s.dim : Int)) ∧
    ∃ g', writeWord s₁.table (p.cells w.length) w.toList = some g' ∧
      loopBody cfg s = some { s₁ with table := g', history := s₁.history ++ [s₁.table], index := s₁.index + 1 } := by
  have hinv := inv_iter cfg hnd hsh k s hk
  obtain ⟨l0, s₁', hg', hinv₁, hdim₁, htab₁, hhist₁, hidx₁, hap₁, ht₁, hlookw, hlook_other, hleg⟩ := getWorkable_inv cfg hnd hsh s hinv w hw
  rw [hg] at hg'
  cases hg'
  obtain ⟨hpmem, cnt, hcp⟩ := hleg p (List.mem_cons_self p rest)
  have htlen : s.table.length = s.dim := (placedGrid_shape cfg s s.index s.table hinv.table_eq).1
  have hbc : p.bounds_check w.length s.dim = true := by
    have hb0 := can_place_true_bounds w p s.table cnt hcp
    rw [htlen] at hb0
    exact hb0
  have hpxy : p.x < s.dim ∧ p.y < s.dim ∧ p.direction ∈ cfg.directions := by
    rw [hinv.allpos, mem_all_posits] at hpmem
    exact hpmem
  have hcells := cells_in_bounds p w.length s.dim hpxy.1 hpxy.2.1 hbc
  obtain ⟨g', hwr⟩ := writeWord_some (p.cells w.length) w.toList s₁.table s.dim (by rw [htab₁]; exact htlen) hcells
  have hw₁ : curWord cfg s₁ = some w := by
    unfold curWord at hw ⊢
    rw [hidx₁]
    exact hw
  refine ⟨?_, hpxy.1, hpxy.2.1, hbc, hcells, g', hwr, ?_⟩
  · rw [← hinv.allpos]
    exact hpmem
  · exact loopBody_place cfg s w (p :: rest) s₁ p rest g' hg rfl hw₁ hwr

/-- C10 witness: in the two-word run `cfgPl` the first placement of `"AB"` at
`(0, 0)` heading `(1, 0)` is in-bounds on the 2 × 2 grid and the write
succeeds. -/
theorem C10_witness :
    (⟨0, 0, (1, 0)⟩ : Position) ∈ all_posits (initSt cfgPl).dim cfgPl.directions ∧
    (⟨0, 0, (1, 0)⟩ : Position).x < (initSt cfgPl).dim ∧
    (⟨0, 0, (1, 0)⟩ : Position).y < (initSt cfgPl).dim ∧
    (⟨0, 0, (1, 0)⟩ : Position).bounds_check "AB".length (initSt cfgPl).dim = true ∧
    (∀ c ∈ (⟨0, 0, (1, 0)⟩ : Position).cells "AB".length,
      0 ≤ c.1 ∧ c.1 < ((initSt cfgPl).dim : Int) ∧ 0 ≤ c.2 ∧ c.2 < ((initSt cfgPl).dim : Int)) ∧
    ∃ g', writeWord sPl₁.table ((⟨0, 0, (1, 0)⟩ : Position).cells "AB".length) "AB".toList = some g' ∧
      loopBody cfgPl (initSt cfgPl) = some { sPl₁ with table := g', history := sPl₁.history ++ [sPl₁.table], index := sPl₁.index + 1 } :=
  C10_place_writes_in_bounds cfgPl (by decide) (fun _ li => List.Perm.refl li) 0
    (initSt cfgPl) rfl "AB" rfl ⟨0, 0, (1, 0)⟩ [⟨0, 1, (1, 0)⟩] sPl₁ rfl

/-- **C6.** In any reachable state whose current word has no workable
positions and whose cursor stays at or above 0 after decrementing, the loop
iteration restores the grid to exactly the snapshot taken immediately before
the previous word was placed (`lastPlaceGrid` of the run at that word),
removes that history entry, and removes the previous word's first-tried
candidate (the head of its cached list, the position it was placed at) from
its cache. -/
theorem C6_backtrack_restores_snapshot (cfg : Cfg) (hnd : cfg.words.Nodup)
    (hsh : ∀ r li, (cfg.shuffle r li).Perm li)
    (k : Nat) (s : St) (hk : iter cfg k = some s)
    (s₁ : St) (hempty : getWorkable cfg s = some ([], s₁))
    (hix : s₁.index ≠ 0) :
    ∃ s' w' p' rest',
      loopBody cfg s = some s' ∧
      cfg.words.get? (s₁.index - 1) = some w' ∧
      cacheHead s₁ w' = some p' ∧
      s₁.caches.lookup w' = some (p' :: rest') ∧
      lastPlaceGrid cfg k (s₁.index - 1) = some s'.table ∧
      s'.history = s₁.history.eraseIdx (s₁.index - 1) ∧
      s'.index = s₁.index - 1 ∧
      s'.caches.lookup w' = some rest' := by
  have hinv := inv_iter cfg hnd hsh k s hk
  obtain ⟨w, hw⟩ := getWorkable_word cfg s [] s₁ hempty
  obtain ⟨l0, s₁', hg', hinv₁, hdim₁, htab₁, hhist₁, hidx₁, hap₁, ht₁, hlookw, hlook_other, hleg⟩ := getWorkable_inv cfg hnd hsh s hinv w hw
  rw [hempty] at hg'
  cases hg'
  have hw₁ : curWord cfg s₁ = some w := by
    unfold curWord at hw ⊢
    rw [hidx₁]
    exact hw
  have hgw₁ : cfg.words.get? s₁.index = some w := hw₁
  have hi' : s₁.index - 1 < s₁.index := by omega
  obtain ⟨tbl, htbl⟩ : ∃ tbl, s₁.history.get? (s₁.index - 1) = some tbl := by
    obtain ⟨G', hG'⟩ := placedGrid_some_of_le cfg s₁ s₁.index (s₁.index - 1) (by omega) s₁.table hinv₁.table_eq
    exact ⟨G', by rw [hinv₁.hist_eq _ hi']; exact hG'⟩
  obtain ⟨w', l', hw', hl', hlne⟩ := hinv₁.cache_nonempty (s₁.index - 1) hi'
  cases l' with
  | nil => exact absurd rfl hlne
  | cons p' rest' =>
      have hww' : w' ≠ w := by
        intro heq
        subst heq
        have := words_get?_inj cfg.words hnd (s₁.index - 1) s₁.index w' hw' hgw₁
        omega
      have hl'del : (dictDel s₁.caches w).lookup w' = some (p' :: rest') := by
        rw [lookup_dictDel_ne _ _ _ hww']
        exact hl'
      have hLB := loopBody_backtrack cfg s w s₁ tbl w' p' rest' hempty hw₁ hix htbl hw' hl'del
      refine ⟨_, w', p', rest', hLB, hw', ?_, hl', ?_, rfl, rfl, ?_⟩
      · unfold cacheHead
        rw [hl']
        rfl
      · show lastPlaceGrid cfg k (s₁.index - 1) = some tbl
        rw [lastPlace_hist cfg hnd hsh k s hk (s₁.index - 1) (by omega), ← hhist₁]
        exact htbl
      · exact lookup_dictSet_self _ _ _

/-- C6 witness: in the three-word run `cfgBt`, after two placements the word
`"EF"` has no workable positions; the backtrack step restores the table to
the snapshot before `"CD"` was placed, drops that history entry and pops
`"CD"`'s first-tried candidate. -/
theorem C6_witness :
    ∃ s' w' p' rest',
      loopBody cfgBt sBt = some s' ∧
      cfgBt.words.get? (sBt₁.index - 1) = some w' ∧
      cacheHead sBt₁ w' = some p' ∧
      sBt₁.caches.lookup w' = some (p' :: rest') ∧
      lastPlaceGrid cfgBt 2 (sBt₁.index - 1) = some s'.table ∧
      s'.history = sBt₁.history.eraseIdx (sBt₁.index - 1) ∧
      s'.index = sBt₁.index - 1 ∧
      s'.caches.lookup w' = some rest' :=
  C6_backtrack_restores_snapshot cfgBt (by decide) (fun _ li => List.Perm.refl li) 2 sBt rfl sBt₁ rfl (by decide)

theorem cells_length (p : Position) (len : Nat) : (p.cells len).length = len := by
  rw [cells_eq]
  simp

theorem cells_get? (p : Position) (len i : Nat) (hi : i < len) :
    (p.cells len).get? i
      = some ((p.x : Int) + p.dx * (i : Int), (p.y : Int) + p.dy * (i : Int)) := by
  rw [cells_eq, List.get?_eq_getElem?, List.getElem?_map, List.getElem?_range hi]
  rfl

theorem cells_nodup (p : Position) (len : Nat) (hd : p.direction ∈ DIRECTIONS) :
    (p.cells len).Nodup := by
  rw [cells_eq]
  refine List.Nodup.map ?_ (List.nodup_range len)
  intro k k' heq
  simp only [Prod.mk.injEq] at heq
  obtain ⟨h1, h2⟩ := heq
  simp only [DIRECTIONS, List.mem_cons, List.not_mem_nil, or_false] at hd
  rcases hd with h|h|h|h|h|h|h|h <;>
    (simp only [Position.dx, Position.dy, h] at h1 h2; omega)

theorem gridGet_gridSet_self (g : Grid) (a b : Nat) (v : Cell)
    (ha : a < g.length) (hb : ∀ row ∈ g, b < row.length) :
    gridGet (gridSet g a b v) a b = v := by
  unfold gridGet gridSet
  obtain ⟨row, hrow⟩ : ∃ row, g[a]? = some row := ⟨_, List.getElem?_eq_getElem ha⟩
  have hrm : row ∈ g := by
    have h2 := List.getElem?_eq_getElem ha
    rw [hrow] at h2
    have h3 := Option.some.inj h2
    rw [h3]
    exact List.getElem_mem ha
  have hbr : b < row.length := hb row hrm
  rw [List.getD_eq_getElem?_getD, List.getD_eq_getElem?_getD, List.getElem?_modify, hrow]
  simp only [Option.map_eq_map, Option.map_some', Option.getD_some, if_true]
  rw [List.getElem?_set_eq_of_lt v hbr]
  rfl

theorem contains_false_iff (l : List Bool) :
    l.contains false = false ↔ ∀ b ∈ l, b = true := by
  induction l with
  | nil => simp
  | cons a l ih =>
      cases a <;> simp [List.contains_cons, ih]

theorem success_all (vals : List Cell) :
    ∀ ws : List Char,
      (∀ b ∈ List.zipWith (fun a b => a || b)
          ((vals.zip ws).map (fun vc => decide (vc.1 = some vc.2)))
          (vals.map (fun v => decide (v = none))), b = true) →
      ∀ i v c, vals.get? i = some v → ws.get? i = some c → v = some c ∨ v = none := by
  induction vals with
  | nil =>
      intro ws h i v c hv
      cases hv
  | cons a vs ih =>
      intro ws h i v c hv hc
      cases ws with
      | nil => cases hc
      | cons b bs =>
          simp only [List.zip_cons_cons, List.map_cons, List.zipWith_cons_cons] at h
          cases i with
          | zero =>
              have hv2 : some a = some v := hv
              have hc2 : some b = some c := hc
              cases hv2
              cases hc2
              have hhd := h _ (List.mem_cons_self _ _)
              rcases Bool.or_eq_true_iff.mp hhd with h1 | h1
              · exact Or.inl (of_decide_eq_true h1)
              · exact Or.inr (of_decide_eq_true h1)
          | succ i =>
              exact ih bs (fun x hx => h x (List.mem_cons_of_mem _ hx)) i v c hv hc

theorem can_place_true_chars (w : String) (p : Position) (g : Grid) (cnt : Nat)
    (hx : p.x < g.length) (hy : p.y < g.length)
    (h : can_place w p g = some (true, cnt)) :
    ∀ i xi yi, (p.cells w.length).get? i = some (xi, yi) →
      gridGet g xi.toNat yi.toNat = none ∨
      ∃ c, w.toList.get? i = some c ∧ gridGet g xi.toNat yi.toNat = some c := by
  have hb := can_place_true_bounds w p g cnt h
  have hcells := cells_in_bounds p w.length g.length hx hy hb
  have hvals : (p.cells w.length).mapM (fun c => gridGetI g c.1 c.2)
      = some ((p.cells w.length).map (fun c => gridGet g c.1.toNat c.2.toNat)) := by
    apply mapM_option_eq_map
    intro c hc
    obtain ⟨h1, h2, h3, h4⟩ := hcells c hc
    exact gridGetI_of_inbounds g c.1 c.2 h1 h2 h3 h4
  simp only [can_place, hb, Bool.not_true, Bool.false_eq_true, if_false,
    Option.bind_eq_bind, hvals, Option.some_bind] at h
  have hpair := Option.some.inj h
  have hsucc : (!(List.zipWith (fun a b => a || b)
      ((((p.cells w.length).map (fun c => gridGet g c.1.toNat c.2.toNat)).zip w.toList).map
        (fun vc => decide (vc.1 = some vc.2)))
      (((p.cells w.length).map (fun c => gridGet g c.1.toNat c.2.toNat)).map
        (fun v => decide (v = none)))).contains false) = true := congrArg Prod.fst hpair
  have hall : ∀ b ∈ List.zipWith (fun a b => a || b)
      ((((p.cells w.length).map (fun c => gridGet g c.1.toNat c.2.toNat)).zip w.toList).map
        (fun vc => decide (vc.1 = some vc.2)))
      (((p.cells w.length).map (fun c => gridGet g c.1.toNat c.2.toNat)).map
        (fun v => decide (v = none))), b = true :=
    (contains_false_iff _).mp (by simpa using hsucc)
  intro i xi yi hcell
  have hilen : i < (p.cells w.length).length := by
    rcases List.get?_eq_some.mp hcell with ⟨hl, _⟩
    exact hl
  have hilen' : i < w.length := by rw [cells_length] at hilen; exact hilen
  obtain ⟨c, hc⟩ : ∃ c, w.toList.get? i = some c :=
    ⟨_, List.get?_eq_get (show i < w.toList.length from hilen')⟩
  have hvi : ((p.cells w.length).map (fun c => gridGet g c.1.toNat c.2.toNat)).get? i
      = some (gridGet g xi.toNat yi.toNat) := by
    rw [List.get?_eq_getElem?, List.getElem?_map, ← List.get?_eq_getElem?, hcell]
    rfl
  rcases success_all _ w.toList hall i (gridGet g xi.toNat yi.toNat) c hvi hc with h1 | h1
  · exact Or.inr ⟨c, hc, h1⟩
  · exact Or.inl h1

theorem writeWord_unchanged (cs : List (Int × Int)) :
    ∀ (ls : List Char) (g g' : Grid),
      (∀ c ∈ cs, 0 ≤ c.1 ∧ c.1 < (g.length : Int) ∧ 0 ≤ c.2 ∧ c.2 < (g.length : Int)) →
      writeWord g cs ls = some g' →
      ∀ x y : Nat, ((x : Int), (y : Int)) ∉ cs → gridGet g' x y = gridGet g x y := by
  induction cs with
  | nil =>
      intro ls g g' hin h x y hm
      cases ls with
      | nil =>
          have h2 : some g = some g' := h
          cases h2
          rfl
      | cons a ls =>
          have h2 : some g = some g' := h
          cases h2
          rfl
  | cons c cs ih =>
      obtain ⟨xi, yi⟩ := c
      intro ls g g' hin h x y hm
      cases ls with
      | nil =>
          have h2 : some g = some g' := h
          cases h2
          rfl
      | cons a ls =>
          obtain ⟨h1, h2, h3, h4⟩ := hin _ (List.mem_cons_self _ _)
          have h' : (gridSetI g xi yi (some a)).bind (fun g1 => writeWord g1 cs ls) = some g' := h
          rw [gridSetI_some g xi yi (some a) h1 h2 h3 h4, Option.some_bind] at h'
          have hlen1 : (gridSet g xi.toNat yi.toNat (some a)).length = g.length :=
            gridSet_length _ _ _ _
          have hrest : gridGet g' x y = gridGet (gridSet g xi.toNat yi.toNat (some a)) x y := by
            apply ih ls _ g' _ h' x y (fun hx => hm (List.mem_cons_of_mem _ hx))
            intro c hc
            rw [hlen1]
            exact hin c (List.mem_cons_of_mem _ hc)
          rw [hrest]
          rcases gridGet_gridSet g xi.toNat yi.toNat (some a) x y with hsame | ⟨hax, hby, _⟩
          · exact hsame
          · exfalso
            apply hm
            have hxx : xi = (x : Int) := by rw [← hax, Int.toNat_of_nonneg h1]
            have hyy : yi = (y : Int) := by rw [← hby, Int.toNat_of_nonneg h3]
            rw [← hxx, ← hyy]
            exact List.mem_cons_self _ _

theorem writeWord_written (cs : List (Int × Int)) :
    ∀ (ls : List Char) (g g' : Grid) (d : Nat), g.length = d → (∀ row ∈ g, row.length = d) →
      (∀ c ∈ cs, 0 ≤ c.1 ∧ c.1 < (d : Int) ∧ 0 ≤ c.2 ∧ c.2 < (d : Int)) →
      cs.Nodup →
      writeWord g cs ls = some g' →
      ∀ i xi yi ch, cs.get? i = some (xi, yi) → ls.get? i = some ch →
        gridGet g' xi.toNat yi.toNat = some ch := by
  induction cs with
  | nil =>
      intro ls g g' d hlen hrows hin hnd h i xi yi ch hci
      cases hci
  | cons c cs ih =>
      obtain ⟨x0, y0⟩ := c
      intro ls g g' d hlen hrows hin hnd h i xi yi ch hci hli
      cases ls with
      | nil => cases i <;> cases hli
      | cons a ls =>
          obtain ⟨h1, h2, h3, h4⟩ := hin _ (List.mem_cons_self _ _)
          have h1' : 0 ≤ x0 := h1
          have h2' : x0 < (g.length : Int) := by rw [hlen]; exact h2
          have h3' : 0 ≤ y0 := h3
          have h4' : y0 < (g.length : Int) := by rw [hlen]; exact h4
          have h' : (gridSetI g x0 y0 (some a)).bind (fun g1 => writeWord g1 cs ls) = some g' := h
          rw [gridSetI_some g x0 y0 (some a) h1' h2' h3' h4', Option.some_bind] at h'
          have hlen1 : (gridSet g x0.toNat y0.toNat (some a)).length = d := by
            rw [gridSet_length]; exact hlen
          have hrows1 : ∀ row ∈ gridSet g x0.toNat y0.toNat (some a), row.length = d :=
            gridSet_rows g _ _ _ d hrows
          cases i with
          | zero =>
              have hci2 : some ((x0 : Int), (y0 : Int)) = some (xi, yi) := hci
              have hli2 : some a = some ch := hli
              cases hci2
              cases hli2
              have hG1 : gridGet (gridSet g x0.toNat y0.toNat (some ch)) x0.toNat y0.toNat = some ch := by
                apply gridGet_gridSet_self
                · omega
                · intro row hrow
                  rw [hrows row hrow]
                  omega
              have hnm : ((x0.toNat : Int), (y0.toNat : Int)) ∉ cs := by
                rw [Int.toNat_of_nonneg h1, Int.toNat_of_nonneg h3]
                exact (List.nodup_cons.mp hnd).1
              rw [writeWord_unchanged cs ls _ g' (by rw [hlen1]; exact fun c hc => hin c (List.mem_cons_of_mem _ hc)) h' x0.toNat y0.toNat hnm]
              exact hG1
          | succ i =>
              have hci2 : cs.get? i = some (xi, yi) := hci
              have hli2 : ls.get? i = some ch := hli
              exact ih ls _ g' d hlen1 hrows1 (fun c hc => hin c (List.mem_cons_of_mem _ hc))
                (List.nodup_cons.mp hnd).2 h' i xi yi ch hci2 hli2

theorem writeWord_preserves (w : String) (p : Position) (g g' : Grid) (cnt : Nat)
    (hx : p.x < g.length) (hy : p.y < g.length)
    (hrows : ∀ row ∈ g, row.length = g.length)
    (hdir : p.direction ∈ DIRECTIONS)
    (hcp : can_place w p g = some (true, cnt))
    (hw : writeWord g (p.cells w.length) w.toList = some g') :
    ∀ x y : Nat, ∀ ch, gridGet g x y = some ch → gridGet g' x y = some ch := by
  have hb := can_place_true_bounds w p g cnt hcp
  have hcells := cells_in_bounds p w.length g.length hx hy hb
  intro x y ch hxy
  by_cases hm : ((x : Int), (y : Int)) ∈ p.cells w.length
  · obtain ⟨i, hi⟩ := List.get?_of_mem hm
    rcases can_place_true_chars w p g cnt hx hy hcp i (x : Int) (y : Int) hi with hnone | ⟨c, hc, hcv⟩
    · rw [Int.toNat_natCast, Int.toNat_natCast] at hnone
      rw [hnone] at hxy
      cases hxy
    · rw [Int.toNat_natCast, Int.toNat_natCast] at hcv
      rw [hcv] at hxy
      have hch : ch = c := (Option.some.inj hxy).symm
      subst hch
      have := writeWord_written (p.cells w.length) w.toList g g' g.length rfl hrows hcells
        (cells_nodup p w.length hdir) hw i (x : Int) (y : Int) ch hi hc
      rw [Int.toNat_natCast, Int.toNat_natCast] at this
      exact this
  · rw [writeWord_unchanged (p.cells w.length) w.toList g g' hcells hw x y hm]
    exact hxy

theorem placedGrid_succ_elim (cfg : Cfg) (s : St) (n : Nat) (G : Grid)
    (h : placedGrid cfg s (n + 1) = some G) :
    ∃ Gn wn pn, placedGrid cfg s n = some Gn ∧ cfg.words.get? n = some wn ∧
      cacheHead s wn = some pn ∧ writeWord Gn (pn.cells wn.length) wn.toList = some G := by
  have h' : (placedGrid cfg s n).bind (fun g => (cfg.words.get? n).bind (fun w => (cacheHead s w).bind (fun p => writeWord g (p.cells w.length) w.toList))) = some G := h
  rw [Option.bind_eq_some] at h'
  obtain ⟨Gn, hGn, h2⟩ := h'
  rw [Option.bind_eq_some] at h2
  obtain ⟨wn, hwn, h3⟩ := h2
  rw [Option.bind_eq_some] at h3
  obtain ⟨pn, hpn, h4⟩ := h3
  exact ⟨Gn, wn, pn, hGn, hwn, hpn, h4⟩

theorem cacheHead_elim (s : St) (w : String) (p : Position)
    (h : cacheHead s w = some p) :
    ∃ l, s.caches.lookup w = some l ∧ p ∈ l := by
  unfold cacheHead at h
  cases hl : s.caches.lookup w with
  | none => rw [hl] at h; cases h
  | some l =>
      rw [hl] at h
      simp only [Option.some_bind] at h
      exact ⟨l, rfl, List.mem_of_mem_head? h⟩

theorem placedGrid_words (cfg : Cfg) (s : St) (hinv : INVProp cfg s)
    (hdirs : ∀ d ∈ cfg.directions, d ∈ DIRECTIONS) :
    ∀ n, n ≤ s.index → ∀ G, placedGrid cfg s n = some G →
      ∀ j, j < n → ∀ w, cfg.words.get? j = some w →
        ∃ p, cacheHead s w = some p ∧ p.x < s.dim ∧ p.y < s.dim ∧
          p.direction ∈ cfg.directions ∧
          ∀ i c, w.toList.get? i = some c →
            ∃ xi yi : Int, (p.cells w.length).get? i = some (xi, yi) ∧
              0 ≤ xi ∧ xi < (s.dim : Int) ∧ 0 ≤ yi ∧ yi < (s.dim : Int) ∧
              gridGet G xi.toNat yi.toNat = some c := by
  intro n
  induction n with
  | zero =>
      intro _ G hG j hj
      exact absurd hj (Nat.not_lt_zero j)
  | succ n ih =>
      intro hn G hG j hj w hwj
      obtain ⟨Gn, wn, pn, hGn, hwn, hpn, hwr⟩ := placedGrid_succ_elim cfg s n G hG
      obtain ⟨hlenGn, hrowsGn⟩ := placedGrid_shape cfg s n Gn hGn
      obtain ⟨ln, hln, hpmem⟩ := cacheHead_elim s wn pn hpn
      obtain ⟨hpall, G0, hG0, cntn, hcpn⟩ :=
        hinv.cache_legal n (by omega) wn hwn ln hln pn hpmem
      have hG0n : G0 = Gn := by
        rw [hGn] at hG0
        exact (Option.some.inj hG0).symm
      rw [hG0n] at hcpn
      have hpxy := (mem_all_posits s.dim cfg.directions pn).mp (hinv.allpos ▸ hpall)
      have hpx : pn.x < Gn.length := by rw [hlenGn]; exact hpxy.1
      have hpy : pn.y < Gn.length := by rw [hlenGn]; exact hpxy.2.1
      have hrowsGn' : ∀ row ∈ Gn, row.length = Gn.length := by
        intro row hrow
        rw [hlenGn]
        exact hrowsGn row hrow
      have hdirn : pn.direction ∈ DIRECTIONS := hdirs _ hpxy.2.2
      rcases Nat.lt_succ_iff_lt_or_eq.mp hj with hj' | hj'
      · obtain ⟨p, hp, hpx', hpy', hpd, hocc⟩ := ih (by omega) Gn hGn j hj' w hwj
        refine ⟨p, hp, hpx', hpy', hpd, ?_⟩
        intro i c hic
        obtain ⟨xi, yi, hcell, hx0, hx1, hy0, hy1, hval⟩ := hocc i c hic
        refine ⟨xi, yi, hcell, hx0, hx1, hy0, hy1, ?_⟩
        exact writeWord_preserves wn pn Gn G cntn hpx hpy hrowsGn' hdirn hcpn hwr
          xi.toNat yi.toNat c hval
      · subst hj'
        have hwwn : w = wn := by
          rw [hwj] at hwn
          exact Option.some.inj hwn
        subst hwwn
        refine ⟨pn, hpn, hpxy.1, hpxy.2.1, hpxy.2.2, ?_⟩
        intro i c hic
        have hilen : i < w.length := by
          have : i < w.toList.length := (List.get?_eq_some.mp hic).1
          exact this
        have hcell := cells_get? pn w.length i hilen
        refine ⟨(pn.x : Int) + pn.dx * (i : Int), (pn.y : Int) + pn.dy * (i : Int), hcell, ?_⟩
        have hbn := can_place_true_bounds w pn Gn cntn hcpn
        rw [hlenGn] at hbn
        have hcells := cells_in_bounds pn w.length s.dim hpxy.1 hpxy.2.1 hbn
        have hcmem : ((pn.x : Int) + pn.dx * (i : Int), (pn.y : Int) + pn.dy * (i : Int)) ∈ pn.cells w.length := by
          rw [cells_eq]
          exact List.mem_map.mpr ⟨i, List.mem_range.mpr hilen, rfl⟩
        obtain ⟨hx0, hx1, hy0, hy1⟩ := hcells _ hcmem
        refine ⟨hx0, hx1, hy0, hy1, ?_⟩
        apply writeWord_written (pn.cells w.length) w.toList Gn G s.dim hlenGn
          (fun row hrow => hrowsGn row hrow) hcells
          (cells_nodup pn w.length hdirn) hwr i _ _ c hcell hic

theorem gridGet_empty (dim x y : Nat) : gridGet (create_empty_table dim) x y = none := by
  unfold gridGet create_empty_table
  rw [List.getD_eq_getElem?_getD, List.getD_eq_getElem?_getD, List.getElem?_replicate]
  rcases Nat.lt_or_ge x dim with hx | hx
  · rw [if_pos hx]
    simp only [Option.getD_some]
    rw [List.getElem?_replicate]
    rcases Nat.lt_or_ge y dim with hy | hy
    · rw [if_pos hy]
      rfl
    · rw [if_neg (by omega)]
      rfl
  · rw [if_neg (by omega)]
    rfl

theorem filledCount_empty (dim : Nat) : filledCount (create_empty_table dim) = 0 := by
  unfold filledCount
  rw [Finset.card_eq_zero, Finset.filter_eq_empty_iff]
  intro xy _
  rw [gridGet_empty]
  simp

theorem filledCount_gridSet (g : Grid) (x y : Nat) (c : Cell) :
    filledCount (gridSet g x y c) ≤ filledCount g + 1 := by
  unfold filledCount
  rw [gridSet_length]
  have hsub : (((Finset.range g.length) ×ˢ (Finset.range g.length)).filter
      (fun xy => (gridGet (gridSet g x y c) xy.1 xy.2).isSome))
      ⊆ insert (x, y) (((Finset.range g.length) ×ˢ (Finset.range g.length)).filter
      (fun xy => (gridGet g xy.1 xy.2).isSome)) := by
    intro ab hab
    rw [Finset.mem_filter] at hab
    obtain ⟨hmem, hsome⟩ := hab
    rcases gridGet_gridSet g x y c ab.1 ab.2 with hsame | ⟨hax, hby, _⟩
    · exact Finset.mem_insert.mpr (Or.inr (Finset.mem_filter.mpr ⟨hmem, by rw [← hsame]; exact hsome⟩))
    · refine Finset.mem_insert.mpr (Or.inl ?_)
      have : ab = (ab.1, ab.2) := rfl
      rw [this, ← hax, ← hby]
  exact le_trans (Finset.card_le_card hsub) (Finset.card_insert_le _ _)

theorem filledCount_writeWord (cs : List (Int × Int)) :
    ∀ (ls : List Char) (g g' : Grid), writeWord g cs ls = some g' →
      filledCount g' ≤ filledCount g + cs.length := by
  induction cs with
  | nil =>
      intro ls g g' h
      cases ls with
      | nil =>
          have h2 : some g = some g' := h
          cases h2
          simp
      | cons a ls =>
          have h2 : some g = some g' := h
          cases h2
          simp
  | cons c cs ih =>
      obtain ⟨xi, yi⟩ := c
      intro ls g g' h
      cases ls with
      | nil =>
          have h2 : some g = some g' := h
          cases h2
          simp
      | cons a ls =>
          have h' : (gridSetI g xi yi (some a)).bind (fun g1 => writeWord g1 cs ls) = some g' := h
          rw [Option.bind_eq_some] at h'
          obtain ⟨g1, hg1, hrest⟩ := h'
          have hg1' : (normIdx g.length xi).bind (fun nx => (normIdx g.length yi).bind
              (fun ny => some (gridSet g nx ny (some a)))) = some g1 := hg1
          rw [Option.bind_eq_some] at hg1'
          obtain ⟨nx, _, hg2⟩ := hg1'
          rw [Option.bind_eq_some] at hg2
          obtain ⟨ny, _, hg3⟩ := hg2
          have hg1eq : gridSet g nx ny (some a) = g1 := Option.some.inj hg3
          have hb1 := filledCount_gridSet g nx ny (some a)
          rw [hg1eq] at hb1
          have hb2 := ih ls g1 g' hrest
          simp only [List.length_cons]
          omega

theorem sum_map_take_le (l : List String) (n : Nat) :
    ((l.take n).map String.length).sum ≤ (l.map String.length).sum := by
  conv_rhs => rw [← List.take_append_drop n l]
  rw [List.map_append, List.sum_append]
  exact Nat.le_add_right _ _

theorem filledCount_placedGrid (cfg : Cfg) (s : St) :
    ∀ n G, placedGrid cfg s n = some G →
      filledCount G ≤ ((cfg.words.take n).map String.length).sum := by
  intro n
  induction n with
  | zero =>
      intro G hG
      have hG2 : some (create_empty_table s.dim) = some G := hG
      cases hG2
      rw [filledCount_empty]
      exact Nat.zero_le _
  | succ n ih =>
      intro G hG
      obtain ⟨Gn, wn, pn, hGn, hwn, hpn, hwr⟩ := placedGrid_succ_elim cfg s n G hG
      have h1 := filledCount_writeWord _ _ _ _ hwr
      rw [cells_length] at h1
      have h2 := ih Gn hGn
      have htake : ((cfg.words.take (n + 1)).map String.length).sum
          = ((cfg.words.take n).map String.length).sum + wn.length := by
        rw [List.take_succ, List.map_append, List.sum_append]
        rw [show cfg.words[n]? = some wn from by rw [← List.get?_eq_getElem?]; exact hwn]
        simp
      omega

theorem exists_unblocked (M : Nat) (line : Nat → List (Nat × Nat)) (F : Finset (Nat × Nat))
    (hdisj : ∀ t1, t1 < M → ∀ t2, t2 < M → t1 ≠ t2 → ∀ c, c ∈ line t1 → c ∈ line t2 → False)
    (hM : F.card < M) :
    ∃ t, t < M ∧ ∀ c ∈ line t, c ∉ F := by
  by_contra hcon
  push_neg at hcon
  have hcon' : ∀ t, ∃ c, t < M → c ∈ line t ∧ c ∈ F := by
    intro t
    by_cases ht : t < M
    · obtain ⟨c, hc1, hc2⟩ := hcon t ht
      exact ⟨c, fun _ => ⟨hc1, hc2⟩⟩
    · exact ⟨(0, 0), fun h => absurd h ht⟩
  choose f hf using hcon'
  have hcard : (Finset.range M).card ≤ F.card := by
    apply Finset.card_le_card_of_injOn f
    · intro t ht
      exact (hf t (Finset.mem_range.mp ht)).2
    · intro t1 ht1 t2 ht2 heq
      by_contra hne
      exact hdisj t1 (Finset.mem_range.mp ht1) t2 (Finset.mem_range.mp ht2) hne (f t1)
        (hf t1 (Finset.mem_range.mp ht1)).1 (heq ▸ (hf t2 (Finset.mem_range.mp ht2)).1)
  rw [Finset.card_range] at hcard
  omega

theorem exists_free_cells (g : Grid) (dim : Nat) (hlen : g.length = dim)
    (L : Nat) (hfil : filledCount g ≤ L)
    (M : Nat) (hML : L < M) (pos : Nat → Position) (len : Nat)
    (hb : ∀ t, t < M → (pos t).x < dim ∧ (pos t).y < dim ∧ (pos t).bounds_check len dim = true)
    (hdisj : ∀ t1, t1 < M → ∀ t2, t2 < M → t1 ≠ t2 →
      ∀ c1, c1 ∈ (pos t1).cells len → ∀ c2, c2 ∈ (pos t2).cells len → c1 ≠ c2) :
    ∃ t, t < M ∧ (pos t).x < dim ∧ (pos t).y < dim ∧ (pos t).bounds_check len dim = true ∧
      ∀ c ∈ (pos t).cells len, gridGet g c.1.toNat c.2.toNat = none := by
  have hcard : (((Finset.range dim) ×ˢ (Finset.range dim)).filter
      (fun xy => (gridGet g xy.1 xy.2).isSome)).card < M := by
    have heq : filledCount g = (((Finset.range dim) ×ˢ (Finset.range dim)).filter
        (fun xy => (gridGet g xy.1 xy.2).isSome)).card := by
      unfold filledCount
      rw [hlen]
    omega
  have hdisj2 : ∀ t1, t1 < M → ∀ t2, t2 < M → t1 ≠ t2 →
      ∀ c, c ∈ ((pos t1).cells len).map (fun c => (c.1.toNat, c.2.toNat)) →
        c ∈ ((pos t2).cells len).map (fun c => (c.1.toNat, c.2.toNat)) → False := by
    intro t1 ht1 t2 ht2 hne c hc1 hc2
    rw [List.mem_map] at hc1 hc2
    obtain ⟨c1, hc1m, hc1e⟩ := hc1
    obtain ⟨c2, hc2m, hc2e⟩ := hc2
    obtain ⟨hx1, hy1, hb1⟩ := hb t1 ht1
    obtain ⟨hx2, hy2, hb2⟩ := hb t2 ht2
    obtain ⟨ha1, ha2, ha3, ha4⟩ := cells_in_bounds (pos t1) len dim hx1 hy1 hb1 c1 hc1m
    obtain ⟨hb1', hb2', hb3', hb4'⟩ := cells_in_bounds (pos t2) len dim hx2 hy2 hb2 c2 hc2m
    have hceq : c1 = c2 := by
      rw [← hc2e] at hc1e
      have hfst : c1.1.toNat = c2.1.toNat := congrArg Prod.fst hc1e
      have hsnd : c1.2.toNat = c2.2.toNat := congrArg Prod.snd hc1e
      have e1 : c1.1 = c2.1 := by omega
      have e2 : c1.2 = c2.2 := by omega
      exact Prod.ext e1 e2
    exact hdisj t1 ht1 t2 ht2 hne c1 hc1m c2 hc2m hceq
  obtain ⟨t, ht, hfree⟩ := exists_unblocked M
    (fun t => ((pos t).cells len).map (fun c => (c.1.toNat, c.2.toNat)))
    (((Finset.range dim) ×ˢ (Finset.range dim)).filter (fun xy => (gridGet g xy.1 xy.2).isSome))
    hdisj2 hcard
  obtain ⟨hx, hy, hbc⟩ := hb t ht
  refine ⟨t, ht, hx, hy, hbc, ?_⟩
  intro c hc
  have hcm : (c.1.toNat, c.2.toNat) ∈ ((pos t).cells len).map (fun c => (c.1.toNat, c.2.toNat)) :=
    List.mem_map.mpr ⟨c, hc, rfl⟩
  have hnotF := hfree _ hcm
  obtain ⟨h1, h2, h3, h4⟩ := cells_in_bounds (pos t) len dim hx hy hbc c hc
  by_contra hsome
  apply hnotF
  rw [Finset.mem_filter]
  refine ⟨?_, ?_⟩
  · rw [Finset.mem_product]
    constructor <;> rw [Finset.mem_range] <;> omega
  · rw [Option.isSome_iff_ne_none]
    exact hsome

theorem exists_free_position (g : Grid) (dim : Nat) (hlen : g.length = dim)
    (L ℓ : Nat) (hfil : filledCount g ≤ L) (d : Dir) (hd : d ∈ DIRECTIONS)
    (hℓ : 1 ≤ ℓ) (hdim : L + ℓ + 3 ≤ dim) :
    ∃ p : Position, p.direction = d ∧ p.x < dim ∧ p.y < dim ∧
      p.bounds_check ℓ dim = true ∧
      ∀ c ∈ p.cells ℓ, gridGet g c.1.toNat c.2.toNat = none := by
  have hM : L < dim - ℓ + 1 := by omega
  simp only [DIRECTIONS, List.mem_cons, List.not_mem_nil, or_false] at hd
  rcases hd with h|h|h|h|h|h|h|h <;> subst h
  · -- (1, -1)
    obtain ⟨t, ht, hx, hy, hbc, hfree⟩ := exists_free_cells g dim hlen L hfil (dim - ℓ + 1) hM
      (fun t => ⟨t, ℓ - 1, (1, -1)⟩) ℓ
      (by
        intro t ht
        dsimp only
        refine ⟨by omega, by omega, ?_⟩
        simp only [Position.bounds_check, Position.dx, Position.dy, Bool.and_eq_true, decide_eq_true_eq]
        push_cast
        omega)
      (by
        intro t1 ht1 t2 ht2 hne c1 hc1 c2 hc2 hceq
        rw [cells_eq] at hc1 hc2
        simp only [List.mem_map, List.mem_range, Position.dx, Position.dy] at hc1 hc2
        obtain ⟨k1, hk1, he1⟩ := hc1
        obtain ⟨k2, hk2, he2⟩ := hc2
        rw [← he1, ← he2] at hceq
        simp only [Prod.mk.injEq] at hceq
        obtain ⟨e1, e2⟩ := hceq
        apply hne
        omega)
    exact ⟨_, rfl, hx, hy, hbc, hfree⟩
  · -- (1, 0)
    obtain ⟨t, ht, hx, hy, hbc, hfree⟩ := exists_free_cells g dim hlen L hfil (dim - ℓ + 1) hM
      (fun t => ⟨0, t, (1, 0)⟩) ℓ
      (by
        intro t ht
        dsimp only
        refine ⟨by omega, by omega, ?_⟩
        simp only [Position.bounds_check, Position.dx, Position.dy, Bool.and_eq_true, decide_eq_true_eq]
        push_cast
        omega)
      (by
        intro t1 ht1 t2 ht2 hne c1 hc1 c2 hc2 hceq
        rw [cells_eq] at hc1 hc2
        simp only [List.mem_map, List.mem_range, Position.dx, Position.dy] at hc1 hc2
        obtain ⟨k1, hk1, he1⟩ := hc1
        obtain ⟨k2, hk2, he2⟩ := hc2
        rw [← he1, ← he2] at hceq
        simp only [Prod.mk.injEq] at hceq
        obtain ⟨e1, e2⟩ := hceq
        apply hne
        omega)
    exact ⟨_, rfl, hx, hy, hbc, hfree⟩
  · -- (1, 1)
    obtain ⟨t, ht, hx, hy, hbc, hfree⟩ := exists_free_cells g dim hlen L hfil (dim - ℓ + 1) hM
      (fun t => ⟨t, 0, (1, 1)⟩) ℓ
      (by
        intro t ht
        dsimp only
        refine ⟨by omega, by omega, ?_⟩
        simp only [Position.bounds_check, Position.dx, Position.dy, Bool.and_eq_true, decide_eq_true_eq]
        push_cast
        omega)
      (by
        intro t1 ht1 t2 ht2 hne c1 hc1 c2 hc2 hceq
        rw [cells_eq] at hc1 hc2
        simp only [List.mem_map, List.mem_range, Position.dx, Position.dy] at hc1 hc2
        obtain ⟨k1, hk1, he1⟩ := hc1
        obtain ⟨k2, hk2, he2⟩ := hc2
        rw [← he1, ← he2] at hceq
        simp only [Prod.mk.injEq] at hceq
        obtain ⟨e1, e2⟩ := hceq
        apply hne
        omega)
    exact ⟨_, rfl, hx, hy, hbc, hfree⟩
  · -- (0, 1)
    obtain ⟨t, ht, hx, hy, hbc, hfree⟩ := exists_free_cells g dim hlen L hfil (dim - ℓ + 1) hM
      (fun t => ⟨t, 0, (0, 1)⟩) ℓ
      (by
        intro t ht
        dsimp only
        refine ⟨by omega, by omega, ?_⟩
        simp only [Position.bounds_check, Position.dx, Position.dy, Bool.and_eq_true, decide_eq_true_eq]
        push_cast
        omega)
      (by
        intro t1 ht1 t2 ht2 hne c1 hc1 c2 hc2 hceq
        rw [cells_eq] at hc1 hc2
        simp only [List.mem_map, List.mem_range, Position.dx, Position.dy] at hc1 hc2
        obtain ⟨k1, hk1, he1⟩ := hc1
        obtain ⟨k2, hk2, he2⟩ := hc2
        rw [← he1, ← he2] at hceq
        simp only [Prod.mk.injEq] at hceq
        obtain ⟨e1, e2⟩ := hceq
        apply hne
        omega)
    exact ⟨_, rfl, hx, hy, hbc, hfree⟩
  · -- (-1, 1)
    obtain ⟨t, ht, hx, hy, hbc, hfree⟩ := exists_free_cells g dim hlen L hfil (dim - ℓ + 1) hM
      (fun t => ⟨t + ℓ - 1, 0, (-1, 1)⟩) ℓ
      (by
        intro t ht
        dsimp only
        refine ⟨by omega, by omega, ?_⟩
        simp only [Position.bounds_check, Position.dx, Position.dy, Bool.and_eq_true, decide_eq_true_eq]
        push_cast
        omega)
      (by
        intro t1 ht1 t2 ht2 hne c1 hc1 c2 hc2 hceq
        rw [cells_eq] at hc1 hc2
        simp only [List.mem_map, List.mem_range, Position.dx, Position.dy] at hc1 hc2
        obtain ⟨k1, hk1, he1⟩ := hc1
        obtain ⟨k2, hk2, he2⟩ := hc2
        rw [← he1, ← he2] at hceq
        simp only [Prod.mk.injEq] at hceq
        obtain ⟨e1, e2⟩ := hceq
        apply hne
        omega)
    exact ⟨_, rfl, hx, hy, hbc, hfree⟩
  · -- (-1, 0)
    obtain ⟨t, ht, hx, hy, hbc, hfree⟩ := exists_free_cells g dim hlen L hfil (dim - ℓ + 1) hM
      (fun t => ⟨ℓ - 1, t, (-1, 0)⟩) ℓ
      (by
        intro t ht
        dsimp only
        refine ⟨by omega, by omega, ?_⟩
        simp only [Position.bounds_check, Position.dx, Position.dy, Bool.and_eq_true, decide_eq_true_eq]
        push_cast
        omega)
      (by
        intro t1 ht1 t2 ht2 hne c1 hc1 c2 hc2 hceq
        rw [cells_eq] at hc1 hc2
        simp only [List.mem_map, List.mem_range, Position.dx, Position.dy] at hc1 hc2
        obtain ⟨k1, hk1, he1⟩ := hc1
        obtain ⟨k2, hk2, he2⟩ := hc2
        rw [← he1, ← he2] at hceq
        simp only [Prod.mk.injEq] at hceq
        obtain ⟨e1, e2⟩ := hceq
        apply hne
        omega)
    exact ⟨_, rfl, hx, hy, hbc, hfree⟩
  · -- (-1, -1)
    obtain ⟨t, ht, hx, hy, hbc, hfree⟩ := exists_free_cells g dim hlen L hfil (dim - ℓ + 1) hM
      (fun t => ⟨t + ℓ - 1, ℓ - 1, (-1, -1)⟩) ℓ
      (by
        intro t ht
        dsimp only
        refine ⟨by omega, by omega, ?_⟩
        simp only [Position.bounds_check, Position.dx, Position.dy, Bool.and_eq_true, decide_eq_true_eq]
        push_cast
        omega)
      (by
        intro t1 ht1 t2 ht2 hne c1 hc1 c2 hc2 hceq
        rw [cells_eq] at hc1 hc2
        simp only [List.mem_map, List.mem_range, Position.dx, Position.dy] at hc1 hc2
        obtain ⟨k1, hk1, he1⟩ := hc1
        obtain ⟨k2, hk2, he2⟩ := hc2
        rw [← he1, ← he2] at hceq
        simp only [Prod.mk.injEq] at hceq
        obtain ⟨e1, e2⟩ := hceq
        apply hne
        omega)
    exact ⟨_, rfl, hx, hy, hbc, hfree⟩
  · -- (0, -1)
    obtain ⟨t, ht, hx, hy, hbc, hfree⟩ := exists_free_cells g dim hlen L hfil (dim - ℓ + 1) hM
      (fun t => ⟨t, ℓ - 1, (0, -1)⟩) ℓ
      (by
        intro t ht
        dsimp only
        refine ⟨by omega, by omega, ?_⟩
        simp only [Position.bounds_check, Position.dx, Position.dy, Bool.and_eq_true, decide_eq_true_eq]
        push_cast
        omega)
      (by
        intro t1 ht1 t2 ht2 hne c1 hc1 c2 hc2 hceq
        rw [cells_eq] at hc1 hc2
        simp only [List.mem_map, List.mem_range, Position.dx, Position.dy] at hc1 hc2
        obtain ⟨k1, hk1, he1⟩ := hc1
        obtain ⟨k2, hk2, he2⟩ := hc2
        rw [← he1, ← he2] at hceq
        simp only [Prod.mk.injEq] at hceq
        obtain ⟨e1, e2⟩ := hceq
        apply hne
        omega)
    exact ⟨_, rfl, hx, hy, hbc, hfree⟩

theorem empty_vals_success (cs : List (Int × Int)) :
    ∀ ws : List Char,
      ((List.zipWith (fun a b => a || b)
        (((cs.map (fun _ => (none : Cell))).zip ws).map (fun vc => decide (vc.1 = some vc.2)))
        ((cs.map (fun _ => (none : Cell))).map (fun v => decide (v = none)))).contains false = false)
      ∧ (((cs.map (fun _ => (none : Cell))).zip ws).map (fun vc => decide (vc.1 = some vc.2))).count true = 0 := by
  induction cs with
  | nil =>
      intro ws
      constructor <;> simp
  | cons c cs ih =>
      intro ws
      cases ws with
      | nil => constructor <;> simp
      | cons b bs =>
          obtain ⟨ih1, ih2⟩ := ih bs
          simp only [List.map_cons, List.zip_cons_cons, List.zipWith_cons_cons]
          constructor
          · simp only [List.contains_cons, ih1]
            simp
          · simp only [List.count_cons, ih2]
            simp

theorem can_place_empty (w : String) (p : Position) (g : Grid)
    (hx : p.x < g.length) (hy : p.y < g.length)
    (hb : p.bounds_check w.length g.length = true)
    (hemp : ∀ c ∈ p.cells w.length, gridGet g c.1.toNat c.2.toNat = none) :
    can_place w p g = some (true, 0) := by
  have hcells := cells_in_bounds p w.length g.length hx hy hb
  have hvals : (p.cells w.length).mapM (fun c => gridGetI g c.1 c.2)
      = some ((p.cells w.length).map (fun c => gridGet g c.1.toNat c.2.toNat)) := by
    apply mapM_option_eq_map
    intro c hc
    obtain ⟨h1, h2, h3, h4⟩ := hcells c hc
    exact gridGetI_of_inbounds g c.1 c.2 h1 h2 h3 h4
  have hmapeq : (p.cells w.length).map (fun c => gridGet g c.1.toNat c.2.toNat)
      = (p.cells w.length).map (fun _ => (none : Cell)) := List.map_congr_left hemp
  simp only [can_place, hb, Bool.not_true, Bool.false_eq_true, if_false,
    Option.bind_eq_bind, hvals, Option.some_bind, hmapeq]
  obtain ⟨hc1, hc2⟩ := empty_vals_success (p.cells w.length) w.toList
  rw [hc1, hc2]
  rfl

theorem legalPosits_length (w : String) (table : Grid) :
    ∀ l legal, legalPosits w table l = some legal → legal.length ≤ l.length := by
  intro l
  induction l with
  | nil =>
      intro legal h
      have h2 : some ([] : List Position) = some legal := h
      cases h2
      simp
  | cons q l ih =>
      intro legal h
      have h' : (can_place w q table).bind (fun r => (legalPosits w table l).bind
          (fun rest => some (if r.1 then q :: rest else rest))) = some legal := h
      rw [Option.bind_eq_some] at h'
      obtain ⟨r, hr, h2⟩ := h'
      rw [Option.bind_eq_some] at h2
      obtain ⟨rest, hrest, h3⟩ := h2
      have h4 := Option.some.inj h3
      have hlen := ih rest hrest
      cases hr1 : r.1
      · rw [hr1] at h4
        simp only [Bool.false_eq_true, if_false] at h4
        rw [← h4]
        simp only [List.length_cons]
        omega
      · rw [hr1] at h4
        simp only [if_true] at h4
        rw [← h4]
        simp only [List.length_cons]
        omega

theorem computeWorkable_length (cfg : Cfg) (hsh : ∀ r li, (cfg.shuffle r li).Perm li)
    (w : String) (table : Grid) (aps : List Position) (rng : Nat) (l : List Position)
    (hc : computeWorkable cfg w table aps rng = some l) : l.length ≤ aps.length := by
  obtain ⟨legal, hleg, hperm⟩ := computeWorkable_perm cfg w table aps rng l hsh hc
  have h1 := legalPosits_length w table aps legal hleg
  have h2 := hperm.length_eq
  omega

theorem computeWorkable_nonempty (cfg : Cfg) (hsh : ∀ r li, (cfg.shuffle r li).Perm li)
    (w : String) (g : Grid) (dim : Nat) (hlen : g.length = dim)
    (hdne : cfg.directions ≠ []) (hdirs : ∀ d ∈ cfg.directions, d ∈ DIRECTIONS)
    (L : Nat) (hfil : filledCount g ≤ L) (hdim : L + w.length + 3 ≤ dim) (rng : Nat) :
    ∃ l, computeWorkable cfg w g (all_posits dim cfg.directions) rng = some l ∧ l ≠ [] := by
  have htot : ∀ p ∈ all_posits dim cfg.directions, ∃ r, can_place w p g = some r := by
    intro p hp
    rw [mem_all_posits] at hp
    exact can_place_total w p g (by rw [hlen]; exact hp.1) (by rw [hlen]; exact hp.2.1)
  obtain ⟨l, hl⟩ := computeWorkable_some cfg w g _ rng htot
  refine ⟨l, hl, ?_⟩
  obtain ⟨d, hdmem⟩ : ∃ d, d ∈ cfg.directions := by
    cases hds : cfg.directions with
    | nil => exact absurd hds hdne
    | cons d0 ds => exact ⟨d0, List.mem_cons_self _ _⟩
  by_cases hw0 : w.length = 0
  · have hp : (⟨1, 1, d⟩ : Position) ∈ all_posits dim cfg.directions := by
      rw [mem_all_posits]
      exact ⟨(by show (1 : Nat) < dim; omega), (by show (1 : Nat) < dim; omega), hdmem⟩
    have hd8 := hdirs d hdmem
    have hbc : (⟨1, 1, d⟩ : Position).bounds_check w.length dim = true := by
      simp only [DIRECTIONS, List.mem_cons, List.not_mem_nil, or_false] at hd8
      rcases hd8 with h|h|h|h|h|h|h|h <;> subst h <;>
        (simp only [Position.bounds_check, Position.dx, Position.dy, hw0,
          Bool.and_eq_true, decide_eq_true_eq]
         push_cast
         simp only [true_and, and_true]
         omega)
    have hcnil : (⟨1, 1, d⟩ : Position).cells w.length = [] :=
      List.length_eq_zero.mp (by rw [cells_length, hw0])
    have hmem : (⟨1, 1, d⟩ : Position) ∈ l := by
      rw [computeWorkable_mem cfg w g _ rng l hsh hl]
      refine ⟨hp, 0, ?_⟩
      apply can_place_empty w _ g (by show (1 : Nat) < g.length; omega)
        (by show (1 : Nat) < g.length; omega) (by rw [hlen]; exact hbc)
      intro c hc
      rw [hcnil] at hc
      exact absurd hc (List.not_mem_nil c)
    intro hnil
    rw [hnil] at hmem
    exact List.not_mem_nil _ hmem
  · obtain ⟨p, hpd, hpx, hpy, hpb, hpfree⟩ := exists_free_position g dim hlen L w.length hfil d
      (hdirs d hdmem) (by omega) hdim
    have hmem : p ∈ l := by
      rw [computeWorkable_mem cfg w g _ rng l hsh hl]
      refine ⟨?_, 0, ?_⟩
      · rw [mem_all_posits]
        exact ⟨hpx, hpy, by rw [hpd]; exact hdmem⟩
      · exact can_place_empty w p g (by omega) (by omega) (by rw [hlen]; exact hpb) hpfree
    intro hnil
    rw [hnil] at hmem
    exact List.not_mem_nil _ hmem

theorem digitOf_cached (cfg : Cfg) (s : St) (j : Nat) (w : String) (l : List Position)
    (hw : cfg.words.get? j = some w) (hl : s.caches.lookup w = some l) :
    digitOf cfg s j = l.length := by
  have h2 : digitOf cfg s j = match s.caches.lookup w with
    | some l => l.length
    | none => s.allPositions.length + 1 := by
    unfold digitOf
    rw [hw]
  rw [h2, hl]

theorem digitOf_uncached (cfg : Cfg) (s : St) (j : Nat) (w : String)
    (hw : cfg.words.get? j = some w) (hl : s.caches.lookup w = none) :
    digitOf cfg s j = s.allPositions.length + 1 := by
  have h2 : digitOf cfg s j = match s.caches.lookup w with
    | some l => l.length
    | none => s.allPositions.length + 1 := by
    unfold digitOf
    rw [hw]
  rw [h2, hl]

theorem digitOf_congr (cfg : Cfg) (s s' : St) (j : Nat)
    (hap : s'.allPositions = s.allPositions)
    (h : ∀ w, cfg.words.get? j = some w → s'.caches.lookup w = s.caches.lookup w) :
    digitOf cfg s' j = digitOf cfg s j := by
  cases hw : cfg.words.get? j with
  | none =>
      unfold digitOf
      rw [hw]
  | some w =>
      have e1 : digitOf cfg s' j = match s'.caches.lookup w with
        | some l => l.length
        | none => s'.allPositions.length + 1 := by
        unfold digitOf
        rw [hw]
      have e2 : digitOf cfg s j = match s.caches.lookup w with
        | some l => l.length
        | none => s.allPositions.length + 1 := by
        unfold digitOf
        rw [hw]
      rw [e1, e2, h w hw, hap]

theorem Vmeasure_split (cfg : Cfg) (s : St) (a : Nat) (ha : a < cfg.words.length) :
    Vmeasure cfg s = digitOf cfg s a * (s.allPositions.length + 2) ^ (cfg.words.length - a)
      + ((Finset.range cfg.words.length).erase a).sum
          (fun j => digitOf cfg s j * (s.allPositions.length + 2) ^ (cfg.words.length - j))
      + (cfg.words.length - s.index) := by
  unfold Vmeasure
  rw [← Finset.add_sum_erase _ _ (Finset.mem_range.mpr ha)]

theorem Vmeasure_split2 (cfg : Cfg) (s : St) (a b : Nat)
    (ha : a < cfg.words.length) (hb : b < cfg.words.length) (hab : a ≠ b) :
    Vmeasure cfg s = digitOf cfg s a * (s.allPositions.length + 2) ^ (cfg.words.length - a)
      + digitOf cfg s b * (s.allPositions.length + 2) ^ (cfg.words.length - b)
      + (((Finset.range cfg.words.length).erase a).erase b).sum
          (fun j => digitOf cfg s j * (s.allPositions.length + 2) ^ (cfg.words.length - j))
      + (cfg.words.length - s.index) := by
  rw [Vmeasure_split cfg s a ha]
  rw [← Finset.add_sum_erase _ _
    (Finset.mem_erase.mpr ⟨fun h => hab h.symm, Finset.mem_range.mpr hb⟩)]
  ring

theorem Vmeasure_t (cfg : Cfg) (s : St) (n : Nat) :
    Vmeasure cfg { s with t := n } = Vmeasure cfg s := rfl

theorem getWorkable_cases (cfg : Cfg) (s : St) (l : List Position) (s₁ : St)
    (hg : getWorkable cfg s = some (l, s₁)) :
    (s₁ = s ∧ ∃ w, curWord cfg s = some w ∧ s.caches.lookup w = some l)
    ∨ (∃ w, curWord cfg s = some w ∧ s.caches.lookup w = none ∧
        computeWorkable cfg w s.table s.allPositions s.rng = some l ∧
        s₁ = { s with caches := dictSet s.caches w l, rng := s.rng + 1 }) := by
  unfold getWorkable at hg
  cases hw : curWord cfg s with
  | none =>
      rw [hw] at hg
      simp only [Option.bind_eq_bind, Option.none_bind] at hg
      cases hg
  | some w =>
      rw [hw] at hg
      simp only [Option.bind_eq_bind, Option.some_bind] at hg
      cases hl : s.caches.lookup w with
      | some l0 =>
          rw [hl] at hg
          have hg2 : some (l0, s) = some (l, s₁) := hg
          cases hg2
          exact Or.inl ⟨rfl, w, rfl, hl⟩
      | none =>
          rw [hl] at hg
          have hg3 : (computeWorkable cfg w s.table s.allPositions s.rng).bind
              (fun l2 => some (l2, { s with caches := dictSet s.caches w l2, rng := s.rng + 1 }))
              = some (l, s₁) := hg
          rw [Option.bind_eq_some] at hg3
          obtain ⟨l2, hl2, hg4⟩ := hg3
          have hg5 := Option.some.inj hg4
          have hll : l2 = l := congrArg Prod.fst hg5
          subst hll
          have hs : ({ s with caches := dictSet s.caches w l2, rng := s.rng + 1 } : St) = s₁ :=
            congrArg Prod.snd hg5
          exact Or.inr ⟨w, rfl, hl, hl2, hs.symm⟩

theorem iter_succ_of_step (cfg : Cfg) (k : Nat) (s s'' : St)
    (hk : iter cfg k = some s) (hs : stepState cfg s = some (Sum.inl s'')) :
    iter cfg (k + 1) = some s'' := by
  have h1 : iter cfg (k + 1)
      = match stepState cfg s with | some (Sum.inl s') => some s' | _ => none := by
    show (match iter cfg k with
      | some u => match stepState cfg u with | some (Sum.inl s') => some s' | _ => none
      | none => none) = _
    rw [hk]
  rw [h1, hs]

theorem V_decrease (cfg : Cfg) (hnd : cfg.words.Nodup)
    (hsh : ∀ r li, (cfg.shuffle r li).Perm li)
    (s : St) (hinv : INVProp cfg s) (hguard : s.index < cfg.words.length)
    (s' : St) (hb : loopBody cfg s = some s') :
    (s'.dim = s.dim ∧ s'.allPositions = s.allPositions ∧ Vmeasure cfg s' < Vmeasure cfg s)
    ∨ (s'.dim = s.dim + 1 ∧ s'.index = 0 ∧ s'.caches = []) := by
  obtain ⟨w, hw⟩ : ∃ w, curWord cfg s = some w :=
    ⟨_, by unfold curWord; exact List.get?_eq_get hguard⟩
  obtain ⟨l0, s₁, hg', hinv₁, hdim₁, htab₁, hhist₁, hidx₁, hap₁, ht₁, hlook₁, hne₁, hleg₁⟩ :=
    getWorkable_inv cfg hnd hsh s hinv w hw
  have hw₁ : curWord cfg s₁ = some w := by
    unfold curWord at hw ⊢
    rw [hidx₁]
    exact hw
  have hgw₁ : cfg.words.get? s₁.index = some w := hw₁
  have hgw : cfg.words.get? s.index = some w := hw
  cases l0 with
  | cons p rest =>
      obtain ⟨hpmem, cnt, hcp⟩ := hleg₁ p (List.mem_cons_self p rest)
      have htlen : s.table.length = s.dim := (placedGrid_shape cfg s s.index s.table hinv.table_eq).1
      have hbc : p.bounds_check w.length s.dim = true := by
        have hb0 := can_place_true_bounds w p s.table cnt hcp
        rw [htlen] at hb0
        exact hb0
      have hpxy := (mem_all_posits s.dim cfg.directions p).mp (hinv.allpos ▸ hpmem)
      have hcells := cells_in_bounds p w.length s.dim hpxy.1 hpxy.2.1 hbc
      obtain ⟨g', hwr⟩ := writeWord_some (p.cells w.length) w.toList s₁.table s.dim
        (by rw [htab₁]; exact htlen) hcells
      have hLB := loopBody_place cfg s w (p :: rest) s₁ p rest g' hg' rfl hw₁ hwr
      rw [hb] at hLB
      have hs' : s' = { s₁ with table := g', history := s₁.history ++ [s₁.table], index := s₁.index + 1 } := Option.some.inj hLB
      refine Or.inl ⟨by rw [hs']; exact hdim₁, by rw [hs']; exact hap₁, ?_⟩
      have hcach' : s'.caches = s₁.caches := by rw [hs']
      have hidx' : s'.index = s.index + 1 := by
        rw [hs']
        show s₁.index + 1 = s.index + 1
        rw [hidx₁]
      have hap' : s'.allPositions = s.allPositions := by rw [hs']; exact hap₁
      rcases getWorkable_cases cfg s (p :: rest) s₁ hg' with ⟨hs₁eq, w2, hw2, hl2⟩ | ⟨w2, hw2, hmiss, hcw, hs₁eq⟩
      · have hdig : ∀ j ∈ Finset.range cfg.words.length,
            digitOf cfg s' j * (s'.allPositions.length + 2) ^ (cfg.words.length - j)
              = digitOf cfg s j * (s.allPositions.length + 2) ^ (cfg.words.length - j) := by
          intro j hj
          rw [hap', digitOf_congr cfg s s' j hap' (fun wj hwj => by rw [hcach', hs₁eq])]
        have hsum : (Finset.range cfg.words.length).sum
            (fun j => digitOf cfg s' j * (s'.allPositions.length + 2) ^ (cfg.words.length - j))
            = (Finset.range cfg.words.length).sum
            (fun j => digitOf cfg s j * (s.allPositions.length + 2) ^ (cfg.words.length - j)) :=
          Finset.sum_congr rfl hdig
        unfold Vmeasure
        rw [hsum, hidx']
        omega
      · have hw2w : w2 = w := by
          rw [hw] at hw2
          exact (Option.some.inj hw2).symm
        subst hw2w
        have hd_a_s : digitOf cfg s s.index = s.allPositions.length + 1 :=
          digitOf_uncached cfg s s.index w2 hgw hmiss
        have hd_a_s' : digitOf cfg s' s.index = (p :: rest).length := by
          apply digitOf_cached cfg s' s.index w2 (p :: rest) hgw
          rw [hcach']
          exact hlook₁
        have hlen_le : (p :: rest).length ≤ s.allPositions.length :=
          computeWorkable_length cfg hsh w2 s.table s.allPositions s.rng _ hcw
        have hdig_o : ∀ j, j < cfg.words.length → j ≠ s.index →
            digitOf cfg s' j = digitOf cfg s j := by
          intro j hj hne
          apply digitOf_congr cfg s s' j hap'
          intro wj hwj
          have hwjw : wj ≠ w2 := fun heq => hne (words_get?_inj cfg.words hnd j s.index wj hwj (heq ▸ hgw))
          rw [hcach']
          exact hne₁ wj hwjw
        have hVs := Vmeasure_split cfg s s.index hguard
        have hVs' := Vmeasure_split cfg s' s.index hguard
        rw [hap'] at hVs'
        have hR : ((Finset.range cfg.words.length).erase s.index).sum
            (fun j => digitOf cfg s' j * (s.allPositions.length + 2) ^ (cfg.words.length - j))
            = ((Finset.range cfg.words.length).erase s.index).sum
            (fun j => digitOf cfg s j * (s.allPositions.length + 2) ^ (cfg.words.length - j)) := by
          apply Finset.sum_congr rfl
          intro j hj
          rw [Finset.mem_erase] at hj
          rw [hdig_o j (Finset.mem_range.mp hj.2) hj.1]
        rw [hR, hd_a_s', hidx'] at hVs'
        rw [hd_a_s] at hVs
        have hE1 : 1 ≤ (s.allPositions.length + 2) ^ (cfg.words.length - s.index) :=
          Nat.one_le_pow _ _ (by omega)
        have hmul : (p :: rest).length * (s.allPositions.length + 2) ^ (cfg.words.length - s.index)
            ≤ s.allPositions.length * (s.allPositions.length + 2) ^ (cfg.words.length - s.index) :=
          Nat.mul_le_mul_right _ hlen_le
        have hsucc : (s.allPositions.length + 1) * (s.allPositions.length + 2) ^ (cfg.words.length - s.index)
            = s.allPositions.length * (s.allPositions.length + 2) ^ (cfg.words.length - s.index)
              + (s.allPositions.length + 2) ^ (cfg.words.length - s.index) := by
          ring
        omega
  | nil =>
      by_cases hix : s₁.index = 0
      · have hLB := loopBody_grow cfg s w s₁ hg' hw₁ hix
        rw [hb] at hLB
        have hs' : s' = resetSt cfg { s₁ with dim := s₁.dim + 1, caches := dictDel s₁.caches w } :=
          Option.some.inj hLB
        refine Or.inr ⟨?_, ?_, ?_⟩
        · rw [hs']
          show s₁.dim + 1 = s.dim + 1
          rw [hdim₁]
        · rw [hs']
          rfl
        · rw [hs']
          rfl
      · have hi' : s₁.index - 1 < s₁.index := by omega
        obtain ⟨tbl, htbl⟩ : ∃ tbl, s₁.history.get? (s₁.index - 1) = some tbl := by
          obtain ⟨G', hG'⟩ := placedGrid_some_of_le cfg s₁ s₁.index (s₁.index - 1) (by omega) s₁.table hinv₁.table_eq
          exact ⟨G', by rw [hinv₁.hist_eq _ hi']; exact hG'⟩
        obtain ⟨w', l', hw', hl', hlne⟩ := hinv₁.cache_nonempty (s₁.index - 1) hi'
        cases l' with
        | nil => exact absurd rfl hlne
        | cons p' rest' =>
            have hww' : w' ≠ w := by
              intro heq
              subst heq
              have := words_get?_inj cfg.words hnd (s₁.index - 1) s₁.index w' hw' hgw₁
              omega
            have hl'del : (dictDel s₁.caches w).lookup w' = some (p' :: rest') := by
              rw [lookup_dictDel_ne _ _ _ hww']
              exact hl'
            have hLB := loopBody_backtrack cfg s w s₁ tbl w' p' rest' hg' hw₁ hix htbl hw' hl'del
            rw [hb] at hLB
            have hs' : s' = { s₁ with caches := dictSet (dictDel s₁.caches w) w' rest', index := s₁.index - 1, table := tbl, history := s₁.history.eraseIdx (s₁.index - 1) } := Option.some.inj hLB
            refine Or.inl ⟨by rw [hs']; exact hdim₁, by rw [hs']; exact hap₁, ?_⟩
            have hap' : s'.allPositions = s.allPositions := by rw [hs']; exact hap₁
            have hcach' : s'.caches = dictSet (dictDel s₁.caches w) w' rest' := by rw [hs']
            have hidx' : s'.index = s.index - 1 := by
              rw [hs']
              show s₁.index - 1 = s.index - 1
              rw [hidx₁]
            have hixs : s.index ≠ 0 := by
              rw [← hidx₁]
              exact hix
            have hbn : s.index - 1 < cfg.words.length := by omega
            have hi1eq : s₁.index - 1 = s.index - 1 := by rw [hidx₁]
            have hgb : cfg.words.get? (s.index - 1) = some w' := by
              rw [← hi1eq]
              exact hw'
            have hd_b_s : digitOf cfg s (s.index - 1) = rest'.length + 1 := by
              have hlk : List.lookup w' s.caches = some (p' :: rest') := by
                rw [← hne₁ w' hww']
                exact hl'
              rw [digitOf_cached cfg s (s.index - 1) w' (p' :: rest') hgb hlk]
              rfl
            have hd_b_s' : digitOf cfg s' (s.index - 1) = rest'.length := by
              apply digitOf_cached cfg s' (s.index - 1) w' rest' hgb
              rw [hcach']
              exact lookup_dictSet_self _ _ _
            have hd_a_s' : digitOf cfg s' s.index = s.allPositions.length + 1 := by
              rw [digitOf_uncached cfg s' s.index w hgw ?_, hap']
              rw [hcach']
              rw [lookup_dictSet_ne _ _ _ _ (fun heq => hww' heq.symm), lookup_dictDel_self]
            have hdig_o : ∀ j, j < cfg.words.length → j ≠ s.index → j ≠ s.index - 1 →
                digitOf cfg s' j = digitOf cfg s j := by
              intro j hj hna hnb
              apply digitOf_congr cfg s s' j hap'
              intro wj hwj
              have hwjw : wj ≠ w := fun heq => hna (words_get?_inj cfg.words hnd j s.index wj hwj (heq ▸ hgw))
              have hwjw' : wj ≠ w' := fun heq => hnb (words_get?_inj cfg.words hnd j (s.index - 1) wj hwj (heq ▸ hgb))
              rw [hcach', lookup_dictSet_ne _ _ _ _ hwjw', lookup_dictDel_ne _ _ _ hwjw]
              exact hne₁ wj hwjw
            have hab : s.index ≠ s.index - 1 := by omega
            have hVs := Vmeasure_split2 cfg s s.index (s.index - 1) hguard hbn hab
            have hVs' := Vmeasure_split2 cfg s' s.index (s.index - 1) hguard hbn hab
            rw [hap'] at hVs'
            have hR : (((Finset.range cfg.words.length).erase s.index).erase (s.index - 1)).sum
                (fun j => digitOf cfg s' j * (s.allPositions.length + 2) ^ (cfg.words.length - j))
                = (((Finset.range cfg.words.length).erase s.index).erase (s.index - 1)).sum
                (fun j => digitOf cfg s j * (s.allPositions.length + 2) ^ (cfg.words.length - j)) := by
              apply Finset.sum_congr rfl
              intro j hj
              rw [Finset.mem_erase] at hj
              obtain ⟨hjb, hj2⟩ := hj
              rw [Finset.mem_erase] at hj2
              obtain ⟨hja, hj3⟩ := hj2
              rw [hdig_o j (Finset.mem_range.mp hj3) hja hjb]
            rw [hR, hd_a_s', hd_b_s', hidx'] at hVs'
            rw [hd_b_s] at hVs
            have hY1 : s.allPositions.length + 2
                ≤ (s.allPositions.length + 2) ^ (cfg.words.length - s.index) :=
              Nat.le_self_pow (by omega) _
            have he1 : (rest'.length + 1) * (s.allPositions.length + 2) ^ (cfg.words.length - (s.index - 1))
                = rest'.length * (s.allPositions.length + 2) ^ (cfg.words.length - (s.index - 1))
                  + (s.allPositions.length + 2) ^ (cfg.words.length - (s.index - 1)) := by
              ring
            have he2 : (s.allPositions.length + 1) * (s.allPositions.length + 2) ^ (cfg.words.length - s.index)
                = s.allPositions.length * (s.allPositions.length + 2) ^ (cfg.words.length - s.index)
                  + (s.allPositions.length + 2) ^ (cfg.words.length - s.index) := by
              ring
            have he3 : (s.allPositions.length + 2) ^ (cfg.words.length - (s.index - 1))
                = s.allPositions.length * (s.allPositions.length + 2) ^ (cfg.words.length - s.index)
                  + (s.allPositions.length + 2) ^ (cfg.words.length - s.index)
                  + (s.allPositions.length + 2) ^ (cfg.words.length - s.index) := by
              rw [show cfg.words.length - (s.index - 1) = (cfg.words.length - s.index) + 1 by omega]
              rw [pow_succ]
              ring
            omega

theorem epoch_run (cfg : Cfg) (hnd : cfg.words.Nodup)
    (hsh : ∀ r li, (cfg.shuffle r li).Perm li)
    (hhalt : ∀ t, cfg.halt t = false) :
    ∀ v k s, iter cfg k = some s → Vmeasure cfg s ≤ v →
      ∃ m s', iter cfg (k + m) = some s' ∧
        (¬(s'.index < cfg.words.length)
          ∨ (s'.dim = s.dim + 1 ∧ s'.index = 0 ∧ s'.caches = [])) := by
  intro v
  induction v with
  | zero =>
      intro k s hk hv
      by_cases hg : s.index < cfg.words.length
      · exfalso
        have h1 : 1 ≤ cfg.words.length - s.index := by omega
        have h2 : cfg.words.length - s.index ≤ Vmeasure cfg s := by
          unfold Vmeasure
          omega
        omega
      · exact ⟨0, s, by rw [Nat.add_zero]; exact hk, Or.inl hg⟩
  | succ v ih =>
      intro k s hk hv
      by_cases hg : s.index < cfg.words.length
      · have hinv := inv_iter cfg hnd hsh k s hk
        obtain ⟨s₀, hb, hinv₀⟩ := inv_loopBody cfg hnd hsh s hinv hg
        have hstep : stepState cfg s = some (Sum.inl { s₀ with t := s.t + 1 }) :=
          stepState_run cfg s s₀ hg (hhalt s.t) hb
        have hk1 : iter cfg (k + 1) = some { s₀ with t := s.t + 1 } :=
          iter_succ_of_step cfg k s _ hk hstep
        rcases V_decrease cfg hnd hsh s hinv hg s₀ hb with ⟨hdim, hap, hVlt⟩ | ⟨hdim1, hidx0, hcach⟩
        · have hVt : Vmeasure cfg { s₀ with t := s.t + 1 } = Vmeasure cfg s₀ :=
            Vmeasure_t cfg s₀ (s.t + 1)
          have hvle : Vmeasure cfg { s₀ with t := s.t + 1 } ≤ v := by omega
          obtain ⟨m, s', him, hres⟩ := ih (k + 1) _ hk1 hvle
          refine ⟨1 + m, s', ?_, ?_⟩
          · rw [show k + (1 + m) = (k + 1) + m by omega]
            exact him
          · rcases hres with h | ⟨h1, h2, h3⟩
            · exact Or.inl h
            · refine Or.inr ⟨?_, h2, h3⟩
              rw [h1]
              show s₀.dim + 1 = s.dim + 1
              rw [hdim]
        · refine ⟨1, { s₀ with t := s.t + 1 }, hk1, Or.inr ⟨?_, ?_, ?_⟩⟩
          · show s₀.dim = s.dim + 1
            exact hdim1
          · show s₀.index = 0
            exact hidx0
          · show s₀.caches = []
            exact hcach
      · exact ⟨0, s, by rw [Nat.add_zero]; exact hk, Or.inl hg⟩

theorem bigdim_run (cfg : Cfg) (hnd : cfg.words.Nodup)
    (hsh : ∀ r li, (cfg.shuffle r li).Perm li)
    (hhalt : ∀ t, cfg.halt t = false)
    (hdne : cfg.directions ≠ []) (hdirs : ∀ d ∈ cfg.directions, d ∈ DIRECTIONS) :
    ∀ r k s, iter cfg k = some s →
      cfg.words.length - s.index ≤ r →
      ((cfg.words.map String.length).sum
        + cfg.words.foldl (fun m w => max m w.length) 0 + 3 ≤ s.dim) →
      (∀ e ∈ s.caches, ∃ j, j < s.index ∧ cfg.words.get? j = some e.1) →
      ∃ m s', iter cfg (k + m) = some s' ∧ ¬(s'.index < cfg.words.length) ∧ s'.dim = s.dim := by
  intro r
  induction r with
  | zero =>
      intro k s hk hr hdim hstrict
      exact ⟨0, s, by rw [Nat.add_zero]; exact hk, by omega, rfl⟩
  | succ r ih =>
      intro k s hk hr hdim hstrict
      by_cases hg : s.index < cfg.words.length
      · have hinv := inv_iter cfg hnd hsh k s hk
        obtain ⟨w, hw⟩ : ∃ w, curWord cfg s = some w :=
          ⟨_, by unfold curWord; exact List.get?_eq_get hg⟩
        have hgw : cfg.words.get? s.index = some w := hw
        have hmiss : s.caches.lookup w = none := by
          cases hl : s.caches.lookup w with
          | none => rfl
          | some l =>
              exfalso
              obtain ⟨j, hj, hjw⟩ := hstrict (w, l) (lookup_some_mem _ _ _ hl)
              have := words_get?_inj cfg.words hnd j s.index w hjw hgw
              omega
        have htlen : s.table.length = s.dim := (placedGrid_shape cfg s s.index s.table hinv.table_eq).1
        have hfil : filledCount s.table ≤ (cfg.words.map String.length).sum := by
          have h1 := filledCount_placedGrid cfg s s.index s.table hinv.table_eq
          have h2 := sum_map_take_le cfg.words s.index
          omega
        have hwmem : w ∈ cfg.words := by
          rcases List.get?_eq_some.mp hgw with ⟨hlt, hget⟩
          rw [← hget]
          exact List.get_mem _ _ _
        have hwmax : w.length ≤ cfg.words.foldl (fun m w => max m w.length) 0 :=
          foldl_maxlen_bound cfg.words 0 w hwmem
        obtain ⟨l, hcw, hlne⟩ := computeWorkable_nonempty cfg hsh w s.table s.dim htlen hdne hdirs
          ((cfg.words.map String.length).sum) hfil (by omega) s.rng
        rw [← hinv.allpos] at hcw
        have hg' : getWorkable cfg s
            = some (l, { s with caches := dictSet s.caches w l, rng := s.rng + 1 }) :=
          getWorkable_miss cfg s w l hw hmiss hcw
        cases l with
        | nil => exact absurd rfl hlne
        | cons p rest =>
            obtain ⟨hpmem, cnt, hcp⟩ :=
              (computeWorkable_mem cfg w s.table s.allPositions s.rng _ hsh hcw p).mp
                (List.mem_cons_self _ _)
            have hbc : p.bounds_check w.length s.dim = true := by
              have hb0 := can_place_true_bounds w p s.table cnt hcp
              rw [htlen] at hb0
              exact hb0
            have hpxy := (mem_all_posits s.dim cfg.directions p).mp (hinv.allpos ▸ hpmem)
            have hcells := cells_in_bounds p w.length s.dim hpxy.1 hpxy.2.1 hbc
            obtain ⟨g', hwr⟩ := writeWord_some (p.cells w.length) w.toList s.table s.dim htlen hcells
            have hw₁ : curWord cfg { s with caches := dictSet s.caches w (p :: rest), rng := s.rng + 1 } = some w := hw
            have hwr₁ : writeWord ({ s with caches := dictSet s.caches w (p :: rest), rng := s.rng + 1 } : St).table (p.cells w.length) w.toList = some g' := hwr
            have hLB := loopBody_place cfg s w (p :: rest) _ p rest g' hg' rfl hw₁ hwr₁
            have hstep := stepState_run cfg s _ hg (hhalt s.t) hLB
            have hk1 := iter_succ_of_step cfg k s _ hk hstep
            obtain ⟨m, s', him, hidx', hdim'⟩ := ih (k + 1) _ hk1
              (by show cfg.words.length - (s.index + 1) ≤ r; omega)
              (by
                show (cfg.words.map String.length).sum
                  + cfg.words.foldl (fun m w => max m w.length) 0 + 3 ≤ s.dim
                exact hdim)
              (by
                intro e he
                have he2 : e ∈ dictSet s.caches w (p :: rest) := he
                rcases mem_dictSet_cases _ _ _ _ he2 with hek | hed
                · exact ⟨s.index, by show s.index < s.index + 1; omega, by rw [hek]; exact hgw⟩
                · obtain ⟨j, hj, hjw⟩ := hstrict e hed
                  exact ⟨j, by show j < s.index + 1; omega, hjw⟩)
            refine ⟨1 + m, s', ?_, hidx', ?_⟩
            · rw [show k + (1 + m) = (k + 1) + m by omega]
              exact him
            · rw [hdim']
      · exact ⟨0, s, by rw [Nat.add_zero]; exact hk, hg, rfl⟩

theorem lookup_eq_of_mem_nodup (d : List (String × List Position)) :
    (d.map Prod.fst).Nodup → ∀ k v, (k, v) ∈ d → d.lookup k = some v := by
  induction d with
  | nil =>
      intro _ k v h
      cases h
  | cons e d ih =>
      intro hnd k v h
      obtain ⟨ek, ev⟩ := e
      rcases List.mem_cons.mp h with he | he
      · cases he
        exact lookup_cons_self _ _ _
      · have hk : k ≠ ek := by
          intro heq
          subst heq
          have hmem : k ∈ d.map Prod.fst := List.mem_map.mpr ⟨(k, v), he, rfl⟩
          exact (List.nodup_cons.mp hnd).1 hmem
        rw [lookup_cons_ne _ _ _ _ hk]
        exact ih (List.nodup_cons.mp hnd).2 k v he

theorem cacheStarts_some (caches : List (String × List Position))
    (h : ∀ e ∈ caches, e.2 ≠ []) : ∃ st, cacheStarts caches = some st := by
  induction caches with
  | nil => exact ⟨[], rfl⟩
  | cons e d ih =>
      obtain ⟨p, l', hel⟩ : ∃ p l', e.2 = p :: l' := by
        cases hel : e.2 with
        | nil => exact absurd hel (h e (List.mem_cons_self _ _))
        | cons p l' => exact ⟨p, l', rfl⟩
      obtain ⟨st, hst⟩ := ih (fun x hx => h x (List.mem_cons_of_mem _ hx))
      refine ⟨p :: st, ?_⟩
      unfold cacheStarts at hst ⊢
      rw [List.mapM_cons, hel]
      simp only [List.head?_cons, Option.bind_eq_bind, Option.some_bind, hst]
      rfl

theorem runLoop_exit (cfg : Cfg) (s : St) (hg : ¬(s.index < cfg.words.length))
    (hh : cfg.halt s.t = false) : runLoop cfg 1 s = some (some s) := by
  show (match stepState cfg s with
    | none => none
    | some (Sum.inr r) => some r
    | some (Sum.inl s') => runLoop cfg 0 s') = some (some s)
  unfold stepState
  rw [if_neg hg, hh]
  simp

theorem climb_run (cfg : Cfg) (hnd : cfg.words.Nodup)
    (hsh : ∀ r li, (cfg.shuffle r li).Perm li)
    (hhalt : ∀ t, cfg.halt t = false)
    (hdne : cfg.directions ≠ []) (hdirs : ∀ d ∈ cfg.directions, d ∈ DIRECTIONS) :
    ∀ c k s, iter cfg k = some s → s.caches = [] →
      (cfg.words.map String.length).sum + cfg.words.foldl (fun m w => max m w.length) 0 + 3
        ≤ s.dim + c →
      ∃ m s', iter cfg (k + m) = some s' ∧ ¬(s'.index < cfg.words.length) := by
  intro c
  induction c with
  | zero =>
      intro k s hk hcach hc
      obtain ⟨m, s', him, hex, _⟩ := bigdim_run cfg hnd hsh hhalt hdne hdirs
        (cfg.words.length) k s hk (by omega) (by omega)
        (by intro e he; rw [hcach] at he; cases he)
      exact ⟨m, s', him, hex⟩
  | succ c ih =>
      intro k s hk hcach hc
      by_cases hbig : (cfg.words.map String.length).sum
          + cfg.words.foldl (fun m w => max m w.length) 0 + 3 ≤ s.dim
      · obtain ⟨m, s', him, hex, _⟩ := bigdim_run cfg hnd hsh hhalt hdne hdirs
          (cfg.words.length) k s hk (by omega) hbig
          (by intro e he; rw [hcach] at he; cases he)
        exact ⟨m, s', him, hex⟩
      · obtain ⟨m₁, s₁, him₁, hres⟩ := epoch_run cfg hnd hsh hhalt (Vmeasure cfg s) k s hk (le_refl _)
        rcases hres with hex | ⟨hdim1, hidx1, hcach1⟩
        · exact ⟨m₁, s₁, him₁, hex⟩
        · obtain ⟨m₂, s₂, him₂, hex₂⟩ := ih (k + m₁) s₁ him₁ hcach1 (by omega)
          exact ⟨m₁ + m₂, s₂, by rw [show k + (m₁ + m₂) = (k + m₁) + m₂ by omega]; exact him₂, hex₂⟩

theorem run_exits (cfg : Cfg) (hnd : cfg.words.Nodup)
    (hsh : ∀ r li, (cfg.shuffle r li).Perm li)
    (hhalt : ∀ t, cfg.halt t = false)
    (hdne : cfg.directions ≠ []) (hdirs : ∀ d ∈ cfg.directions, d ∈ DIRECTIONS) :
    ∃ K s', iter cfg K = some s' ∧ ¬(s'.index < cfg.words.length) := by
  obtain ⟨m, s', him, hex⟩ := climb_run cfg hnd hsh hhalt hdne hdirs
    ((cfg.words.map String.length).sum + cfg.words.foldl (fun m w => max m w.length) 0 + 3)
    0 (initSt cfg) rfl rfl (by omega)
  refine ⟨m, s', ?_, hex⟩
  rw [← Nat.zero_add m]
  exact him

/-- **C1.** For every non-empty word list, non-empty direction set drawn from
the eight unit vectors, any permutation-shuffle oracle and any intersection
bias, a `gen_word_search` call that is never cancelled terminates: some fuel
makes it return a puzzle/answer-key pair, and in the final grid (and hence in
the rendered puzzle grid, whose filled cells it keeps) every input word
occurs as a contiguous straight run of its letters along one of the allowed
directions, starting at some grid cell. -/
theorem C1_gen_word_search_terminates (cfg : Cfg) (pick : Nat → Nat → Nat)
    (hne : cfg.words ≠ [])
    (hdne : cfg.directions ≠ [])
    (hdirs : ∀ d ∈ cfg.directions, d ∈ DIRECTIONS)
    (hsh : ∀ r li, (cfg.shuffle r li).Perm li)
    (hhalt : ∀ t, cfg.halt t = false) :
    ∃ fuel puzzle key s,
      gen_word_search cfg pick fuel = some (some (puzzle, key)) ∧
      runLoop { cfg with words := pyDedup cfg.words } fuel
        (initSt { cfg with words := pyDedup cfg.words }) = some (some s) ∧
      puzzle = renderRows (renderPuzzleGrid pick s.table) ∧
      ∀ w ∈ cfg.words, ∃ p : Position,
        p.direction ∈ cfg.directions ∧ p.x < s.dim ∧ p.y < s.dim ∧
        ∀ i c, w.toList.get? i = some c →
          ∃ x y : Nat, (p.cells w.length).get? i = some ((x : Int), (y : Int)) ∧
            x < s.dim ∧ y < s.dim ∧
            gridGet s.table x y = some c ∧
            gridGet (renderPuzzleGrid pick s.table) x y = some c := by
  have hnd' : ({ cfg with words := pyDedup cfg.words } : Cfg).words.Nodup := List.nodup_dedup _
  have hsh' : ∀ r li, (({ cfg with words := pyDedup cfg.words } : Cfg).shuffle r li).Perm li := hsh
  have hhalt' : ∀ t, ({ cfg with words := pyDedup cfg.words } : Cfg).halt t = false := hhalt
  have hdne' : ({ cfg with words := pyDedup cfg.words } : Cfg).directions ≠ [] := hdne
  have hdirs' : ∀ d ∈ ({ cfg with words := pyDedup cfg.words } : Cfg).directions, d ∈ DIRECTIONS := hdirs
  obtain ⟨K, sf, hK, hex⟩ := run_exits { cfg with words := pyDedup cfg.words } hnd' hsh' hhalt' hdne' hdirs'
  have hinvf := inv_iter _ hnd' hsh' K sf hK
  have hle : sf.index ≤ (pyDedup cfg.words).length := hinvf.index_le
  have hex2 : ¬(sf.index < (pyDedup cfg.words).length) := hex
  have hidxf : sf.index = (pyDedup cfg.words).length := by omega
  have hrun : runLoop { cfg with words := pyDedup cfg.words } (K + 1)
      (initSt { cfg with words := pyDedup cfg.words }) = some (some sf) := by
    rw [runLoop_of_iter _ K sf hK 1]
    exact runLoop_exit _ sf hex (hhalt' sf.t)
  have htab := hinvf.table_eq
  have hcne : ∀ e ∈ sf.caches, e.2 ≠ [] := by
    intro e he hnil
    obtain ⟨j, hj, hjw⟩ := hinvf.cache_keys e he
    have hjw' : (pyDedup cfg.words).get? j = some e.1 := hjw
    have hjlt : j < (pyDedup cfg.words).length := (List.get?_eq_some.mp hjw').1
    have hji : j < sf.index := by omega
    obtain ⟨wj, lj, hwj, hlj, hljne⟩ := hinvf.cache_nonempty j hji
    have hweq : wj = e.1 := by
      have hwj' : (pyDedup cfg.words).get? j = some wj := hwj
      rw [hjw'] at hwj'
      exact (Option.some.inj hwj').symm
    have hlookup_e : sf.caches.lookup e.1 = some e.2 := by
      apply lookup_eq_of_mem_nodup sf.caches hinvf.keys_nodup
      rw [show ((e.1, e.2) : String × List Position) = e from rfl]
      exact he
    rw [hweq] at hlj
    rw [hlookup_e] at hlj
    have hl2 := Option.some.inj hlj
    rw [← hl2] at hljne
    exact hljne hnil
  obtain ⟨starts, hstarts⟩ := cacheStarts_some sf.caches hcne
  have hr1 : render_puzzle pick sf false = some (renderRows (renderPuzzleGrid pick sf.table)) := by
    unfold render_puzzle
    simp
  have hr2 : render_puzzle pick sf true = some (renderRows (renderKeyGrid sf.table starts)) := by
    unfold render_puzzle
    rw [if_pos rfl, hstarts]
    simp only [Option.bind_eq_bind, Option.some_bind]
    rfl
  have hdedne : pyDedup cfg.words ≠ [] := by
    obtain ⟨w0, hw0⟩ : ∃ w0, w0 ∈ cfg.words := by
      cases hcw : cfg.words with
      | nil => exact absurd hcw hne
      | cons a l => exact ⟨a, List.mem_cons_self _ _⟩
    intro hnil
    have hmm : w0 ∈ pyDedup cfg.words := List.mem_dedup.mpr hw0
    rw [hnil] at hmm
    exact List.not_mem_nil _ hmm
  have hgen : gen_word_search cfg pick (K + 1)
      = some (some (renderRows (renderPuzzleGrid pick sf.table),
          renderRows (renderKeyGrid sf.table starts))) := by
    simp only [gen_word_search]
    rw [if_neg hdedne, hrun]
    show (match render_puzzle pick sf false, render_puzzle pick sf true with
      | some p, some k => some (some (p, k))
      | _, _ => none)
      = some (some (renderRows (renderPuzzleGrid pick sf.table),
          renderRows (renderKeyGrid sf.table starts)))
    rw [hr1, hr2]
  refine ⟨K + 1, _, _, sf, hgen, hrun, rfl, ?_⟩
  intro w hwmem
  have hwd : w ∈ pyDedup cfg.words := List.mem_dedup.mpr hwmem
  obtain ⟨j, hj⟩ := List.get?_of_mem hwd
  have hjlt : j < (pyDedup cfg.words).length := (List.get?_eq_some.mp hj).1
  have hji : j < sf.index := by omega
  obtain ⟨p, hp, hpx, hpy, hpd, hocc⟩ := placedGrid_words { cfg with words := pyDedup cfg.words }
    sf hinvf hdirs' sf.index (le_refl _) sf.table htab j hji w hj
  refine ⟨p, hpd, hpx, hpy, ?_⟩
  intro i c hic
  obtain ⟨xi, yi, hcell, hx0, hx1, hy0, hy1, hval⟩ := hocc i c hic
  have hlenf : sf.table.length = sf.dim :=
    (placedGrid_shape { cfg with words := pyDedup cfg.words } sf sf.index sf.table htab).1
  have hrowsf := (placedGrid_shape { cfg with words := pyDedup cfg.words } sf sf.index sf.table htab).2
  have hx : xi.toNat < sf.table.length := by omega
  have hy : yi.toNat < (sf.table.getD xi.toNat []).length := by
    obtain ⟨row, hrow⟩ : ∃ row, sf.table[xi.toNat]? = some row := ⟨_, List.getElem?_eq_getElem hx⟩
    have hmemrow : row ∈ sf.table := by
      have h2 := List.getElem?_eq_getElem hx
      rw [hrow] at h2
      have h3 := Option.some.inj h2
      rw [h3]
      exact List.getElem_mem hx
    rw [List.getD_eq_getElem?_getD, hrow]
    simp only [Option.getD_some]
    rw [hrowsf row hmemrow]
    omega
  refine ⟨xi.toNat, yi.toNat, ?_, by omega, by omega, ?_, ?_⟩
  · rw [Int.toNat_of_nonneg hx0, Int.toNat_of_nonneg hy0]
    exact hcell
  · exact hval
  · show gridGet (renderPuzzleGrid pick sf.table) xi.toNat yi.toNat = some c
    unfold renderPuzzleGrid
    rw [gridGet_fill_with_random pick sf.table _ _ hx hy, hval]
    rfl

/-- C1 witness: the one-word run `cfgC1` (word `"CAT"`, all eight directions,
default size factor, identity shuffle, never halted) succeeds for some fuel
and contains its word. -/
theorem C1_witness :
    ∃ fuel puzzle key s,
      gen_word_search cfgC1 (fun _ _ => 0) fuel = some (some (puzzle, key)) ∧
      runLoop { cfgC1 with words := pyDedup cfgC1.words } fuel
        (initSt { cfgC1 with words := pyDedup cfgC1.words }) = some (some s) ∧
      puzzle = renderRows (renderPuzzleGrid (fun _ _ => 0) s.table) ∧
      ∀ w ∈ cfgC1.words, ∃ p : Position,
        p.direction ∈ cfgC1.directions ∧ p.x < s.dim ∧ p.y < s.dim ∧
        ∀ i c, w.toList.get? i = some c →
          ∃ x y : Nat, (p.cells w.length).get? i = some ((x : Int), (y : Int)) ∧
            x < s.dim ∧ y < s.dim ∧
            gridGet s.table x y = some c ∧
            gridGet (renderPuzzleGrid (fun _ _ => 0) s.table) x y = some c :=
  C1_gen_word_search_terminates cfgC1 (fun _ _ => 0) (by decide) (by decide) (by decide)
    (fun _ li => List.Perm.refl li) (fun _ => rfl)

end WordSearch
